import Mathlib

/-!
Shallow embedding of the hashlife engine (`src/lib.rs`, `src/automata.rs`)
and proofs about it.

Modelling conventions:
* A `Node` is indexed by its `level`: the stored `level` field of the Rust
  struct is the type index, and the constraint that the four children of a
  branch share one level (asserted in `Hashlife::join`) is enforced by the
  constructor type.  `population` and `level` are the recursive functions
  that `join` / `make_automata` compute field-by-field.
* The interning cache (`Cache`) only affects sharing, never the value of any
  node: `join` returns a node content-equal to the one it would freshly
  build, and `step`'s memo table returns the previously computed result of
  the same pure computation.  The embedding therefore uses plain pure
  functions and models node equality (`PartialEq for Node`: level,
  population and content hash agree) as structural equality, which is what
  the hash-consing assumption of the spec (no 64-bit collisions) makes it.
* Rust panics (`unwrap` on absent children, `panic!` in `get_node_with`,
  stepping a node below level 2) are modelled by `Option`: `none` is a
  panic.
* Machine integers: `usize` values are `Nat`, `isize` values are `Int`.
  All subtractions of `usize` quantities mirror Rust's truncating `-`
  (Lean's `Nat` subtraction behaves identically on the in-range values the
  verified paths produce); `as usize` casts are `Int.toNat` and are applied
  only to values that are non-negative on the paths under verification.
-/

namespace Hashlife

/-- The two-state cell (`Automata` in src/automata.rs). -/
inductive Automata where
  | dead
  | alive
deriving DecidableEq, Repr

/-- The numeric value of an automaton (`Automata as usize`): Dead = 0, Alive = 1. -/
def Automata.toNat : Automata → Nat
  | .dead => 0
  | .alive => 1

/-- `Automata::is_alive`. -/
def Automata.isAlive : Automata → Bool
  | .dead => false
  | .alive => true

/-- Modelled from the spec: the conversion `Automata::from(usize)` used by
`Hashlife::from_array`, `Hashlife::construct` and `Node::as_automata` is not
among the files under src/ (only its call sites are).  The spec states that
`from_array` reads 0 as Dead and any non-zero value as Alive. -/
def Automata.fromNat (v : Nat) : Automata :=
  if v = 0 then .dead else .alive

/-- `sim` (src/automata.rs): generic life rule.  Returns Alive iff the center
is alive and the live-neighbor count is in the survival list, or the center is
dead and the count is in the birth list. -/
def sim (center : Automata) (neighbors : List Automata)
    (birth servival : List Nat) : Automata :=
  let livingNeighbors : Nat := (neighbors.map Automata.toNat).sum
  match center with
  | .alive => if servival.contains livingNeighbors then .alive else .dead
  | .dead => if birth.contains livingNeighbors then .alive else .dead

/-- `simb3s23` (src/automata.rs): Conway's rule, birth on 3, survival on 2 or 3. -/
def simb3s23 (center n1 n2 n3 n4 n5 n6 n7 n8 : Automata) : Automata :=
  sim center [n1, n2, n3, n4, n5, n6, n7, n8] [3] [2, 3]

/-- The quadtree node of src/lib.rs.  The index is the stored `level` field;
`children` is absent exactly at level 0 (`leaf`) and a level-(k+1) branch holds
four level-k children nw, ne, sw, se (the equal-level asserts of
`Hashlife::join` are the constructor's type). -/
inductive Node : Nat → Type where
  | leaf (a : Automata) : Node 0
  | branch {k : Nat} (nw ne sw se : Node k) : Node (k + 1)

/-- The stored `population` field, as computed at construction:
`make_automata` stores `a as usize`, `join` stores the sum of the four
children's populations. -/
def Node.population : {k : Nat} → Node k → Nat
  | _, .leaf a => a.toNat
  | _, .branch nw ne sw se =>
      nw.population + ne.population + sw.population + se.population

/-- The stored `level` field, as computed at construction: `make_automata`
stores 0 and `join` stores `nw.level + 1`. -/
def Node.level : {k : Nat} → Node k → Nat
  | _, .leaf _ => 0
  | _, .branch nw _ _ _ => nw.level + 1

/-- nw projection of `Node::get_children`. -/
def Node.nw : {k : Nat} → Node (k + 1) → Node k
  | _, .branch nw _ _ _ => nw

/-- ne projection of `Node::get_children`. -/
def Node.ne : {k : Nat} → Node (k + 1) → Node k
  | _, .branch _ ne _ _ => ne

/-- sw projection of `Node::get_children`. -/
def Node.sw : {k : Nat} → Node (k + 1) → Node k
  | _, .branch _ _ sw _ => sw

/-- se projection of `Node::get_children`. -/
def Node.se : {k : Nat} → Node (k + 1) → Node k
  | _, .branch _ _ _ se => se

/-- `Node::as_automata`: convert a leaf back to an automaton from its stored
population. -/
def Node.asAutomata (n : Node 0) : Automata :=
  Automata.fromNat n.population

/-- `Hashlife::join`: the canonical level-(k+1) node over four level-k
children.  Interning only affects sharing, so the joined node is the branch
itself. -/
def join {k : Nat} (nw ne sw se : Node k) : Node (k + 1) :=
  .branch nw ne sw se

/-- `Hashlife::make_automata`: the canonical leaf for an automaton. -/
def makeAutomata (a : Automata) : Node 0 :=
  .leaf a

/-- `Hashlife::empty`: the canonical all-dead node at a level (the Rust code
stores population 0 directly; here the node is built from its children and
its population is proved to be 0). -/
def empty : (k : Nat) → Node k
  | 0 => makeAutomata .dead
  | k + 1 =>
      let child := empty k
      .branch child child child child

/-- The `Nonants` struct of src/lib.rs: a node separated into nine overlapping
sub-nodes (four corners, four edges, center). -/
structure Nonants (k : Nat) where
  nw : Node k
  ne : Node k
  sw : Node k
  se : Node k
  n_ : Node k
  e_ : Node k
  s_ : Node k
  w_ : Node k
  c_ : Node k

/-- `Hashlife::into_nonants`: corners are the children, edges and center are
joins of the grand-children (field `xyzw` of `GrandChildren` is `x.yzw` here,
e.g. `g.nwse = node.nw.se`). -/
def intoNonants {k : Nat} (node : Node (k + 3)) : Nonants (k + 2) :=
  { nw := node.nw
    ne := node.ne
    sw := node.sw
    se := node.se
    n_ := join node.nw.ne node.ne.nw node.nw.se node.ne.sw
    e_ := join node.ne.sw node.ne.se node.se.nw node.se.ne
    s_ := join node.sw.ne node.se.nw node.sw.se node.se.sw
    w_ := join node.nw.sw node.nw.se node.sw.nw node.sw.ne
    c_ := join node.nw.se node.ne.sw node.sw.ne node.se.nw }

/-- `Hashlife::join_nonants`: recombine the quadrants of the nine stepped
nonants into the level-(k+2) result. -/
def joinNonants {k : Nat} (nodes : Nonants (k + 1)) : Node (k + 2) :=
  let nwRes := join nodes.nw.se nodes.n_.sw nodes.w_.ne nodes.c_.nw
  let neRes := join nodes.n_.se nodes.ne.sw nodes.c_.ne nodes.e_.nw
  let swRes := join nodes.w_.se nodes.c_.sw nodes.sw.ne nodes.s_.nw
  let seRes := join nodes.c_.se nodes.e_.sw nodes.s_.ne nodes.se.nw
  join nwRes neRes swRes seRes

/-- `Hashlife::step`.  The level-(<2) arms of the Rust `match` are panics and
are unrepresentable here (the argument type is `Node (k+2)`); the level-2 arm
applies `simb3s23` to the grand-automata (`g.xyzw = n.x.yzw`, read through
`as_automata`), the higher arm steps the nine nonants and recombines them.
The `step` memo table returns the result of this same computation and is
omitted. -/
def Node.step : {k : Nat} → Node (k + 2) → Node (k + 1)
  | 0, n =>
      let nw' := simb3s23 n.nw.se.asAutomata n.nw.nw.asAutomata n.nw.ne.asAutomata
        n.ne.nw.asAutomata n.ne.sw.asAutomata n.se.nw.asAutomata n.sw.ne.asAutomata
        n.sw.nw.asAutomata n.nw.sw.asAutomata
      let ne' := simb3s23 n.ne.sw.asAutomata n.nw.ne.asAutomata n.ne.nw.asAutomata
        n.ne.ne.asAutomata n.ne.se.asAutomata n.se.ne.asAutomata n.se.nw.asAutomata
        n.sw.ne.asAutomata n.nw.se.asAutomata
      let sw' := simb3s23 n.sw.ne.asAutomata n.nw.sw.asAutomata n.nw.se.asAutomata
        n.ne.sw.asAutomata n.se.nw.asAutomata n.se.sw.asAutomata n.sw.se.asAutomata
        n.sw.sw.asAutomata n.sw.nw.asAutomata
      let se' := simb3s23 n.se.nw.asAutomata n.nw.se.asAutomata n.ne.sw.asAutomata
        n.ne.se.asAutomata n.se.ne.asAutomata n.se.se.asAutomata n.se.sw.asAutomata
        n.sw.se.asAutomata n.sw.ne.asAutomata
      join (makeAutomata nw') (makeAutomata ne') (makeAutomata sw') (makeAutomata se')
  | _ + 1, n =>
      let g := intoNonants n
      joinNonants
        { nw := g.nw.step
          ne := g.ne.step
          sw := g.sw.step
          se := g.se.step
          n_ := g.n_.step
          e_ := g.e_.step
          s_ := g.s_.step
          w_ := g.w_.step
          c_ := g.c_.step }

/-- Reference semantics of a node: the cell in column `i` (counted eastward
from the west edge) and row `j` (counted northward from the south edge),
for `i, j < 2^k`; `true` is a live cell. -/
def Node.cell : {k : Nat} → Node k → Nat → Nat → Bool
  | 0, .leaf a, _, _ => a.isAlive
  | k + 1, .branch nw ne sw se, i, j =>
      if j < 2 ^ k then
        if i < 2 ^ k then sw.cell i j else se.cell (i - 2 ^ k) j
      else
        if i < 2 ^ k then nw.cell i (j - 2 ^ k) else ne.cell (i - 2 ^ k) (j - 2 ^ k)

/-- Spec-side B3/S23 rule on one cell value and its live-neighbor count. -/
def b3s23 (center : Bool) (livingNeighbors : Nat) : Bool :=
  if center then livingNeighbors == 2 || livingNeighbors == 3
  else livingNeighbors == 3

/-- Spec-side count of the live cells among the eight neighbors of `(i, j)`
on a grid `f`; meaningful for `1 ≤ i` and `1 ≤ j`. -/
def liveNeighbors (f : Nat → Nat → Bool) (i j : Nat) : Nat :=
  (f (i - 1) (j - 1)).toNat + (f i (j - 1)).toNat + (f (i + 1) (j - 1)).toNat +
    (f (i - 1) j).toNat + (f (i + 1) j).toNat +
    (f (i - 1) (j + 1)).toNat + (f i (j + 1)).toNat + (f (i + 1) (j + 1)).toNat

/-- Spec-side one-cell update: the B3/S23 next state of cell `(i, j)` of `f`. -/
def lifeStep (f : Nat → Nat → Bool) (i j : Nat) : Bool :=
  b3s23 (f i j) (liveNeighbors f i j)

/-- The `Edge` enumeration of src/lib.rs. -/
inductive Edge where
  | torus
  | truncate
  | infinite

/-- The engine state (`Hashlife` struct): the edge rule, the optional root of
the current generation, the optional root of the previous generation, and the
generation counter.  The interning cache field only affects sharing and is
omitted; roots of different levels are a sigma type. -/
structure Engine where
  edge : Edge
  top : Option ((k : Nat) × Node k)
  previous : Option ((k : Nat) × Node k)
  gen : Nat

/-- `Hashlife::expand_empty_border`: surround each child of a node with empty
siblings so the original children sit in the center of a node one level up
(the `debug` printing of the Rust code has no effect on the result and is
omitted).  The Rust code calls `get_children` and `empty(level - 1)`, so it
requires level at least 1, which the argument type carries. -/
def expandEmptyBorder {k : Nat} (node : Node (k + 1)) : Node (k + 2) :=
  let e := empty k
  join (join e e e node.nw) (join e e node.ne e)
    (join e node.sw e e) (join node.se e e e)

/-- One `next_generation` update of a present root.  A level-0 root panics in
every arm (`Infinite` and `Truncate` reach `get_children` of the root through
`expand_empty_border`, `Torus` calls it directly), hence `none`.  The
`Infinite` arm expands twice, steps, and contracts when the border population
(population minus the four center grand-children, by sequential `usize`
subtraction) is zero; the `Torus` arm steps a 2x2 tiling of the
quadrant-inverted root; the `Truncate` arm expands once and steps. -/
def nextGenerationTop (edge : Edge) : ((k : Nat) × Node k) → Option ((k : Nat) × Node k)
  | ⟨0, _⟩ => none
  | ⟨k + 1, t⟩ =>
      match edge with
      | .infinite =>
          let expanded := expandEmptyBorder (expandEmptyBorder t)
          let s := expanded.step
          let boarderPopulation := s.population - s.nw.se.population - s.ne.sw.population
            - s.sw.ne.population - s.se.nw.population
          if boarderPopulation = 0 then
            some ⟨k + 1, join s.nw.se s.ne.sw s.sw.ne s.se.nw⟩
          else
            some ⟨k + 2, s⟩
      | .torus =>
          let inverted := join t.se t.sw t.ne t.nw
          some ⟨k + 1, (join inverted inverted inverted inverted).step⟩
      | .truncate =>
          some ⟨k + 1, (expandEmptyBorder t).step⟩

/-- `Hashlife::next_generation`: a no-op when no root is present; otherwise
store the old root as `previous`, replace `top` according to the edge rule and
increment `gen`.  `none` is a panic. -/
def nextGeneration (e : Engine) : Option Engine :=
  match e.top with
  | none => some e
  | some t =>
      (nextGenerationTop e.edge t).map fun next =>
        { e with previous := some t, top := some next, gen := e.gen + 1 }

/-- The population of the root, if any (observer used to compare generations). -/
def topPopulation (e : Engine) : Option Nat :=
  e.top.map fun t => t.2.population

/-- The level of the root, if any. -/
def topLevel (e : Engine) : Option Nat :=
  e.top.map fun t => t.1

/-- Spec-side count of the live cells among the eight neighbors of `(i, j)` on
a grid `f` of side `s`, indices wrapping modulo `s` on both axes. -/
def torusLiveNeighbors (f : Nat → Nat → Bool) (s i j : Nat) : Nat :=
  (f ((i + s - 1) % s) ((j + s - 1) % s)).toNat + (f (i % s) ((j + s - 1) % s)).toNat +
    (f ((i + 1) % s) ((j + s - 1) % s)).toNat +
    (f ((i + s - 1) % s) (j % s)).toNat + (f ((i + 1) % s) (j % s)).toNat +
    (f ((i + s - 1) % s) ((j + 1) % s)).toNat + (f (i % s) ((j + 1) % s)).toNat +
    (f ((i + 1) % s) ((j + 1) % s)).toNat

/-- Spec-side B3/S23 update of cell `(i, j)` of a grid of side `s` whose
neighborhoods wrap modulo `s` on both axes. -/
def torusLifeStep (f : Nat → Nat → Bool) (s i j : Nat) : Bool :=
  b3s23 (f (i % s) (j % s)) (torusLiveNeighbors f s i j)

/-- The `BoundingBox` struct of src/lib.rs: a signed integer rectangle,
y-up (`top ≥ bottom`, `left ≤ right` for the boxes the code builds). -/
structure BoundingBox where
  top : Int
  bottom : Int
  left : Int
  right : Int

/-- `BoundingBox::new(x, y, level)`: the square covered by a node at quadrant
coordinates `(x, y)` of the given level.  Its two asserts always hold
(`2^level ≥ 1`). -/
def BoundingBox.new (x y : Int) (level : Nat) : BoundingBox :=
  let pow2ld : Int := 2 ^ level
  { top := y * pow2ld + pow2ld - 1
    bottom := y * pow2ld
    left := x * pow2ld
    right := x * pow2ld + pow2ld - 1 }

/-- `BoundingBox::collides`: the two rectangles intersect. -/
def BoundingBox.collides (s other : BoundingBox) : Bool :=
  !(other.top < s.bottom || other.bottom > s.top ||
    other.left > s.right || other.right < s.left)

/-- `BoundingBox::width` (`as usize` cast written as `Int.toNat`; the boxes the
verified paths build have `right ≥ left`). -/
def BoundingBox.width (b : BoundingBox) : Nat :=
  (b.right - b.left + 1).toNat

/-- `BoundingBox::height`. -/
def BoundingBox.height (b : BoundingBox) : Nat :=
  (b.top - b.bottom + 1).toNat

/-- `BoundingBox::index`: row-major index of `(x, y)` into a buffer of this
box, row 0 at the top.  The `as usize` casts are `Int.toNat` and the `usize`
subtraction is `Nat` subtraction, as in the source. -/
def BoundingBox.index (b : BoundingBox) (x y : Int) : Nat :=
  let width := (b.right - b.left).toNat + 1
  let idxHeight := (b.top - b.bottom).toNat
  let xAdjusted := (x - b.left).toNat
  let yAdjusted := (y - b.bottom).toNat
  width * (idxHeight - yAdjusted) + xAdjusted

/-- Membership of a point in a box (spec-side reading of `collides` against a
single-point box). -/
def BoundingBox.mem (b : BoundingBox) (x y : Int) : Prop :=
  b.left ≤ x ∧ x ≤ b.right ∧ b.bottom ≤ y ∧ y ≤ b.top

instance (b : BoundingBox) (x y : Int) : Decidable (b.mem x y) := by
  unfold BoundingBox.mem
  infer_instance

/-- The `ConstructionParameters` struct of src/lib.rs. -/
structure ConstructionParameters where
  level : Nat
  vector : List Nat
  width : Nat
  height : Nat
  bound : BoundingBox

/-- `Hashlife::construct`: recursively build the quad tree for quadrant
coordinates `(x, y)` at a level.  Leaf cells outside the input bound are
empty; in-bound leaf cells read the input vector (the Rust `vector[idx]`
indexing is in range whenever the cell is in bound and the bound matches the
buffer dimensions, as `from_array` guarantees; out-of-range reads are `getD`
defaulted).  The recursive case checks, for all four children alike, whether
the box at the parent's `(x, y)` one level down collides with the input bound
(`assemble` in the source), and otherwise produces empty children. -/
def construct (params : ConstructionParameters) : Int → Int → (level : Nat) → Node level
  | x, y, 0 =>
      let bound := BoundingBox.new x y 0
      if !(bound.collides params.bound) then empty 0
      else
        let xidx := (x - params.bound.left).toNat
        let yidx := params.height - 1 - (y - params.bound.bottom).toNat
        let idx := params.width * yidx + xidx
        let v := params.vector.getD idx 0
        makeAutomata (Automata.fromNat v)
  | x, y, level + 1 =>
      let bound := BoundingBox.new x y level
      let hit := bound.collides params.bound
      join
        (if hit then construct params (x * 2) (y * 2 + 1) level else empty level)
        (if hit then construct params (x * 2 + 1) (y * 2 + 1) level else empty level)
        (if hit then construct params (x * 2) (y * 2) level else empty level)
        (if hit then construct params (x * 2 + 1) (y * 2) level else empty level)

/-- The viewport centered at the origin used by `from_array`: `left = -(w/2)`,
`right = w + left - 1`, `bottom = -(h/2)`, `top = h + bottom - 1`. -/
def centeredViewport (width height : Nat) : BoundingBox :=
  let left : Int := -((width / 2 : Nat) : Int)
  let right : Int := (width : Int) + left - 1
  let bottom : Int := -((height / 2 : Nat) : Int)
  let top : Int := (height : Int) + bottom - 1
  { top := top, bottom := bottom, left := left, right := right }

/-- Fuel-driven ceiling base-2 logarithm: `ceilLog2Aux fuel n` follows the
recurrence `clog2 n = clog2 (ceil (n / 2)) + 1` for `n ≥ 2` and is 0 for
`n ≤ 1`; any `fuel ≥ n` suffices. -/
def ceilLog2Aux : Nat → Nat → Nat
  | 0, _ => 0
  | _ + 1, 0 => 0
  | _ + 1, 1 => 0
  | fuel + 1, n + 2 => ceilLog2Aux fuel ((n + 2 + 1) / 2) + 1

/-- `ceil(log2 n)`, the exact mathematical value of the `f64`
`log2().ceil()` computation of `from_array`. -/
def ceilLog2 (n : Nat) : Nat :=
  ceilLog2Aux n n

/-- `Hashlife::from_array`.  The root size exponent is
`ceil(log2(max(width, height)))`, which the source computes through `f64`
`log2().ceil()`; it is embedded as its exact mathematical value `ceilLog2`.
When it is zero the root is the single leaf read from `buffer[0]`; otherwise
the four top-level quadrants are constructed recursively and joined.
(`buffer.len() == width * height` is asserted by the source and assumed by
the theorems.) -/
def fromArray (buffer : List Nat) (width height : Nat) (edge : Edge) : Engine :=
  let bound := centeredViewport width height
  let size := ceilLog2 (max width height)
  match size with
  | 0 =>
      { edge := edge
        top := some ⟨0, makeAutomata (Automata.fromNat (buffer.getD 0 0))⟩
        previous := none
        gen := 0 }
  | s + 1 =>
      let params : ConstructionParameters :=
        { level := s + 1, vector := buffer, width := width, height := height, bound := bound }
      let nw := construct params (-1) 0 s
      let ne := construct params 0 0 s
      let sw := construct params (-1) (-1) s
      let se := construct params 0 (-1) s
      { edge := edge
        top := some ⟨s + 1, join nw ne sw se⟩
        previous := none
        gen := 0 }

/-- The `positions` vector of `Hashlife::get`: entry `i` is the target
coordinate pair floor-divided by `2^i` (`div_euclid`). -/
def buildPositions (x y : Int) : Nat → List (Int × Int)
  | 0 => []
  | n + 1 => (x, y) :: buildPositions (x / 2) (y / 2) n

/-- `Hashlife::get_node_with`: walk down from a node at quadrant coordinates
`(x, y)`, selecting the child whose coordinates match `positions[level - 1]`.
`none` models the `panic!("invalid coordinate calculated")` arm and the
out-of-range `positions[...]` indexing. -/
def getNodeWith (positions : List (Int × Int)) : (x y : Int) → {k : Nat} → Node k →
    Option Automata
  | _, _, 0, n => some n.asAutomata
  | x, y, k + 1, n =>
      match positions.get? k with
      | none => none
      | some position =>
          let nw := (x * 2, y * 2 + 1)
          let ne := (x * 2 + 1, y * 2 + 1)
          let sw := (x * 2, y * 2)
          let se := (x * 2 + 1, y * 2)
          if position = nw then getNodeWith positions nw.1 nw.2 n.nw
          else if position = ne then getNodeWith positions ne.1 ne.2 n.ne
          else if position = sw then getNodeWith positions sw.1 sw.2 n.sw
          else if position = se then getNodeWith positions se.1 se.2 n.se
          else none

/-- `Hashlife::get`: `some none` is Rust's `None` (no root); `some (some a)`
is `Some(a)`; the outer `none` is a panic (the root-level `get_children`
unwrap on a level-0 root, or `get_node_with`'s invalid-coordinate panic). -/
def Engine.get (e : Engine) (x y : Int) : Option (Option Automata) :=
  match e.top with
  | none => some none
  | some ⟨0, _⟩ => none
  | some ⟨k + 1, t⟩ =>
      let positions := buildPositions x y (k + 1)
      if y < 0 then
        if x < 0 then (getNodeWith positions (-1) (-1) t.sw).map some
        else (getNodeWith positions 0 (-1) t.se).map some
      else
        if x < 0 then (getNodeWith positions (-1) 0 t.nw).map some
        else (getNodeWith positions 0 0 t.ne).map some

/-- `Hashlife::draw_to_cell`: recursively draw a node at quadrant coordinates
`(x, y)` into the viewport buffer, skipping subtrees whose box misses the
viewport; each level-0 node writes its population at `viewport.index(x, y)`.
The Rust `buffer[...] = v` write is `List.set` (in range for the
correctly-sized buffers of the verified properties). -/
def drawToCell (viewport : BoundingBox) : {k : Nat} → (x y : Int) → Node k →
    List Nat → List Nat
  | 0, x, y, .leaf a, buffer =>
      if (BoundingBox.new x y 0).collides viewport then
        buffer.set (viewport.index x y) a.toNat
      else buffer
  | k + 1, x, y, .branch nw ne sw se, buffer =>
      if (BoundingBox.new x y (k + 1)).collides viewport then
        drawToCell viewport (2 * x + 1) (2 * y) se
          (drawToCell viewport (2 * x) (2 * y) sw
            (drawToCell viewport (2 * x + 1) (2 * y + 1) ne
              (drawToCell viewport (2 * x) (2 * y + 1) nw buffer)))
      else buffer

/-- `Hashlife::draw_to_viewport_buffer`: a level-0 root writes its population
at index 0; otherwise the four children are drawn at quadrant coordinates
`(-1, 0)`, `(0, 0)`, `(-1, -1)`, `(0, -1)`. -/
def drawToViewportBuffer (e : Engine) (buffer : List Nat) (viewport : BoundingBox) :
    List Nat :=
  match e.top with
  | none => buffer
  | some ⟨0, n⟩ => buffer.set 0 n.population
  | some ⟨_ + 1, t⟩ =>
      drawToCell viewport 0 (-1) t.se
        (drawToCell viewport (-1) (-1) t.sw
          (drawToCell viewport 0 0 t.ne
            (drawToCell viewport (-1) 0 t.nw buffer)))

/-- `PartialEq for Node` (level, population and content hash all agree): under
the interning cache's no-collision assumption this is structural equality,
here computed across possibly different levels. -/
def nodeEq : {a : Nat} → Node a → {b : Nat} → Node b → Bool
  | _, .leaf x, _, .leaf y => x == y
  | _, .branch a1 a2 a3 a4, _, .branch b1 b2 b3 b4 =>
      nodeEq a1 b1 && nodeEq a2 b2 && nodeEq a3 b3 && nodeEq a4 b4
  | _, _, _, _ => false

/-- `Hashlife::draw_diff_to_cell`: like `draw_to_cell` but descends `node` and
`previous` in lock-step, skipping child pairs that compare equal; `none`
models the panic of `previous.get_children()` when `previous` is a leaf while
`node` is not. -/
def drawDiffToCell (viewport : BoundingBox) : {k : Nat} → (x y : Int) → Node k →
    {k' : Nat} → Node k' → List Nat → Option (List Nat)
  | 0, x, y, .leaf a, _, _, buffer =>
      if (BoundingBox.new x y 0).collides viewport then
        some (buffer.set (viewport.index x y) a.toNat)
      else some buffer
  | k + 1, x, y, .branch n1 n2 n3 n4, _, p, buffer =>
      if (BoundingBox.new x y (k + 1)).collides viewport then
        match p with
        | .leaf _ => none
        | .branch p1 p2 p3 p4 =>
            (if nodeEq n1 p1 then some buffer
              else drawDiffToCell viewport (2 * x) (2 * y + 1) n1 p1 buffer).bind fun b1 =>
            (if nodeEq n2 p2 then some b1
              else drawDiffToCell viewport (2 * x + 1) (2 * y + 1) n2 p2 b1).bind fun b2 =>
            (if nodeEq n3 p3 then some b2
              else drawDiffToCell viewport (2 * x) (2 * y) n3 p3 b2).bind fun b3 =>
            (if nodeEq n4 p4 then some b3
              else drawDiffToCell viewport (2 * x + 1) (2 * y) n4 p4 b3)
      else some buffer

/-- `Hashlife::draw_diff_to_viewport_array`: a level-0 root writes its
population at index 0 and returns; an absent root, absent previous root, or
level-0 previous root returns the buffer unchanged; otherwise the four child
pairs are diff-drawn, skipping equal pairs. -/
def drawDiffToViewportArray (e : Engine) (buffer : List Nat) (viewport : BoundingBox) :
    Option (List Nat) :=
  match e.top with
  | none => some buffer
  | some ⟨0, n⟩ => some (buffer.set 0 n.population)
  | some ⟨_ + 1, t⟩ =>
      match e.previous with
      | none => some buffer
      | some ⟨0, _⟩ => some buffer
      | some ⟨_ + 1, p⟩ =>
          (if nodeEq t.nw p.nw then some buffer
            else drawDiffToCell viewport (-1) 0 t.nw p.nw buffer).bind fun b1 =>
          (if nodeEq t.ne p.ne then some b1
            else drawDiffToCell viewport 0 0 t.ne p.ne b1).bind fun b2 =>
          (if nodeEq t.sw p.sw then some b2
            else drawDiffToCell viewport (-1) (-1) t.sw p.sw b2).bind fun b3 =>
          (if nodeEq t.se p.se then some b3
          else drawDiffToCell viewport 0 (-1) t.se p.se b3)

/-- A 4x4 `Truncate` engine holding a pre-block (three live cells in an L):
its next generation is a block of four, so the population grows. -/
def preBlockEngine : Engine :=
  fromArray [0, 0, 0, 0, 0, 1, 1, 0, 0, 1, 0, 0, 0, 0, 0, 0] 4 4 .truncate

/-- A 1x1 engine: its root is a single leaf at level 0. -/
def oneCellEngine : Engine :=
  fromArray [1] 1 1 .truncate

/-- A 4x4 all-alive `Truncate` engine (root level 2). -/
def gridEngine4 : Engine :=
  fromArray [1, 1, 1, 1, 1, 1, 1, 1, 1, 1, 1, 1, 1, 1, 1, 1] 4 4 .truncate

/-- A 4x4 `Infinite` engine with a row of three live cells on its top edge:
its next generation spills over the edge, so the root grows to level 3 while
`previous` stays at level 2. -/
def spillEngine : Engine :=
  fromArray [0, 1, 1, 1, 0, 0, 0, 0, 0, 0, 0, 0, 0, 0, 0, 0] 4 4 .infinite

/-- The 4x4 origin-centered viewport. -/
def cexViewport : BoundingBox :=
  { top := 1, bottom := -2, left := -2, right := 1 }

/-- The previous generation's full render of `spillEngine` (the seed buffer
for the differential render). -/
def spillSeed : List Nat :=
  drawToViewportBuffer spillEngine (List.replicate 16 0) cexViewport

/-- Differential render of the advanced `spillEngine` over the seeded buffer. -/
def spillDiff : Option (List Nat) :=
  (nextGeneration spillEngine).bind fun e1 =>
    drawDiffToViewportArray e1 spillSeed cexViewport

/-- Membership of a point in the square covered by a node at quadrant
coordinates `(x, y)` of a level (spec-side reading of `BoundingBox.new`). -/
def inNodeBox (x y : Int) (k : Nat) (cx cy : Int) : Prop :=
  x * 2 ^ k ≤ cx ∧ cx < (x + 1) * 2 ^ k ∧ y * 2 ^ k ≤ cy ∧ cy < (y + 1) * 2 ^ k

instance (x y : Int) (k : Nat) (cx cy : Int) : Decidable (inNodeBox x y k cx cy) := by
  unfold inNodeBox
  infer_instance

/-- A concrete level-1 node with two diagonal live cells (witness input). -/
def torusWitnessNode : Node 1 :=
  join (makeAutomata .alive) (makeAutomata .dead) (makeAutomata .dead) (makeAutomata .alive)

@[simp]
theorem Automata.toNat_isAlive (a : Automata) : a.isAlive.toNat = a.toNat := by
  cases a <;> rfl

@[simp]
theorem Node.asAutomata_leaf (a : Automata) : (Node.leaf a).asAutomata = a := by
  cases a <;> rfl

/-- The code's rule function agrees with the spec-side rule on the sum of the
eight neighbor values (`sim` only looks at the sum, so argument order is
immaterial). -/
theorem simb3s23_isAlive (c n1 n2 n3 n4 n5 n6 n7 n8 : Automata) :
    (simb3s23 c n1 n2 n3 n4 n5 n6 n7 n8).isAlive
      = b3s23 c.isAlive (n1.toNat + n2.toNat + n3.toNat + n4.toNat + n5.toNat +
          n6.toNat + n7.toNat + n8.toNat) := by
  cases c <;>
    simp [simb3s23, sim, b3s23, Automata.isAlive, List.contains, Nat.add_assoc] <;>
    split <;> simp_all <;> tauto

theorem cell_eq_sw {k : Nat} (m : Node (k + 1)) {i j : Nat}
    (hi : i < 2 ^ k) (hj : j < 2 ^ k) : m.cell i j = m.sw.cell i j := by
  cases m with
  | branch nw ne sw se => simp [Node.cell, Node.sw, hi, hj]

theorem cell_eq_se {k : Nat} (m : Node (k + 1)) (i : Nat) {j : Nat}
    (hj : j < 2 ^ k) : m.cell (2 ^ k + i) j = m.se.cell i j := by
  cases m with
  | branch nw ne sw se => simp [Node.cell, Node.se, hj]

theorem cell_eq_nw {k : Nat} (m : Node (k + 1)) {i : Nat} (j : Nat)
    (hi : i < 2 ^ k) : m.cell i (2 ^ k + j) = m.nw.cell i j := by
  cases m with
  | branch nw ne sw se => simp [Node.cell, Node.nw, hi]

theorem cell_eq_ne {k : Nat} (m : Node (k + 1)) (i j : Nat) :
    m.cell (2 ^ k + i) (2 ^ k + j) = m.ne.cell i j := by
  cases m with
  | branch nw ne sw se => simp [Node.cell, Node.ne]

/-- Base case of step correctness: a level-2 node's step is the B3/S23 update
of its four center cells. -/
theorem step_cell_base (n : Node 2) (i j : Nat) (hi : i < 2) (hj : j < 2) :
    n.step.cell i j = lifeStep n.cell (i + 1) (j + 1) := by
  cases n with
  | branch cnw cne csw cse =>
  cases cnw with
  | branch a1 a2 a3 a4 =>
  cases cne with
  | branch b1 b2 b3 b4 =>
  cases csw with
  | branch c1 c2 c3 c4 =>
  cases cse with
  | branch d1 d2 d3 d4 =>
  obtain ⟨x11⟩ := a1
  obtain ⟨x12⟩ := a2
  obtain ⟨x21⟩ := a3
  obtain ⟨x22⟩ := a4
  obtain ⟨x13⟩ := b1
  obtain ⟨x14⟩ := b2
  obtain ⟨x23⟩ := b3
  obtain ⟨x24⟩ := b4
  obtain ⟨x31⟩ := c1
  obtain ⟨x32⟩ := c2
  obtain ⟨x41⟩ := c3
  obtain ⟨x42⟩ := c4
  obtain ⟨x33⟩ := d1
  obtain ⟨x34⟩ := d2
  obtain ⟨x43⟩ := d3
  obtain ⟨x44⟩ := d4
  interval_cases i <;> interval_cases j <;>
    · simp [Node.step, Node.cell, lifeStep, liveNeighbors, Node.nw, Node.ne, Node.sw,
        Node.se, join, makeAutomata, simb3s23_isAlive]
      congr 1
      omega

/-- `lifeStep` only depends on the 3-by-3 neighborhood, so it commutes with
restricting a grid to a shifted window. -/
theorem lifeStep_shift (f g : Nat → Nat → Bool) (a b s p q : Nat)
    (hf : ∀ u v, u < s → v < s → f u v = g (u + a) (v + b))
    (hp1 : 1 ≤ p) (hp2 : p + 1 < s) (hq1 : 1 ≤ q) (hq2 : q + 1 < s) :
    lifeStep f p q = lifeStep g (p + a) (q + b) := by
  unfold lifeStep liveNeighbors
  rw [hf p q (by omega) (by omega),
    hf (p - 1) (q - 1) (by omega) (by omega),
    hf p (q - 1) (by omega) (by omega),
    hf (p + 1) (q - 1) (by omega) (by omega),
    hf (p - 1) q (by omega) (by omega),
    hf (p + 1) q (by omega) (by omega),
    hf (p - 1) (q + 1) (by omega) (by omega),
    hf p (q + 1) (by omega) (by omega),
    hf (p + 1) (q + 1) (by omega) (by omega),
    show p - 1 + a = p + a - 1 by omega,
    show q - 1 + b = q + b - 1 by omega,
    show p + 1 + a = p + a + 1 by omega,
    show q + 1 + b = q + b + 1 by omega]

/-- The nw nonant is the window of `n` at offset `(0, 2^(k+2))`. -/
theorem intoNonants_cell_nw {k : Nat} (n : Node (k + 3)) (u v : Nat)
    (hu : u < 2 ^ (k + 2)) (hv : v < 2 ^ (k + 2)) :
    (intoNonants n).nw.cell u v = n.cell u (v + 2 ^ (k + 2)) := by
  rw [show (intoNonants n).nw = n.nw from rfl,
    show v + 2 ^ (k + 2) = 2 ^ (k + 2) + v by omega, cell_eq_nw n v hu]

/-- The ne nonant is the window of `n` at offset `(2^(k+2), 2^(k+2))`. -/
theorem intoNonants_cell_ne {k : Nat} (n : Node (k + 3)) (u v : Nat)
    (hu : u < 2 ^ (k + 2)) (hv : v < 2 ^ (k + 2)) :
    (intoNonants n).ne.cell u v = n.cell (u + 2 ^ (k + 2)) (v + 2 ^ (k + 2)) := by
  rw [show (intoNonants n).ne = n.ne from rfl,
    show u + 2 ^ (k + 2) = 2 ^ (k + 2) + u by omega,
    show v + 2 ^ (k + 2) = 2 ^ (k + 2) + v by omega, cell_eq_ne n u v]

/-- The sw nonant is the window of `n` at offset `(0, 0)`. -/
theorem intoNonants_cell_sw {k : Nat} (n : Node (k + 3)) (u v : Nat)
    (hu : u < 2 ^ (k + 2)) (hv : v < 2 ^ (k + 2)) :
    (intoNonants n).sw.cell u v = n.cell u v := by
  rw [show (intoNonants n).sw = n.sw from rfl, cell_eq_sw n hu hv]

/-- The se nonant is the window of `n` at offset `(2^(k+2), 0)`. -/
theorem intoNonants_cell_se {k : Nat} (n : Node (k + 3)) (u v : Nat)
    (hu : u < 2 ^ (k + 2)) (hv : v < 2 ^ (k + 2)) :
    (intoNonants n).se.cell u v = n.cell (u + 2 ^ (k + 2)) v := by
  rw [show (intoNonants n).se = n.se from rfl,
    show u + 2 ^ (k + 2) = 2 ^ (k + 2) + u by omega, cell_eq_se n u hv]

/-- The north edge nonant is the window of `n` at offset `(2^(k+1), 2^(k+2))`. -/
theorem intoNonants_cell_n {k : Nat} (n : Node (k + 3)) (u v : Nat)
    (hu : u < 2 ^ (k + 2)) (hv : v < 2 ^ (k + 2)) :
    (intoNonants n).n_.cell u v = n.cell (u + 2 ^ (k + 1)) (v + 2 ^ (k + 2)) := by
  have p1 : (2 : Nat) ^ (k + 1) = 2 * 2 ^ k := by ring
  have p2 : (2 : Nat) ^ (k + 2) = 4 * 2 ^ k := by ring
  rw [show (intoNonants n).n_ = join n.nw.ne n.ne.nw n.nw.se n.ne.sw from rfl]
  rcases Nat.lt_or_ge u (2 ^ (k + 1)) with hu' | hu' <;>
    rcases Nat.lt_or_ge v (2 ^ (k + 1)) with hv' | hv'
  · rw [cell_eq_sw _ hu' hv',
      show (join n.nw.ne n.ne.nw n.nw.se n.ne.sw).sw = n.nw.se from rfl,
      show v + 2 ^ (k + 2) = 2 ^ (k + 2) + v by omega, cell_eq_nw n v (by omega),
      show u + 2 ^ (k + 1) = 2 ^ (k + 1) + u by omega, cell_eq_se n.nw u hv']
  · obtain ⟨v', rfl⟩ : ∃ t, v = 2 ^ (k + 1) + t := ⟨v - 2 ^ (k + 1), by omega⟩
    rw [cell_eq_nw _ v' hu',
      show (join n.nw.ne n.ne.nw n.nw.se n.ne.sw).nw = n.nw.ne from rfl,
      show 2 ^ (k + 1) + v' + 2 ^ (k + 2) = 2 ^ (k + 2) + (2 ^ (k + 1) + v') by omega,
      cell_eq_nw n (2 ^ (k + 1) + v') (by omega),
      show u + 2 ^ (k + 1) = 2 ^ (k + 1) + u by omega, cell_eq_ne n.nw u v']
  · obtain ⟨u', rfl⟩ : ∃ t, u = 2 ^ (k + 1) + t := ⟨u - 2 ^ (k + 1), by omega⟩
    rw [cell_eq_se _ u' hv',
      show (join n.nw.ne n.ne.nw n.nw.se n.ne.sw).se = n.ne.sw from rfl,
      show v + 2 ^ (k + 2) = 2 ^ (k + 2) + v by omega,
      show 2 ^ (k + 1) + u' + 2 ^ (k + 1) = 2 ^ (k + 2) + u' by omega,
      cell_eq_ne n u' v, cell_eq_sw n.ne (by omega) hv']
  · obtain ⟨u', rfl⟩ : ∃ t, u = 2 ^ (k + 1) + t := ⟨u - 2 ^ (k + 1), by omega⟩
    obtain ⟨v', rfl⟩ : ∃ t, v = 2 ^ (k + 1) + t := ⟨v - 2 ^ (k + 1), by omega⟩
    rw [cell_eq_ne _ u' v',
      show (join n.nw.ne n.ne.nw n.nw.se n.ne.sw).ne = n.ne.nw from rfl,
      show 2 ^ (k + 1) + u' + 2 ^ (k + 1) = 2 ^ (k + 2) + u' by omega,
      show 2 ^ (k + 1) + v' + 2 ^ (k + 2) = 2 ^ (k + 2) + (2 ^ (k + 1) + v') by omega,
      cell_eq_ne n u' (2 ^ (k + 1) + v'), cell_eq_nw n.ne v' (by omega)]

/-- The east edge nonant is the window of `n` at offset `(2^(k+2), 2^(k+1))`. -/
theorem intoNonants_cell_e {k : Nat} (n : Node (k + 3)) (u v : Nat)
    (hu : u < 2 ^ (k + 2)) (hv : v < 2 ^ (k + 2)) :
    (intoNonants n).e_.cell u v = n.cell (u + 2 ^ (k + 2)) (v + 2 ^ (k + 1)) := by
  have p1 : (2 : Nat) ^ (k + 1) = 2 * 2 ^ k := by ring
  have p2 : (2 : Nat) ^ (k + 2) = 4 * 2 ^ k := by ring
  rw [show (intoNonants n).e_ = join n.ne.sw n.ne.se n.se.nw n.se.ne from rfl]
  rcases Nat.lt_or_ge u (2 ^ (k + 1)) with hu' | hu' <;>
    rcases Nat.lt_or_ge v (2 ^ (k + 1)) with hv' | hv'
  · rw [cell_eq_sw _ hu' hv',
      show (join n.ne.sw n.ne.se n.se.nw n.se.ne).sw = n.se.nw from rfl,
      show u + 2 ^ (k + 2) = 2 ^ (k + 2) + u by omega, cell_eq_se n u (by omega),
      show v + 2 ^ (k + 1) = 2 ^ (k + 1) + v by omega, cell_eq_nw n.se v hu']
  · obtain ⟨v', rfl⟩ : ∃ t, v = 2 ^ (k + 1) + t := ⟨v - 2 ^ (k + 1), by omega⟩
    rw [cell_eq_nw _ v' hu',
      show (join n.ne.sw n.ne.se n.se.nw n.se.ne).nw = n.ne.sw from rfl,
      show u + 2 ^ (k + 2) = 2 ^ (k + 2) + u by omega,
      show 2 ^ (k + 1) + v' + 2 ^ (k + 1) = 2 ^ (k + 2) + v' by omega,
      cell_eq_ne n u v', cell_eq_sw n.ne hu' (by omega)]
  · obtain ⟨u', rfl⟩ : ∃ t, u = 2 ^ (k + 1) + t := ⟨u - 2 ^ (k + 1), by omega⟩
    rw [cell_eq_se _ u' hv',
      show (join n.ne.sw n.ne.se n.se.nw n.se.ne).se = n.se.ne from rfl,
      show 2 ^ (k + 1) + u' + 2 ^ (k + 2) = 2 ^ (k + 2) + (2 ^ (k + 1) + u') by omega,
      cell_eq_se n (2 ^ (k + 1) + u') (by omega),
      show v + 2 ^ (k + 1) = 2 ^ (k + 1) + v by omega, cell_eq_ne n.se u' v]
  · obtain ⟨u', rfl⟩ : ∃ t, u = 2 ^ (k + 1) + t := ⟨u - 2 ^ (k + 1), by omega⟩
    obtain ⟨v', rfl⟩ : ∃ t, v = 2 ^ (k + 1) + t := ⟨v - 2 ^ (k + 1), by omega⟩
    rw [cell_eq_ne _ u' v',
      show (join n.ne.sw n.ne.se n.se.nw n.se.ne).ne = n.ne.se from rfl,
      show 2 ^ (k + 1) + u' + 2 ^ (k + 2) = 2 ^ (k + 2) + (2 ^ (k + 1) + u') by omega,
      show 2 ^ (k + 1) + v' + 2 ^ (k + 1) = 2 ^ (k + 2) + v' by omega,
      cell_eq_ne n (2 ^ (k + 1) + u') v', cell_eq_se n.ne u' (by omega)]

/-- The south edge nonant is the window of `n` at offset `(2^(k+1), 0)`. -/
theorem intoNonants_cell_s {k : Nat} (n : Node (k + 3)) (u v : Nat)
    (hu : u < 2 ^ (k + 2)) (hv : v < 2 ^ (k + 2)) :
    (intoNonants n).s_.cell u v = n.cell (u + 2 ^ (k + 1)) v := by
  have p1 : (2 : Nat) ^ (k + 1) = 2 * 2 ^ k := by ring
  have p2 : (2 : Nat) ^ (k + 2) = 4 * 2 ^ k := by ring
  rw [show (intoNonants n).s_ = join n.sw.ne n.se.nw n.sw.se n.se.sw from rfl]
  rcases Nat.lt_or_ge u (2 ^ (k + 1)) with hu' | hu' <;>
    rcases Nat.lt_or_ge v (2 ^ (k + 1)) with hv' | hv'
  · rw [cell_eq_sw _ hu' hv',
      show (join n.sw.ne n.se.nw n.sw.se n.se.sw).sw = n.sw.se from rfl,
      cell_eq_sw n (by omega) (by omega),
      show u + 2 ^ (k + 1) = 2 ^ (k + 1) + u by omega, cell_eq_se n.sw u hv']
  · obtain ⟨v', rfl⟩ : ∃ t, v = 2 ^ (k + 1) + t := ⟨v - 2 ^ (k + 1), by omega⟩
    rw [cell_eq_nw _ v' hu',
      show (join n.sw.ne n.se.nw n.sw.se n.se.sw).nw = n.sw.ne from rfl,
      cell_eq_sw n (by omega) (by omega),
      show u + 2 ^ (k + 1) = 2 ^ (k + 1) + u by omega, cell_eq_ne n.sw u v']
  · obtain ⟨u', rfl⟩ : ∃ t, u = 2 ^ (k + 1) + t := ⟨u - 2 ^ (k + 1), by omega⟩
    rw [cell_eq_se _ u' hv',
      show (join n.sw.ne n.se.nw n.sw.se n.se.sw).se = n.se.sw from rfl,
      show 2 ^ (k + 1) + u' + 2 ^ (k + 1) = 2 ^ (k + 2) + u' by omega,
      cell_eq_se n u' hv, cell_eq_sw n.se (by omega) hv']
  · obtain ⟨u', rfl⟩ : ∃ t, u = 2 ^ (k + 1) + t := ⟨u - 2 ^ (k + 1), by omega⟩
    obtain ⟨v', rfl⟩ : ∃ t, v = 2 ^ (k + 1) + t := ⟨v - 2 ^ (k + 1), by omega⟩
    rw [cell_eq_ne _ u' v',
      show (join n.sw.ne n.se.nw n.sw.se n.se.sw).ne = n.se.nw from rfl,
      show 2 ^ (k + 1) + u' + 2 ^ (k + 1) = 2 ^ (k + 2) + u' by omega,
      cell_eq_se n u' (by omega), cell_eq_nw n.se v' (by omega)]

/-- The west edge nonant is the window of `n` at offset `(0, 2^(k+1))`. -/
theorem intoNonants_cell_w {k : Nat} (n : Node (k + 3)) (u v : Nat)
    (hu : u < 2 ^ (k + 2)) (hv : v < 2 ^ (k + 2)) :
    (intoNonants n).w_.cell u v = n.cell u (v + 2 ^ (k + 1)) := by
  have p1 : (2 : Nat) ^ (k + 1) = 2 * 2 ^ k := by ring
  have p2 : (2 : Nat) ^ (k + 2) = 4 * 2 ^ k := by ring
  rw [show (intoNonants n).w_ = join n.nw.sw n.nw.se n.sw.nw n.sw.ne from rfl]
  rcases Nat.lt_or_ge u (2 ^ (k + 1)) with hu' | hu' <;>
    rcases Nat.lt_or_ge v (2 ^ (k + 1)) with hv' | hv'
  · rw [cell_eq_sw _ hu' hv',
      show (join n.nw.sw n.nw.se n.sw.nw n.sw.ne).sw = n.sw.nw from rfl,
      cell_eq_sw n hu (by omega),
      show v + 2 ^ (k + 1) = 2 ^ (k + 1) + v by omega, cell_eq_nw n.sw v hu']
  · obtain ⟨v', rfl⟩ : ∃ t, v = 2 ^ (k + 1) + t := ⟨v - 2 ^ (k + 1), by omega⟩
    rw [cell_eq_nw _ v' hu',
      show (join n.nw.sw n.nw.se n.sw.nw n.sw.ne).nw = n.nw.sw from rfl,
      show 2 ^ (k + 1) + v' + 2 ^ (k + 1) = 2 ^ (k + 2) + v' by omega,
      cell_eq_nw n v' hu, cell_eq_sw n.nw hu' (by omega)]
  · obtain ⟨u', rfl⟩ : ∃ t, u = 2 ^ (k + 1) + t := ⟨u - 2 ^ (k + 1), by omega⟩
    rw [cell_eq_se _ u' hv',
      show (join n.nw.sw n.nw.se n.sw.nw n.sw.ne).se = n.sw.ne from rfl,
      cell_eq_sw n (by omega) (by omega),
      show 2 ^ (k + 1) + u' = 2 ^ (k + 1) + u' from rfl,
      show v + 2 ^ (k + 1) = 2 ^ (k + 1) + v by omega, cell_eq_ne n.sw u' v]
  · obtain ⟨u', rfl⟩ : ∃ t, u = 2 ^ (k + 1) + t := ⟨u - 2 ^ (k + 1), by omega⟩
    obtain ⟨v', rfl⟩ : ∃ t, v = 2 ^ (k + 1) + t := ⟨v - 2 ^ (k + 1), by omega⟩
    rw [cell_eq_ne _ u' v',
      show (join n.nw.sw n.nw.se n.sw.nw n.sw.ne).ne = n.nw.se from rfl,
      show 2 ^ (k + 1) + v' + 2 ^ (k + 1) = 2 ^ (k + 2) + v' by omega,
      cell_eq_nw n v' (by omega), cell_eq_se n.nw u' (by omega)]

/-- The center nonant is the window of `n` at offset `(2^(k+1), 2^(k+1))`. -/
theorem intoNonants_cell_c {k : Nat} (n : Node (k + 3)) (u v : Nat)
    (hu : u < 2 ^ (k + 2)) (hv : v < 2 ^ (k + 2)) :
    (intoNonants n).c_.cell u v = n.cell (u + 2 ^ (k + 1)) (v + 2 ^ (k + 1)) := by
  have p1 : (2 : Nat) ^ (k + 1) = 2 * 2 ^ k := by ring
  have p2 : (2 : Nat) ^ (k + 2) = 4 * 2 ^ k := by ring
  rw [show (intoNonants n).c_ = join n.nw.se n.ne.sw n.sw.ne n.se.nw from rfl]
  rcases Nat.lt_or_ge u (2 ^ (k + 1)) with hu' | hu' <;>
    rcases Nat.lt_or_ge v (2 ^ (k + 1)) with hv' | hv'
  · rw [cell_eq_sw _ hu' hv',
      show (join n.nw.se n.ne.sw n.sw.ne n.se.nw).sw = n.sw.ne from rfl,
      cell_eq_sw n (by omega) (by omega),
      show u + 2 ^ (k + 1) = 2 ^ (k + 1) + u by omega,
      show v + 2 ^ (k + 1) = 2 ^ (k + 1) + v by omega, cell_eq_ne n.sw u v]
  · obtain ⟨v', rfl⟩ : ∃ t, v = 2 ^ (k + 1) + t := ⟨v - 2 ^ (k + 1), by omega⟩
    rw [cell_eq_nw _ v' hu',
      show (join n.nw.se n.ne.sw n.sw.ne n.se.nw).nw = n.nw.se from rfl,
      show 2 ^ (k + 1) + v' + 2 ^ (k + 1) = 2 ^ (k + 2) + v' by omega,
      cell_eq_nw n v' (by omega),
      show u + 2 ^ (k + 1) = 2 ^ (k + 1) + u by omega, cell_eq_se n.nw u (by omega)]
  · obtain ⟨u', rfl⟩ : ∃ t, u = 2 ^ (k + 1) + t := ⟨u - 2 ^ (k + 1), by omega⟩
    rw [cell_eq_se _ u' hv',
      show (join n.nw.se n.ne.sw n.sw.ne n.se.nw).se = n.se.nw from rfl,
      show 2 ^ (k + 1) + u' + 2 ^ (k + 1) = 2 ^ (k + 2) + u' by omega,
      cell_eq_se n u' (by omega),
      show v + 2 ^ (k + 1) = 2 ^ (k + 1) + v by omega, cell_eq_nw n.se v (by omega)]
  · obtain ⟨u', rfl⟩ : ∃ t, u = 2 ^ (k + 1) + t := ⟨u - 2 ^ (k + 1), by omega⟩
    obtain ⟨v', rfl⟩ : ∃ t, v = 2 ^ (k + 1) + t := ⟨v - 2 ^ (k + 1), by omega⟩
    rw [cell_eq_ne _ u' v',
      show (join n.nw.se n.ne.sw n.sw.ne n.se.nw).ne = n.ne.sw from rfl,
      show 2 ^ (k + 1) + u' + 2 ^ (k + 1) = 2 ^ (k + 2) + u' by omega,
      show 2 ^ (k + 1) + v' + 2 ^ (k + 1) = 2 ^ (k + 2) + v' by omega,
      cell_eq_ne n u' v', cell_eq_sw n.ne (by omega) (by omega)]

@[simp]
theorem join_nw {k : Nat} (a b c d : Node k) : (join a b c d).nw = a := rfl

@[simp]
theorem join_ne {k : Nat} (a b c d : Node k) : (join a b c d).ne = b := rfl

@[simp]
theorem join_sw {k : Nat} (a b c d : Node k) : (join a b c d).sw = c := rfl

@[simp]
theorem join_se {k : Nat} (a b c d : Node k) : (join a b c d).se = d := rfl

@[simp]
theorem branch_nw {k : Nat} (a b c d : Node k) : (Node.branch a b c d).nw = a := rfl

@[simp]
theorem branch_ne {k : Nat} (a b c d : Node k) : (Node.branch a b c d).ne = b := rfl

@[simp]
theorem branch_sw {k : Nat} (a b c d : Node k) : (Node.branch a b c d).sw = c := rfl

@[simp]
theorem branch_se {k : Nat} (a b c d : Node k) : (Node.branch a b c d).se = d := rfl

/-- Stepping a nonant that is a window of `n` computes the life update of `n`
at the window-shifted coordinates. -/
theorem step_nonant_cell {k : Nat} (n : Node (k + 3)) (X : Node (k + 2)) (a b : Nat)
    (hX : ∀ u v, u < 2 ^ (k + 2) → v < 2 ^ (k + 2) → X.cell u v = n.cell (u + a) (v + b))
    (IH : ∀ (m : Node (k + 2)) (u v : Nat), u < 2 ^ (k + 1) → v < 2 ^ (k + 1) →
      m.step.cell u v = lifeStep m.cell (u + 2 ^ k) (v + 2 ^ k))
    (u v : Nat) (hu : u < 2 ^ (k + 1)) (hv : v < 2 ^ (k + 1)) :
    X.step.cell u v = lifeStep n.cell (u + 2 ^ k + a) (v + 2 ^ k + b) := by
  have p1 : (2 : Nat) ^ (k + 1) = 2 * 2 ^ k := by ring
  have p2 : (2 : Nat) ^ (k + 2) = 4 * 2 ^ k := by ring
  have hk : 1 ≤ (2 : Nat) ^ k := Nat.one_le_two_pow
  rw [IH X u v hu hv]
  exact lifeStep_shift X.cell n.cell a b (2 ^ (k + 2)) (u + 2 ^ k) (v + 2 ^ k) hX
    (by omega) (by omega) (by omega) (by omega)

/-- Correctness of `Hashlife::step` (claim C1's engine): for a node of level
`k + 2`, `step` returns the level-(k+1) node whose cell `(i, j)` is the B3/S23
update of the center cell `(i + 2^k, j + 2^k)` of the input, computed from its
eight neighbors inside the input. -/
theorem step_cell : {k : Nat} → (n : Node (k + 2)) → (i j : Nat) →
    i < 2 ^ (k + 1) → j < 2 ^ (k + 1) →
    n.step.cell i j = lifeStep n.cell (i + 2 ^ k) (j + 2 ^ k)
  | 0, n, i, j, hi, hj => by
      simpa using step_cell_base n i j (by simpa using hi) (by simpa using hj)
  | k + 1, n, i, j, hi, hj => by
      have p1 : (2 : Nat) ^ (k + 1) = 2 * 2 ^ k := by ring
      have p2 : (2 : Nat) ^ (k + 2) = 4 * 2 ^ k := by ring
      have hk : 1 ≤ (2 : Nat) ^ k := Nat.one_le_two_pow
      have IH : ∀ (m : Node (k + 2)) (u v : Nat), u < 2 ^ (k + 1) → v < 2 ^ (k + 1) →
          m.step.cell u v = lifeStep m.cell (u + 2 ^ k) (v + 2 ^ k) :=
        fun m u v hu hv => step_cell m u v hu hv
      have Enw : (Node.step n).nw = join ((intoNonants n).nw.step).se
          ((intoNonants n).n_.step).sw ((intoNonants n).w_.step).ne
          ((intoNonants n).c_.step).nw := rfl
      have Ene : (Node.step n).ne = join ((intoNonants n).n_.step).se
          ((intoNonants n).ne.step).sw ((intoNonants n).c_.step).ne
          ((intoNonants n).e_.step).nw := rfl
      have Esw : (Node.step n).sw = join ((intoNonants n).w_.step).se
          ((intoNonants n).c_.step).sw ((intoNonants n).sw.step).ne
          ((intoNonants n).s_.step).nw := rfl
      have Ese : (Node.step n).se = join ((intoNonants n).c_.step).se
          ((intoNonants n).e_.step).sw ((intoNonants n).s_.step).ne
          ((intoNonants n).se.step).nw := rfl
      rcases (by omega : i < 2 ^ k ∨ (2 ^ k ≤ i ∧ i < 2 ^ (k + 1)) ∨
          (2 ^ (k + 1) ≤ i ∧ i < 2 ^ (k + 1) + 2 ^ k) ∨ 2 ^ (k + 1) + 2 ^ k ≤ i)
        with hi' | hi' | hi' | hi' <;>
      rcases (by omega : j < 2 ^ k ∨ (2 ^ k ≤ j ∧ j < 2 ^ (k + 1)) ∨
          (2 ^ (k + 1) ≤ j ∧ j < 2 ^ (k + 1) + 2 ^ k) ∨ 2 ^ (k + 1) + 2 ^ k ≤ j)
        with hj' | hj' | hj' | hj'
      · -- i, j in quarter 0: sw of swRes: stepped sw nonant's ne child
        rw [cell_eq_sw _ (by omega) (by omega), Esw, cell_eq_sw _ hi' hj', join_sw,
          ← cell_eq_ne ((intoNonants n).sw.step) i j,
          step_nonant_cell n _ 0 0 (fun u v hu hv => by
            simpa using intoNonants_cell_sw n u v hu hv) IH _ _ (by omega) (by omega)]
        exact congrArg₂ (lifeStep n.cell) (by omega) (by omega)
      · -- i quarter 0, j quarter 1: nw of swRes: stepped w nonant's se child
        obtain ⟨j₀, rfl, hj₀⟩ : ∃ t, j = 2 ^ k + t ∧ t < 2 ^ k :=
          ⟨j - 2 ^ k, by omega, by omega⟩
        rw [cell_eq_sw _ (by omega) (by omega), Esw, cell_eq_nw _ j₀ hi', join_nw,
          ← cell_eq_se ((intoNonants n).w_.step) i hj₀,
          step_nonant_cell n _ 0 (2 ^ (k + 1)) (intoNonants_cell_w n) IH _ _
            (by omega) (by omega)]
        exact congrArg₂ (lifeStep n.cell) (by omega) (by omega)
      · -- i quarter 0, j quarter 2: sw of nwRes: stepped w nonant's ne child
        obtain ⟨j₀, rfl, hj₀⟩ : ∃ t, j = 2 ^ (k + 1) + t ∧ t < 2 ^ k :=
          ⟨j - 2 ^ (k + 1), by omega, by omega⟩
        rw [cell_eq_nw _ j₀ (by omega), Enw, cell_eq_sw _ hi' hj₀, join_sw,
          ← cell_eq_ne ((intoNonants n).w_.step) i j₀,
          step_nonant_cell n _ 0 (2 ^ (k + 1)) (intoNonants_cell_w n) IH _ _
            (by omega) (by omega)]
        exact congrArg₂ (lifeStep n.cell) (by omega) (by omega)
      · -- i quarter 0, j quarter 3: nw of nwRes: stepped nw nonant's se child
        obtain ⟨j₀, rfl, hj₀⟩ : ∃ t, j = 2 ^ (k + 1) + (2 ^ k + t) ∧ t < 2 ^ k :=
          ⟨j - (2 ^ (k + 1) + 2 ^ k), by omega, by omega⟩
        rw [cell_eq_nw _ (2 ^ k + j₀) (by omega), Enw, cell_eq_nw _ j₀ hi', join_nw,
          ← cell_eq_se ((intoNonants n).nw.step) i hj₀,
          step_nonant_cell n _ 0 (2 ^ (k + 2)) (intoNonants_cell_nw n) IH _ _
            (by omega) (by omega)]
        exact congrArg₂ (lifeStep n.cell) (by omega) (by omega)
      · -- i quarter 1, j quarter 0: se of swRes: stepped s nonant's nw child
        obtain ⟨i₀, rfl, hi₀⟩ : ∃ t, i = 2 ^ k + t ∧ t < 2 ^ k :=
          ⟨i - 2 ^ k, by omega, by omega⟩
        rw [cell_eq_sw _ (by omega) (by omega), Esw, cell_eq_se _ i₀ hj', join_se,
          ← cell_eq_nw ((intoNonants n).s_.step) j hi₀,
          step_nonant_cell n _ (2 ^ (k + 1)) 0 (fun u v hu hv => by
            simpa using intoNonants_cell_s n u v hu hv) IH _ _ (by omega) (by omega)]
        exact congrArg₂ (lifeStep n.cell) (by omega) (by omega)
      · -- i quarter 1, j quarter 1: ne of swRes: stepped c nonant's sw child
        obtain ⟨i₀, rfl, hi₀⟩ : ∃ t, i = 2 ^ k + t ∧ t < 2 ^ k :=
          ⟨i - 2 ^ k, by omega, by omega⟩
        obtain ⟨j₀, rfl, hj₀⟩ : ∃ t, j = 2 ^ k + t ∧ t < 2 ^ k :=
          ⟨j - 2 ^ k, by omega, by omega⟩
        rw [cell_eq_sw _ (by omega) (by omega), Esw, cell_eq_ne _ i₀ j₀, join_ne,
          ← cell_eq_sw ((intoNonants n).c_.step) hi₀ hj₀,
          step_nonant_cell n _ (2 ^ (k + 1)) (2 ^ (k + 1)) (intoNonants_cell_c n) IH _ _
            (by omega) (by omega)]
        exact congrArg₂ (lifeStep n.cell) (by omega) (by omega)
      · -- i quarter 1, j quarter 2: se of nwRes: stepped c nonant's nw child
        obtain ⟨i₀, rfl, hi₀⟩ : ∃ t, i = 2 ^ k + t ∧ t < 2 ^ k :=
          ⟨i - 2 ^ k, by omega, by omega⟩
        obtain ⟨j₀, rfl, hj₀⟩ : ∃ t, j = 2 ^ (k + 1) + t ∧ t < 2 ^ k :=
          ⟨j - 2 ^ (k + 1), by omega, by omega⟩
        rw [cell_eq_nw _ j₀ (by omega), Enw, cell_eq_se _ i₀ hj₀, join_se,
          ← cell_eq_nw ((intoNonants n).c_.step) j₀ hi₀,
          step_nonant_cell n _ (2 ^ (k + 1)) (2 ^ (k + 1)) (intoNonants_cell_c n) IH _ _
            (by omega) (by omega)]
        exact congrArg₂ (lifeStep n.cell) (by omega) (by omega)
      · -- i quarter 1, j quarter 3: ne of nwRes: stepped n nonant's sw child
        obtain ⟨i₀, rfl, hi₀⟩ : ∃ t, i = 2 ^ k + t ∧ t < 2 ^ k :=
          ⟨i - 2 ^ k, by omega, by omega⟩
        obtain ⟨j₀, rfl, hj₀⟩ : ∃ t, j = 2 ^ (k + 1) + (2 ^ k + t) ∧ t < 2 ^ k :=
          ⟨j - (2 ^ (k + 1) + 2 ^ k), by omega, by omega⟩
        rw [cell_eq_nw _ (2 ^ k + j₀) (by omega), Enw, cell_eq_ne _ i₀ j₀, join_ne,
          ← cell_eq_sw ((intoNonants n).n_.step) hi₀ hj₀,
          step_nonant_cell n _ (2 ^ (k + 1)) (2 ^ (k + 2)) (intoNonants_cell_n n) IH _ _
            (by omega) (by omega)]
        exact congrArg₂ (lifeStep n.cell) (by omega) (by omega)
      · -- i quarter 2, j quarter 0: sw of seRes: stepped s nonant's ne child
        obtain ⟨i₀, rfl, hi₀⟩ : ∃ t, i = 2 ^ (k + 1) + t ∧ t < 2 ^ k :=
          ⟨i - 2 ^ (k + 1), by omega, by omega⟩
        rw [cell_eq_se _ i₀ (by omega), Ese, cell_eq_sw _ hi₀ hj', join_sw,
          ← cell_eq_ne ((intoNonants n).s_.step) i₀ j,
          step_nonant_cell n _ (2 ^ (k + 1)) 0 (fun u v hu hv => by
            simpa using intoNonants_cell_s n u v hu hv) IH _ _ (by omega) (by omega)]
        exact congrArg₂ (lifeStep n.cell) (by omega) (by omega)
      · -- i quarter 2, j quarter 1: nw of seRes: stepped c nonant's se child
        obtain ⟨i₀, rfl, hi₀⟩ : ∃ t, i = 2 ^ (k + 1) + t ∧ t < 2 ^ k :=
          ⟨i - 2 ^ (k + 1), by omega, by omega⟩
        obtain ⟨j₀, rfl, hj₀⟩ : ∃ t, j = 2 ^ k + t ∧ t < 2 ^ k :=
          ⟨j - 2 ^ k, by omega, by omega⟩
        rw [cell_eq_se _ i₀ (by omega), Ese, cell_eq_nw _ j₀ hi₀, join_nw,
          ← cell_eq_se ((intoNonants n).c_.step) i₀ hj₀,
          step_nonant_cell n _ (2 ^ (k + 1)) (2 ^ (k + 1)) (intoNonants_cell_c n) IH _ _
            (by omega) (by omega)]
        exact congrArg₂ (lifeStep n.cell) (by omega) (by omega)
      · -- i quarter 2, j quarter 2: sw of neRes: stepped c nonant's ne child
        obtain ⟨i₀, rfl, hi₀⟩ : ∃ t, i = 2 ^ (k + 1) + t ∧ t < 2 ^ k :=
          ⟨i - 2 ^ (k + 1), by omega, by omega⟩
        obtain ⟨j₀, rfl, hj₀⟩ : ∃ t, j = 2 ^ (k + 1) + t ∧ t < 2 ^ k :=
          ⟨j - 2 ^ (k + 1), by omega, by omega⟩
        rw [cell_eq_ne _ i₀ j₀, Ene, cell_eq_sw _ hi₀ hj₀, join_sw,
          ← cell_eq_ne ((intoNonants n).c_.step) i₀ j₀,
          step_nonant_cell n _ (2 ^ (k + 1)) (2 ^ (k + 1)) (intoNonants_cell_c n) IH _ _
            (by omega) (by omega)]
        exact congrArg₂ (lifeStep n.cell) (by omega) (by omega)
      · -- i quarter 2, j quarter 3: nw of neRes: stepped n nonant's se child
        obtain ⟨i₀, rfl, hi₀⟩ : ∃ t, i = 2 ^ (k + 1) + t ∧ t < 2 ^ k :=
          ⟨i - 2 ^ (k + 1), by omega, by omega⟩
        obtain ⟨j₀, rfl, hj₀⟩ : ∃ t, j = 2 ^ (k + 1) + (2 ^ k + t) ∧ t < 2 ^ k :=
          ⟨j - (2 ^ (k + 1) + 2 ^ k), by omega, by omega⟩
        rw [cell_eq_ne _ i₀ (2 ^ k + j₀), Ene, cell_eq_nw _ j₀ hi₀, join_nw,
          ← cell_eq_se ((intoNonants n).n_.step) i₀ hj₀,
          step_nonant_cell n _ (2 ^ (k + 1)) (2 ^ (k + 2)) (intoNonants_cell_n n) IH _ _
            (by omega) (by omega)]
        exact congrArg₂ (lifeStep n.cell) (by omega) (by omega)
      · -- i quarter 3, j quarter 0: se of seRes: stepped se nonant's nw child
        obtain ⟨i₀, rfl, hi₀⟩ : ∃ t, i = 2 ^ (k + 1) + (2 ^ k + t) ∧ t < 2 ^ k :=
          ⟨i - (2 ^ (k + 1) + 2 ^ k), by omega, by omega⟩
        rw [cell_eq_se _ (2 ^ k + i₀) (by omega), Ese, cell_eq_se _ i₀ hj', join_se,
          ← cell_eq_nw ((intoNonants n).se.step) j hi₀,
          step_nonant_cell n _ (2 ^ (k + 2)) 0 (fun u v hu hv => by
            simpa using intoNonants_cell_se n u v hu hv) IH _ _ (by omega) (by omega)]
        exact congrArg₂ (lifeStep n.cell) (by omega) (by omega)
      · -- i quarter 3, j quarter 1: ne of seRes: stepped e nonant's sw child
        obtain ⟨i₀, rfl, hi₀⟩ : ∃ t, i = 2 ^ (k + 1) + (2 ^ k + t) ∧ t < 2 ^ k :=
          ⟨i - (2 ^ (k + 1) + 2 ^ k), by omega, by omega⟩
        obtain ⟨j₀, rfl, hj₀⟩ : ∃ t, j = 2 ^ k + t ∧ t < 2 ^ k :=
          ⟨j - 2 ^ k, by omega, by omega⟩
        rw [cell_eq_se _ (2 ^ k + i₀) (by omega), Ese, cell_eq_ne _ i₀ j₀, join_ne,
          ← cell_eq_sw ((intoNonants n).e_.step) hi₀ hj₀,
          step_nonant_cell n _ (2 ^ (k + 2)) (2 ^ (k + 1)) (intoNonants_cell_e n) IH _ _
            (by omega) (by omega)]
        exact congrArg₂ (lifeStep n.cell) (by omega) (by omega)
      · -- i quarter 3, j quarter 2: se of neRes: stepped e nonant's nw child
        obtain ⟨i₀, rfl, hi₀⟩ : ∃ t, i = 2 ^ (k + 1) + (2 ^ k + t) ∧ t < 2 ^ k :=
          ⟨i - (2 ^ (k + 1) + 2 ^ k), by omega, by omega⟩
        obtain ⟨j₀, rfl, hj₀⟩ : ∃ t, j = 2 ^ (k + 1) + t ∧ t < 2 ^ k :=
          ⟨j - 2 ^ (k + 1), by omega, by omega⟩
        rw [cell_eq_ne _ (2 ^ k + i₀) j₀, Ene, cell_eq_se _ i₀ hj₀, join_se,
          ← cell_eq_nw ((intoNonants n).e_.step) j₀ hi₀,
          step_nonant_cell n _ (2 ^ (k + 2)) (2 ^ (k + 1)) (intoNonants_cell_e n) IH _ _
            (by omega) (by omega)]
        exact congrArg₂ (lifeStep n.cell) (by omega) (by omega)
      · -- i quarter 3, j quarter 3: ne of neRes: stepped ne nonant's sw child
        obtain ⟨i₀, rfl, hi₀⟩ : ∃ t, i = 2 ^ (k + 1) + (2 ^ k + t) ∧ t < 2 ^ k :=
          ⟨i - (2 ^ (k + 1) + 2 ^ k), by omega, by omega⟩
        obtain ⟨j₀, rfl, hj₀⟩ : ∃ t, j = 2 ^ (k + 1) + (2 ^ k + t) ∧ t < 2 ^ k :=
          ⟨j - (2 ^ (k + 1) + 2 ^ k), by omega, by omega⟩
        rw [cell_eq_ne _ (2 ^ k + i₀) (2 ^ k + j₀), Ene, cell_eq_ne _ i₀ j₀, join_ne,
          ← cell_eq_sw ((intoNonants n).ne.step) hi₀ hj₀,
          step_nonant_cell n _ (2 ^ (k + 2)) (2 ^ (k + 2)) (intoNonants_cell_ne n) IH _ _
            (by omega) (by omega)]
        exact congrArg₂ (lifeStep n.cell) (by omega) (by omega)

/-- Every node's stored population is at most `4^level`. -/
theorem Node.population_le {k : Nat} (n : Node k) : n.population ≤ 4 ^ k := by
  induction n with
  | leaf a => cases a <;> simp [Node.population, Automata.toNat]
  | @branch k nw ne sw se ihnw ihne ihsw ihse =>
      have h4 : (4 : Nat) ^ (k + 1) = 4 ^ k + 4 ^ k + 4 ^ k + 4 ^ k := by ring
      simp only [Node.population, h4]
      omega

/-- The stored level field always equals the tree height index. -/
theorem Node.level_eq {k : Nat} (n : Node k) : n.level = k := by
  induction n with
  | leaf _ => rfl
  | @branch k nw ne sw se ihnw ihne ihsw ihse => simp [Node.level, ihnw]

/-- The all-dead node's hard-coded population 0 is consistent with the
sum-of-children invariant. -/
theorem empty_population (k : Nat) : (empty k).population = 0 := by
  induction k with
  | zero => rfl
  | succ k ih => simp [empty, Node.population, ih, makeAutomata]

/-- C1: for every node of level at least 2 built through the engine's factory
methods, `step` returns a node one level down whose cell `(i, j)` is the
B3/S23 next state of the center cell `(i + 2^k, j + 2^k)` of the node,
computed from its eight neighbors inside the node (at level 2 through
`simb3s23` over the 16 grand-automata, at higher levels through stepping the
nine overlapping nonants and recombining their quadrants). -/
theorem claim_C1_step_computes_next_generation {k : Nat} (n : Node (k + 2)) (i j : Nat)
    (hi : i < 2 ^ (k + 1)) (hj : j < 2 ^ (k + 1)) :
    n.step.cell i j = lifeStep n.cell (i + 2 ^ k) (j + 2 ^ k) :=
  step_cell n i j hi hj

theorem claim_C1_witness :
    ((0 : Nat) < 2 ^ 1 ∧ (1 : Nat) < 2 ^ 1) ∧
      (empty 2).step.cell 0 1 = lifeStep (empty 2).cell (0 + 2 ^ 0) (1 + 2 ^ 0) :=
  ⟨⟨by decide, by decide⟩,
    claim_C1_step_computes_next_generation (empty 2) 0 1 (by decide) (by decide)⟩

/-- C7: reachable nodes satisfy the structural invariants: children are absent
exactly at level 0; when present, every child's stored level is the node's
level minus one and the stored population is the sum of the children's
populations, hence bounded by `4^level`; `empty`'s hard-coded population 0 is
consistent with the invariant. -/
theorem claim_C7_structural_invariants :
    (∀ (n : Node 0), ∃ a, n = Node.leaf a) ∧
    (∀ (k : Nat) (n : Node (k + 1)), n = join n.nw n.ne n.sw n.se) ∧
    (∀ (k : Nat) (n : Node k), n.level = k) ∧
    (∀ (k : Nat) (n : Node (k + 1)),
      n.nw.level = n.level - 1 ∧ n.ne.level = n.level - 1 ∧
      n.sw.level = n.level - 1 ∧ n.se.level = n.level - 1) ∧
    (∀ (k : Nat) (n : Node (k + 1)),
      n.population = n.nw.population + n.ne.population +
        n.sw.population + n.se.population) ∧
    (∀ (k : Nat) (n : Node k), n.population ≤ 4 ^ k) ∧
    (∀ (k : Nat), (empty k).population = 0) := by
  refine ⟨?_, ?_, ?_, ?_, ?_, ?_, ?_⟩
  · intro n
    cases n with
    | leaf a => exact ⟨a, rfl⟩
  · intro k n
    cases n with
    | branch nw ne sw se => rfl
  · intro k n
    exact n.level_eq
  · intro k n
    cases n with
    | branch nw ne sw se =>
      simp [Node.nw, Node.ne, Node.sw, Node.se, Node.level_eq, Node.level]
  · intro k n
    cases n with
    | branch nw ne sw se => rfl
  · intro k n
    exact n.population_le
  · exact empty_population

/-- C10: `next_generation` on an engine whose root is a level-0 leaf (as
`from_array` produces for a 1x1 buffer) panics under all three edge policies:
every arm reaches `get_children` of the leaf root. -/
theorem claim_C10_next_generation_level0_panics :
    (∀ (edge : Edge) (a : Automata) (prev : Option ((k : Nat) × Node k)) (g : Nat),
      nextGeneration { edge := edge, top := some ⟨0, Node.leaf a⟩, previous := prev, gen := g }
        = none) ∧
    nextGeneration oneCellEngine = none := by
  refine ⟨?_, rfl⟩
  intro edge a prev g
  cases edge <;> rfl

/-- C4: with policy `Infinite` and a root of level `k + 1`, `next_generation`
expands the root twice (to level `k + 3`), steps it once to a level-(k+2)
result `s`, and installs the level-(k+1) join of the four center
grand-children of `s` when `s`'s population minus those grand-children's
populations is zero, and `s` itself otherwise; exactly one contraction is
attempted. -/
theorem claim_C4_infinite_next_generation (k : Nat) (t : Node (k + 1))
    (prev : Option ((k : Nat) × Node k)) (g : Nat) :
    let s := (expandEmptyBorder (expandEmptyBorder t)).step
    let border := s.population - s.nw.se.population - s.ne.sw.population -
      s.sw.ne.population - s.se.nw.population
    (border = 0 →
      nextGeneration { edge := .infinite, top := some ⟨k + 1, t⟩, previous := prev, gen := g }
        = some { edge := .infinite,
                 top := some ⟨k + 1, join s.nw.se s.ne.sw s.sw.ne s.se.nw⟩,
                 previous := some ⟨k + 1, t⟩, gen := g + 1 }) ∧
    (border ≠ 0 →
      nextGeneration { edge := .infinite, top := some ⟨k + 1, t⟩, previous := prev, gen := g }
        = some { edge := .infinite, top := some ⟨k + 2, s⟩,
                 previous := some ⟨k + 1, t⟩, gen := g + 1 }) := by
  intro s border
  constructor <;> intro h <;>
    simp [nextGeneration, nextGenerationTop, s, border, h] at h ⊢ <;>
    simp [h]

theorem claim_C4_witness :
    ((expandEmptyBorder (expandEmptyBorder (empty 1))).step.population -
      (expandEmptyBorder (expandEmptyBorder (empty 1))).step.nw.se.population -
      (expandEmptyBorder (expandEmptyBorder (empty 1))).step.ne.sw.population -
      (expandEmptyBorder (expandEmptyBorder (empty 1))).step.sw.ne.population -
      (expandEmptyBorder (expandEmptyBorder (empty 1))).step.se.nw.population = 0) ∧
    nextGeneration { edge := .infinite, top := some ⟨1, empty 1⟩, previous := none, gen := 0 }
      = some { edge := .infinite,
               top := some ⟨1, join (expandEmptyBorder (expandEmptyBorder (empty 1))).step.nw.se
                 (expandEmptyBorder (expandEmptyBorder (empty 1))).step.ne.sw
                 (expandEmptyBorder (expandEmptyBorder (empty 1))).step.sw.ne
                 (expandEmptyBorder (expandEmptyBorder (empty 1))).step.se.nw⟩,
               previous := some ⟨1, empty 1⟩, gen := 1 } :=
  ⟨by decide, (claim_C4_infinite_next_generation 0 (empty 1) none 0).1 (by decide)⟩

/-- C8 counterexample: a 4x4 `Truncate` engine holding a three-cell pre-block
has population 3, and a single `next_generation` raises the population to 4,
so the population is not monotonically non-increasing. -/
theorem claim_C8_cex_population_grows :
    topPopulation preBlockEngine = some 3 ∧
      (nextGeneration preBlockEngine).bind topPopulation = some 4 ∧
      (topPopulation preBlockEngine).getD 0 <
        ((nextGeneration preBlockEngine).bind topPopulation).getD 0 := by
  refine ⟨rfl, rfl, by decide⟩

/-- C8 amended: with policy `Truncate` and a root of level `k + 1`,
`next_generation` keeps the root level (the new root is the step of the
once-expanded old root) and the population stays bounded by `4^(k+1)`, but it
may increase as well as decrease. -/
theorem claim_C8_amended_truncate_level_preserved (k : Nat) (t : Node (k + 1))
    (prev : Option ((k : Nat) × Node k)) (g : Nat) :
    nextGeneration { edge := .truncate, top := some ⟨k + 1, t⟩, previous := prev, gen := g }
      = some { edge := .truncate, top := some ⟨k + 1, (expandEmptyBorder t).step⟩,
               previous := some ⟨k + 1, t⟩, gen := g + 1 } ∧
    (expandEmptyBorder t).step.population ≤ 4 ^ (k + 1) :=
  ⟨rfl, Node.population_le _⟩

/-- The quadrant-inverted node (nw and se swapped, ne and sw swapped) reads
the original's cells shifted by half a side, wrapping at the side. -/
theorem inverted_cell {k : Nat} (t : Node (k + 1)) (u v : Nat)
    (hu : u < 2 ^ (k + 1)) (hv : v < 2 ^ (k + 1)) :
    (join t.se t.sw t.ne t.nw).cell u v
      = t.cell ((u + 2 ^ k) % 2 ^ (k + 1)) ((v + 2 ^ k) % 2 ^ (k + 1)) := by
  have p1 : (2 : Nat) ^ (k + 1) = 2 * 2 ^ k := by ring
  have hk : 1 ≤ (2 : Nat) ^ k := Nat.one_le_two_pow
  rcases Nat.lt_or_ge u (2 ^ k) with hu' | hu' <;>
    rcases Nat.lt_or_ge v (2 ^ k) with hv' | hv'
  · rw [cell_eq_sw _ hu' hv', join_sw,
      Nat.mod_eq_of_lt (show u + 2 ^ k < 2 ^ (k + 1) by omega),
      Nat.mod_eq_of_lt (show v + 2 ^ k < 2 ^ (k + 1) by omega),
      show u + 2 ^ k = 2 ^ k + u by omega, show v + 2 ^ k = 2 ^ k + v by omega,
      cell_eq_ne t u v]
  · obtain ⟨v', rfl, hv'₂⟩ : ∃ w, v = 2 ^ k + w ∧ w < 2 ^ k :=
      ⟨v - 2 ^ k, by omega, by omega⟩
    rw [cell_eq_nw _ v' hu', join_nw,
      Nat.mod_eq_of_lt (show u + 2 ^ k < 2 ^ (k + 1) by omega),
      show 2 ^ k + v' + 2 ^ k = v' + 2 ^ (k + 1) by omega, Nat.add_mod_right,
      Nat.mod_eq_of_lt (show v' < 2 ^ (k + 1) by omega),
      show u + 2 ^ k = 2 ^ k + u by omega, cell_eq_se t u hv'₂]
  · obtain ⟨u', rfl, hu'₂⟩ : ∃ w, u = 2 ^ k + w ∧ w < 2 ^ k :=
      ⟨u - 2 ^ k, by omega, by omega⟩
    rw [cell_eq_se _ u' hv', join_se,
      show 2 ^ k + u' + 2 ^ k = u' + 2 ^ (k + 1) by omega, Nat.add_mod_right,
      Nat.mod_eq_of_lt (show u' < 2 ^ (k + 1) by omega),
      Nat.mod_eq_of_lt (show v + 2 ^ k < 2 ^ (k + 1) by omega),
      show v + 2 ^ k = 2 ^ k + v by omega, cell_eq_nw t v hu'₂]
  · obtain ⟨u', rfl, hu'₂⟩ : ∃ w, u = 2 ^ k + w ∧ w < 2 ^ k :=
      ⟨u - 2 ^ k, by omega, by omega⟩
    obtain ⟨v', rfl, hv'₂⟩ : ∃ w, v = 2 ^ k + w ∧ w < 2 ^ k :=
      ⟨v - 2 ^ k, by omega, by omega⟩
    rw [cell_eq_ne _ u' v', join_ne,
      show 2 ^ k + u' + 2 ^ k = u' + 2 ^ (k + 1) by omega, Nat.add_mod_right,
      Nat.mod_eq_of_lt (show u' < 2 ^ (k + 1) by omega),
      show 2 ^ k + v' + 2 ^ k = v' + 2 ^ (k + 1) by omega, Nat.add_mod_right,
      Nat.mod_eq_of_lt (show v' < 2 ^ (k + 1) by omega),
      cell_eq_sw t (show u' < 2 ^ k from hu'₂) hv'₂]

/-- The 2x2 tiling of the quadrant-inverted node reads the original's cells
shifted by half a side, wrapping modulo the side, over the doubled square. -/
theorem torus_expanded_cell {k : Nat} (t : Node (k + 1)) (p q : Nat)
    (hp : p < 2 ^ (k + 2)) (hq : q < 2 ^ (k + 2)) :
    (join (join t.se t.sw t.ne t.nw) (join t.se t.sw t.ne t.nw)
        (join t.se t.sw t.ne t.nw) (join t.se t.sw t.ne t.nw)).cell p q
      = t.cell ((p + 2 ^ k) % 2 ^ (k + 1)) ((q + 2 ^ k) % 2 ^ (k + 1)) := by
  have p1 : (2 : Nat) ^ (k + 1) = 2 * 2 ^ k := by ring
  have p2 : (2 : Nat) ^ (k + 2) = 4 * 2 ^ k := by ring
  rcases Nat.lt_or_ge p (2 ^ (k + 1)) with hp' | hp' <;>
    rcases Nat.lt_or_ge q (2 ^ (k + 1)) with hq' | hq'
  · rw [cell_eq_sw _ hp' hq', join_sw, inverted_cell t p q hp' hq']
  · obtain ⟨q', rfl, h2⟩ : ∃ w, q = 2 ^ (k + 1) + w ∧ w < 2 ^ (k + 1) :=
      ⟨q - 2 ^ (k + 1), by omega, by omega⟩
    rw [cell_eq_nw _ q' hp', join_nw, inverted_cell t p q' hp' h2,
      show 2 ^ (k + 1) + q' + 2 ^ k = q' + 2 ^ k + 2 ^ (k + 1) by omega,
      Nat.add_mod_right]
  · obtain ⟨p', rfl, h2⟩ : ∃ w, p = 2 ^ (k + 1) + w ∧ w < 2 ^ (k + 1) :=
      ⟨p - 2 ^ (k + 1), by omega, by omega⟩
    rw [cell_eq_se _ p' hq', join_se, inverted_cell t p' q h2 hq',
      show 2 ^ (k + 1) + p' + 2 ^ k = p' + 2 ^ k + 2 ^ (k + 1) by omega,
      Nat.add_mod_right]
  · obtain ⟨p', rfl, hp2⟩ : ∃ w, p = 2 ^ (k + 1) + w ∧ w < 2 ^ (k + 1) :=
      ⟨p - 2 ^ (k + 1), by omega, by omega⟩
    obtain ⟨q', rfl, hq2⟩ : ∃ w, q = 2 ^ (k + 1) + w ∧ w < 2 ^ (k + 1) :=
      ⟨q - 2 ^ (k + 1), by omega, by omega⟩
    rw [cell_eq_ne _ p' q', join_ne, inverted_cell t p' q' hp2 hq2,
      show 2 ^ (k + 1) + p' + 2 ^ k = p' + 2 ^ k + 2 ^ (k + 1) by omega,
      Nat.add_mod_right,
      show 2 ^ (k + 1) + q' + 2 ^ k = q' + 2 ^ k + 2 ^ (k + 1) by omega,
      Nat.add_mod_right]

/-- C3: with policy `Torus` and a root of level `n = k + 1`, `next_generation`
replaces the root by the step of the level-(n+1) join of four copies of the
quadrant-inverted root (nw and se swapped, ne and sw swapped); the new root
has level n and its cells are one B3/S23 generation of the old root with
every neighborhood wrapping modulo `2^n` on both axes. -/
theorem claim_C3_torus_next_generation (k : Nat) (t : Node (k + 1))
    (prev : Option ((k : Nat) × Node k)) (g : Nat) :
    let inverted := join t.se t.sw t.ne t.nw
    let next := (join inverted inverted inverted inverted).step
    nextGeneration { edge := .torus, top := some ⟨k + 1, t⟩, previous := prev, gen := g }
      = some { edge := .torus, top := some ⟨k + 1, next⟩,
               previous := some ⟨k + 1, t⟩, gen := g + 1 } ∧
    ∀ i j, i < 2 ^ (k + 1) → j < 2 ^ (k + 1) →
      next.cell i j = torusLifeStep t.cell (2 ^ (k + 1)) i j := by
  intro inverted next
  have p1 : (2 : Nat) ^ (k + 1) = 2 * 2 ^ k := by ring
  have p2 : (2 : Nat) ^ (k + 2) = 4 * 2 ^ k := by ring
  have hk : 1 ≤ (2 : Nat) ^ k := Nat.one_le_two_pow
  refine ⟨rfl, ?_⟩
  intro i j hi hj
  have E : ∀ p q, p < 2 ^ (k + 2) → q < 2 ^ (k + 2) →
      (join inverted inverted inverted inverted).cell p q
        = t.cell ((p + 2 ^ k) % 2 ^ (k + 1)) ((q + 2 ^ k) % 2 ^ (k + 1)) :=
    fun p q hp hq => torus_expanded_cell t p q hp hq
  rw [show next = (join inverted inverted inverted inverted).step from rfl,
    step_cell _ i j hi hj]
  unfold lifeStep liveNeighbors torusLifeStep torusLiveNeighbors
  rw [E (i + 2 ^ k) (j + 2 ^ k) (by omega) (by omega),
    E (i + 2 ^ k - 1) (j + 2 ^ k - 1) (by omega) (by omega),
    E (i + 2 ^ k) (j + 2 ^ k - 1) (by omega) (by omega),
    E (i + 2 ^ k + 1) (j + 2 ^ k - 1) (by omega) (by omega),
    E (i + 2 ^ k - 1) (j + 2 ^ k) (by omega) (by omega),
    E (i + 2 ^ k + 1) (j + 2 ^ k) (by omega) (by omega),
    E (i + 2 ^ k - 1) (j + 2 ^ k + 1) (by omega) (by omega),
    E (i + 2 ^ k) (j + 2 ^ k + 1) (by omega) (by omega),
    E (i + 2 ^ k + 1) (j + 2 ^ k + 1) (by omega) (by omega),
    show i + 2 ^ k + 2 ^ k = i + 2 ^ (k + 1) by omega, Nat.add_mod_right,
    show j + 2 ^ k + 2 ^ k = j + 2 ^ (k + 1) by omega, Nat.add_mod_right,
    show i + 2 ^ k - 1 + 2 ^ k = i + 2 ^ (k + 1) - 1 by omega,
    show j + 2 ^ k - 1 + 2 ^ k = j + 2 ^ (k + 1) - 1 by omega,
    show i + 2 ^ k + 1 + 2 ^ k = i + 1 + 2 ^ (k + 1) by omega, Nat.add_mod_right,
    show j + 2 ^ k + 1 + 2 ^ k = j + 1 + 2 ^ (k + 1) by omega, Nat.add_mod_right]

theorem claim_C3_witness :
    ((0 : Nat) < 2 ^ 1 ∧ (1 : Nat) < 2 ^ 1) ∧
      (join (join torusWitnessNode.se torusWitnessNode.sw torusWitnessNode.ne
          torusWitnessNode.nw)
        (join torusWitnessNode.se torusWitnessNode.sw torusWitnessNode.ne
          torusWitnessNode.nw)
        (join torusWitnessNode.se torusWitnessNode.sw torusWitnessNode.ne
          torusWitnessNode.nw)
        (join torusWitnessNode.se torusWitnessNode.sw torusWitnessNode.ne
          torusWitnessNode.nw)).step.cell 0 1
        = torusLifeStep torusWitnessNode.cell (2 ^ 1) 0 1 :=
  ⟨⟨by decide, by decide⟩,
    (claim_C3_torus_next_generation 0 torusWitnessNode none 0).2 0 1
      (by decide) (by decide)⟩

/-- Euclidean division by two positive divisors in turn divides by the
product. -/
theorem ediv_ediv_of_pos (X b c : Int) (hb : 0 < b) (hc : 0 < c) :
    X / b / c = X / (b * c) := by
  have h1 := Int.ediv_add_emod X b
  have h2 := Int.ediv_add_emod (X / b) c
  have hr1 : 0 ≤ X % b := Int.emod_nonneg X (by omega)
  have hr1' : X % b < b := Int.emod_lt_of_pos X hb
  have hr2 : 0 ≤ X / b % c := Int.emod_nonneg _ (by omega)
  have hr2' : X / b % c < c := Int.emod_lt_of_pos _ hc
  have hX : X = b * (X / b % c) + X % b + X / b / c * (b * c) := by
    linear_combination -h1 - b * h2
  have hmul : b * (X / b % c) ≤ b * (c - 1) :=
    mul_le_mul_of_nonneg_left (by omega) hb.le
  have hmul2 : b * (c - 1) = b * c - b := by ring
  have hge : 0 ≤ b * (X / b % c) + X % b := by
    have := mul_nonneg hb.le hr2
    omega
  conv_rhs => rw [hX]
  rw [Int.add_mul_ediv_right _ _ (mul_pos hb hc).ne',
    Int.ediv_eq_zero_of_lt hge (by omega), zero_add]

/-- Floor division of a strictly negative in-range value by `2^k` is `-1`. -/
theorem ediv_pow_neg_one (X : Int) (k : Nat) (h1 : -(2 ^ k) ≤ X) (h2 : X < 0) :
    X / 2 ^ k = -1 := by
  have h3 : (X + 1 * 2 ^ k) / 2 ^ k = X / 2 ^ k + 1 :=
    Int.add_mul_ediv_right X 1 (by positivity)
  rw [one_mul] at h3
  have h0 : (X + 2 ^ k) / 2 ^ k = 0 := Int.ediv_eq_zero_of_lt (by omega) (by omega)
  omega

/-- Entry `i` of the `positions` vector is the target divided by `2^i`. -/
theorem buildPositions_get : ∀ (l : Nat) (x y : Int) (i : Nat), i < l →
    (buildPositions x y l).get? i = some (x / 2 ^ i, y / 2 ^ i)
  | l + 1, x, y, 0, _ => by simp [buildPositions]
  | l + 1, x, y, i + 1, h => by
      have hx : x / 2 / 2 ^ i = x / 2 ^ (i + 1) := by
        rw [ediv_ediv_of_pos x 2 (2 ^ i) (by norm_num) (by positivity), pow_succ]
        ring_nf
      have hy : y / 2 / 2 ^ i = y / 2 ^ (i + 1) := by
        rw [ediv_ediv_of_pos y 2 (2 ^ i) (by norm_num) (by positivity), pow_succ]
        ring_nf
      simp only [buildPositions, List.get?_cons_succ]
      rw [buildPositions_get l (x / 2) (y / 2) i (by omega), hx, hy]

/-- `get_node_with` succeeds on every node when handed the quadrant
coordinates of the target point at the node's level: the coordinate derived
from `positions` at the next level down is always one of the four child
coordinates. -/
theorem getNodeWith_some : ∀ {k : Nat} (n : Node k) (X Y : Int) (l : Nat), k ≤ l →
    ∃ a, getNodeWith (buildPositions X Y l) (X / 2 ^ k) (Y / 2 ^ k) n = some a
  | 0, n, X, Y, l, _ => ⟨n.asAutomata, rfl⟩
  | k + 1, n, X, Y, l, hkl => by
      have hget : (buildPositions X Y l).get? k = some (X / 2 ^ k, Y / 2 ^ k) :=
        buildPositions_get l X Y k (by omega)
      have hx2 : (X / 2 ^ k) / 2 = X / 2 ^ (k + 1) := by
        rw [ediv_ediv_of_pos X (2 ^ k) 2 (by positivity) (by norm_num), pow_succ]
      have hy2 : (Y / 2 ^ k) / 2 = Y / 2 ^ (k + 1) := by
        rw [ediv_ediv_of_pos Y (2 ^ k) 2 (by positivity) (by norm_num), pow_succ]
      have hadiv := Int.ediv_add_emod (X / 2 ^ k) 2
      have hbdiv := Int.ediv_add_emod (Y / 2 ^ k) 2
      rcases Int.emod_two_eq_zero_or_one (X / 2 ^ k) with haa | haa <;>
        rcases Int.emod_two_eq_zero_or_one (Y / 2 ^ k) with hbb | hbb
      · -- both even: the sw child
        obtain ⟨r, hr⟩ := getNodeWith_some n.sw X Y l (by omega)
        refine ⟨r, ?_⟩
        simp only [getNodeWith, hget]
        rw [if_neg (by simp only [Prod.mk.injEq, not_and]; omega),
          if_neg (by simp only [Prod.mk.injEq, not_and]; omega),
          if_pos (by simp only [Prod.mk.injEq]; omega),
          show X / 2 ^ (k + 1) * 2 = X / 2 ^ k by omega,
          show Y / 2 ^ (k + 1) * 2 = Y / 2 ^ k by omega]
        exact hr
      · -- x even, y odd: the nw child
        obtain ⟨r, hr⟩ := getNodeWith_some n.nw X Y l (by omega)
        refine ⟨r, ?_⟩
        simp only [getNodeWith, hget]
        rw [if_pos (by simp only [Prod.mk.injEq]; omega),
          show X / 2 ^ (k + 1) * 2 = X / 2 ^ k by omega,
          show Y / 2 ^ (k + 1) * 2 + 1 = Y / 2 ^ k by omega]
        exact hr
      · -- x odd, y even: the se child
        obtain ⟨r, hr⟩ := getNodeWith_some n.se X Y l (by omega)
        refine ⟨r, ?_⟩
        simp only [getNodeWith, hget]
        rw [if_neg (by simp only [Prod.mk.injEq, not_and]; omega),
          if_neg (by simp only [Prod.mk.injEq, not_and]; omega),
          if_neg (by simp only [Prod.mk.injEq, not_and]; omega),
          if_pos (by simp only [Prod.mk.injEq]; omega),
          show X / 2 ^ (k + 1) * 2 + 1 = X / 2 ^ k by omega,
          show Y / 2 ^ (k + 1) * 2 = Y / 2 ^ k by omega]
        exact hr
      · -- both odd: the ne child
        obtain ⟨r, hr⟩ := getNodeWith_some n.ne X Y l (by omega)
        refine ⟨r, ?_⟩
        simp only [getNodeWith, hget]
        rw [if_neg (by simp only [Prod.mk.injEq, not_and]; omega),
          if_pos (by simp only [Prod.mk.injEq]; omega),
          show X / 2 ^ (k + 1) * 2 + 1 = X / 2 ^ k by omega,
          show Y / 2 ^ (k + 1) * 2 + 1 = Y / 2 ^ k by omega]
        exact hr

/-- Mapping `some` over an option never yields Rust's `None` result. -/
theorem map_some_ne_some_none (o : Option Automata) : o.map some ≠ some none := by
  cases o <;> simp

/-- C5 counterexample: `get` can fail.  On a 1x1 engine (level-0 root) every
`get` panics at the root's `get_children` unwrap; on a 4x4 engine (level-2
root) the out-of-range query `get(4, 0)` reaches the
invalid-coordinate panic in `get_node_with`. -/
theorem claim_C5_cex_get_panics :
    oneCellEngine.get 0 0 = none ∧ gridEngine4.get 4 0 = none :=
  ⟨rfl, rfl⟩

/-- C5 amended: `get` returns Rust's `None` exactly when the engine has no
root; and whenever the root has level `n = k + 1 ≥ 1` and the queried point
lies inside the root square `[-2^k, 2^k)`x`[-2^k, 2^k)`, `get` returns
`Some` of a stored automaton without failing.  (For a level-0 root, or for
points outside the root square of a root of level at least 2, `get` may
instead panic, as the counterexample shows.) -/
theorem claim_C5_amended_get_total_in_range :
    (∀ (e : Engine) (x y : Int), e.get x y = some none ↔ e.top = none) ∧
    (∀ (k : Nat) (t : Node (k + 1)) (edge : Edge)
      (prev : Option ((k : Nat) × Node k)) (g : Nat) (x y : Int),
      -(2 ^ k : Int) ≤ x → x < 2 ^ k → -(2 ^ k : Int) ≤ y → y < 2 ^ k →
      ∃ a, Engine.get { edge := edge, top := some ⟨k + 1, t⟩, previous := prev, gen := g } x y
        = some (some a)) := by
  constructor
  · intro e x y
    rcases e with ⟨edge, topOpt, prev, g⟩
    cases topOpt with
    | none => simp [Engine.get]
    | some t =>
        obtain ⟨k, tn⟩ := t
        cases k with
        | zero => simp [Engine.get]
        | succ k =>
            simp only [Engine.get]
            constructor
            · intro h
              exfalso
              split_ifs at h <;> exact map_some_ne_some_none _ h
            · intro h
              exact absurd h (by simp)
  · intro k t edge prev g x y hx1 hx2 hy1 hy2
    rcases lt_or_ge x 0 with hx0 | hx0 <;> rcases lt_or_ge y 0 with hy0 | hy0
    · obtain ⟨a, ha⟩ := getNodeWith_some t.sw x y (k + 1) (by omega)
      rw [ediv_pow_neg_one x k hx1 hx0, ediv_pow_neg_one y k hy1 hy0] at ha
      exact ⟨a, by simp [Engine.get, hx0, hy0, ha]⟩
    · obtain ⟨a, ha⟩ := getNodeWith_some t.nw x y (k + 1) (by omega)
      rw [ediv_pow_neg_one x k hx1 hx0, Int.ediv_eq_zero_of_lt hy0 hy2] at ha
      exact ⟨a, by simp [Engine.get, hx0, not_lt.mpr hy0, ha]⟩
    · obtain ⟨a, ha⟩ := getNodeWith_some t.se x y (k + 1) (by omega)
      rw [Int.ediv_eq_zero_of_lt hx0 hx2, ediv_pow_neg_one y k hy1 hy0] at ha
      exact ⟨a, by simp [Engine.get, not_lt.mpr hx0, hy0, ha]⟩
    · obtain ⟨a, ha⟩ := getNodeWith_some t.ne x y (k + 1) (by omega)
      rw [Int.ediv_eq_zero_of_lt hx0 hx2, Int.ediv_eq_zero_of_lt hy0 hy2] at ha
      exact ⟨a, by simp [Engine.get, not_lt.mpr hx0, not_lt.mpr hy0, ha]⟩

theorem claim_C5_witness :
    ((-(2 ^ 1 : Int) ≤ 1 ∧ (1 : Int) < 2 ^ 1) ∧
      (-(2 ^ 1 : Int) ≤ -2 ∧ (-2 : Int) < 2 ^ 1)) ∧
      ∃ a, Engine.get
          { edge := .truncate, top := some ⟨2, empty 2⟩, previous := none, gen := 0 } 1 (-2)
        = some (some a) :=
  ⟨⟨⟨by decide, by decide⟩, ⟨by decide, by decide⟩⟩,
    claim_C5_amended_get_total_in_range.2 1 (empty 2) .truncate none 0 1 (-2)
      (by decide) (by decide) (by decide) (by decide)⟩

/-- A level-0 node's box collides with the viewport exactly when its point is
in the viewport. -/
theorem collides_point_iff (v : BoundingBox) (x y : Int) :
    (BoundingBox.new x y 0).collides v = true ↔ v.mem x y := by
  simp only [BoundingBox.new, BoundingBox.collides, BoundingBox.mem, pow_zero,
    Bool.not_eq_true', Bool.or_eq_false_iff, decide_eq_false_iff_not, not_lt]
  omega

/-- Setting one buffer entry leaves the others unchanged. -/
theorem getD_set_ne (l : List Nat) (j a i : Nat) (h : i ≠ j) :
    (l.set j a).getD i 0 = l.getD i 0 := by
  simp [List.getD, List.getElem?_set_ne h.symm]

/-- A point of a child's box lies in the parent's box. -/
theorem inNodeBox_child {k : Nat} {x y x' y' cx cy : Int}
    (h : inNodeBox x' y' k cx cy)
    (hx1 : 2 * x ≤ x') (hx2 : x' ≤ 2 * x + 1) (hy1 : 2 * y ≤ y') (hy2 : y' ≤ 2 * y + 1) :
    inNodeBox x y (k + 1) cx cy := by
  obtain ⟨h1, h2, h3, h4⟩ := h
  have hp : (0 : Int) < 2 ^ k := by positivity
  refine ⟨?_, ?_, ?_, ?_⟩
  · rw [show x * 2 ^ (k + 1) = 2 * x * 2 ^ k by ring]
    nlinarith
  · rw [show (x + 1) * 2 ^ (k + 1) = (2 * x + 2) * 2 ^ k by ring]
    nlinarith
  · rw [show y * 2 ^ (k + 1) = 2 * y * 2 ^ k by ring]
    nlinarith
  · rw [show (y + 1) * 2 ^ (k + 1) = (2 * y + 2) * 2 ^ k by ring]
    nlinarith

/-- The point of a level-0 node's box is in that box. -/
theorem inNodeBox_self (x y : Int) : inNodeBox x y 0 x y := by
  simp only [inNodeBox, pow_zero]
  omega

/-- Frame property of `draw_to_cell`: a buffer entry that changes is the
viewport index of some point that lies both in the viewport and in the box of
the drawn node. -/
theorem drawToCell_frame : ∀ {k : Nat} (x y : Int) (n : Node k) (v : BoundingBox)
    (buf : List Nat) (i : Nat),
    (drawToCell v x y n buf).getD i 0 ≠ buf.getD i 0 →
    ∃ cx cy, v.mem cx cy ∧ inNodeBox x y k cx cy ∧ v.index cx cy = i
  | 0, x, y, .leaf a, v, buf, i, h => by
      simp only [drawToCell] at h
      by_cases hc : (BoundingBox.new x y 0).collides v
      · rw [if_pos hc] at h
        have hi : i = v.index x y := by
          by_contra hne
          exact h (getD_set_ne buf (v.index x y) a.toNat i hne)
        exact ⟨x, y, (collides_point_iff v x y).mp hc, inNodeBox_self x y, hi.symm⟩
      · rw [if_neg hc] at h
        exact absurd rfl h
  | k + 1, x, y, .branch nw ne sw se, v, buf, i, h => by
      simp only [drawToCell] at h
      by_cases hc : (BoundingBox.new x y (k + 1)).collides v
      · rw [if_pos hc] at h
        by_cases h1 : (drawToCell v (2 * x) (2 * y + 1) nw buf).getD i 0 = buf.getD i 0
        · by_cases h2 : (drawToCell v (2 * x + 1) (2 * y + 1) ne
              (drawToCell v (2 * x) (2 * y + 1) nw buf)).getD i 0
              = (drawToCell v (2 * x) (2 * y + 1) nw buf).getD i 0
          · by_cases h3 : (drawToCell v (2 * x) (2 * y) sw
                (drawToCell v (2 * x + 1) (2 * y + 1) ne
                  (drawToCell v (2 * x) (2 * y + 1) nw buf))).getD i 0
                = (drawToCell v (2 * x + 1) (2 * y + 1) ne
                    (drawToCell v (2 * x) (2 * y + 1) nw buf)).getD i 0
            · obtain ⟨cx, cy, hm, hb, hidx⟩ := drawToCell_frame (2 * x + 1) (2 * y) se v _ i
                (by rw [h3, h2, h1]; exact h)
              exact ⟨cx, cy, hm,
                inNodeBox_child hb (by omega) (by omega) (by omega) (by omega),
                hidx⟩
            · obtain ⟨cx, cy, hm, hb, hidx⟩ := drawToCell_frame (2 * x) (2 * y) sw v _ i h3
              exact ⟨cx, cy, hm,
                inNodeBox_child hb (by omega) (by omega) (by omega) (by omega),
                hidx⟩
          · obtain ⟨cx, cy, hm, hb, hidx⟩ := drawToCell_frame (2 * x + 1) (2 * y + 1) ne v _ i h2
            exact ⟨cx, cy, hm,
              inNodeBox_child hb (by omega) (by omega) (by omega) (by omega),
              hidx⟩
        · obtain ⟨cx, cy, hm, hb, hidx⟩ := drawToCell_frame (2 * x) (2 * y + 1) nw v buf i h1
          exact ⟨cx, cy, hm,
            inNodeBox_child hb (by omega) (by omega) (by omega) (by omega),
            hidx⟩
      · rw [if_neg hc] at h
        exact absurd rfl h

/-- Frame property of `draw_diff_to_cell`: when it returns, a buffer entry
that changed is the viewport index of some point that lies both in the
viewport and in the box of the drawn node. -/
theorem drawDiffToCell_frame : ∀ {k : Nat} (x y : Int) (n : Node k) {k' : Nat}
    (p : Node k') (v : BoundingBox) (buf out : List Nat) (i : Nat),
    drawDiffToCell v x y n p buf = some out →
    out.getD i 0 ≠ buf.getD i 0 →
    ∃ cx cy, v.mem cx cy ∧ inNodeBox x y k cx cy ∧ v.index cx cy = i
  | 0, x, y, .leaf a, _, p, v, buf, out, i, hout, h => by
      simp only [drawDiffToCell] at hout
      by_cases hc : (BoundingBox.new x y 0).collides v
      · rw [if_pos hc] at hout
        cases hout
        have hi : i = v.index x y := by
          by_contra hne
          exact h (getD_set_ne buf (v.index x y) a.toNat i hne)
        exact ⟨x, y, (collides_point_iff v x y).mp hc, inNodeBox_self x y, hi.symm⟩
      · rw [if_neg hc] at hout
        cases hout
        exact absurd rfl h
  | k + 1, x, y, .branch n1 n2 n3 n4, _, p, v, buf, out, i, hout, h => by
      by_cases hc : (BoundingBox.new x y (k + 1)).collides v
      · cases p with
        | leaf _ =>
            simp only [drawDiffToCell] at hout
            rw [if_pos hc] at hout
            exact absurd hout (by simp)
        | branch p1 p2 p3 p4 =>
            simp only [drawDiffToCell] at hout
            rw [if_pos hc] at hout
            obtain ⟨b1, hs1, hout⟩ := Option.bind_eq_some.mp hout
            obtain ⟨b2, hs2, hout⟩ := Option.bind_eq_some.mp hout
            obtain ⟨b3, hs3, hs4⟩ := Option.bind_eq_some.mp hout
            have attr1 : b1.getD i 0 ≠ buf.getD i 0 →
                ∃ cx cy, v.mem cx cy ∧ inNodeBox x y (k + 1) cx cy ∧ v.index cx cy = i := by
              intro hne
              by_cases he : nodeEq n1 p1
              · rw [if_pos he] at hs1
                cases hs1
                exact absurd rfl hne
              · rw [if_neg he] at hs1
                obtain ⟨cx, cy, hm, hb, hidx⟩ :=
                  drawDiffToCell_frame (2 * x) (2 * y + 1) n1 p1 v buf b1 i hs1 hne
                exact ⟨cx, cy, hm,
                  inNodeBox_child hb (by omega) (by omega) (by omega) (by omega),
                  hidx⟩
            have attr2 : b2.getD i 0 ≠ b1.getD i 0 →
                ∃ cx cy, v.mem cx cy ∧ inNodeBox x y (k + 1) cx cy ∧ v.index cx cy = i := by
              intro hne
              by_cases he : nodeEq n2 p2
              · rw [if_pos he] at hs2
                cases hs2
                exact absurd rfl hne
              · rw [if_neg he] at hs2
                obtain ⟨cx, cy, hm, hb, hidx⟩ :=
                  drawDiffToCell_frame (2 * x + 1) (2 * y + 1) n2 p2 v b1 b2 i hs2 hne
                exact ⟨cx, cy, hm,
                  inNodeBox_child hb (by omega) (by omega) (by omega) (by omega),
                  hidx⟩
            have attr3 : b3.getD i 0 ≠ b2.getD i 0 →
                ∃ cx cy, v.mem cx cy ∧ inNodeBox x y (k + 1) cx cy ∧ v.index cx cy = i := by
              intro hne
              by_cases he : nodeEq n3 p3
              · rw [if_pos he] at hs3
                cases hs3
                exact absurd rfl hne
              · rw [if_neg he] at hs3
                obtain ⟨cx, cy, hm, hb, hidx⟩ :=
                  drawDiffToCell_frame (2 * x) (2 * y) n3 p3 v b2 b3 i hs3 hne
                exact ⟨cx, cy, hm,
                  inNodeBox_child hb (by omega) (by omega) (by omega) (by omega),
                  hidx⟩
            have attr4 : out.getD i 0 ≠ b3.getD i 0 →
                ∃ cx cy, v.mem cx cy ∧ inNodeBox x y (k + 1) cx cy ∧ v.index cx cy = i := by
              intro hne
              by_cases he : nodeEq n4 p4
              · rw [if_pos he] at hs4
                cases hs4
                exact absurd rfl hne
              · rw [if_neg he] at hs4
                obtain ⟨cx, cy, hm, hb, hidx⟩ :=
                  drawDiffToCell_frame (2 * x + 1) (2 * y) n4 p4 v b3 out i hs4 hne
                exact ⟨cx, cy, hm,
                  inNodeBox_child hb (by omega) (by omega) (by omega) (by omega),
                  hidx⟩
            by_cases h1 : b1.getD i 0 = buf.getD i 0
            · by_cases h2 : b2.getD i 0 = b1.getD i 0
              · by_cases h3 : b3.getD i 0 = b2.getD i 0
                · exact attr4 (by rw [h3, h2, h1]; exact h)
                · exact attr3 h3
              · exact attr2 h2
            · exact attr1 h1
      · cases p with
        | leaf _ =>
            simp only [drawDiffToCell] at hout
            rw [if_neg hc] at hout
            cases hout
            exact absurd rfl h
        | branch p1 p2 p3 p4 =>
            simp only [drawDiffToCell] at hout
            rw [if_neg hc] at hout
            cases hout
            exact absurd rfl h

/-- The top-left viewport cell has index 0 and is in a valid viewport. -/
theorem index_left_top (v : BoundingBox) (h1 : v.bottom ≤ v.top) (h2 : v.left ≤ v.right) :
    v.mem v.left v.top ∧ v.index v.left v.top = 0 := by
  refine ⟨⟨le_refl _, h2, h1, le_refl _⟩, ?_⟩
  simp only [BoundingBox.index, sub_self, Int.toNat_zero, Nat.sub_self,
    Nat.mul_zero, Nat.add_zero]

/-- C9: both renderers write only buffer indices that are viewport indices of
cells inside the viewport (for a well-formed viewport box): any buffer entry
they change is `viewport.index x y` for some in-viewport point `(x, y)`. -/
theorem claim_C9_renders_respect_viewport (e : Engine) (buf : List Nat)
    (v : BoundingBox) (hv1 : v.bottom ≤ v.top) (hv2 : v.left ≤ v.right) :
    (∀ i, (drawToViewportBuffer e buf v).getD i 0 ≠ buf.getD i 0 →
      ∃ cx cy, v.mem cx cy ∧ v.index cx cy = i) ∧
    (∀ out, drawDiffToViewportArray e buf v = some out →
      ∀ i, out.getD i 0 ≠ buf.getD i 0 →
        ∃ cx cy, v.mem cx cy ∧ v.index cx cy = i) := by
  obtain ⟨hmem0, hidx0⟩ := index_left_top v hv1 hv2
  constructor
  · intro i h
    rcases e with ⟨edge, topOpt, prev, g⟩
    match topOpt with
    | none => exact absurd rfl h
    | some ⟨0, n⟩ =>
        simp only [drawToViewportBuffer] at h
        have hi : i = v.index v.left v.top := by
          rw [hidx0]
          by_contra hne
          exact h (getD_set_ne buf 0 n.population i (by omega))
        exact ⟨v.left, v.top, hmem0, hi.symm⟩
    | some ⟨k + 1, t⟩ =>
        simp only [drawToViewportBuffer] at h
        by_cases h1 : (drawToCell v (-1) 0 t.nw buf).getD i 0 = buf.getD i 0
        · by_cases h2 : (drawToCell v 0 0 t.ne (drawToCell v (-1) 0 t.nw buf)).getD i 0
              = (drawToCell v (-1) 0 t.nw buf).getD i 0
          · by_cases h3 : (drawToCell v (-1) (-1) t.sw (drawToCell v 0 0 t.ne
                (drawToCell v (-1) 0 t.nw buf))).getD i 0
                = (drawToCell v 0 0 t.ne (drawToCell v (-1) 0 t.nw buf)).getD i 0
            · obtain ⟨cx, cy, hm, _, hidx⟩ := drawToCell_frame 0 (-1) t.se v _ i
                (by rw [h3, h2, h1]; exact h)
              exact ⟨cx, cy, hm, hidx⟩
            · obtain ⟨cx, cy, hm, _, hidx⟩ := drawToCell_frame (-1) (-1) t.sw v _ i h3
              exact ⟨cx, cy, hm, hidx⟩
          · obtain ⟨cx, cy, hm, _, hidx⟩ := drawToCell_frame 0 0 t.ne v _ i h2
            exact ⟨cx, cy, hm, hidx⟩
        · obtain ⟨cx, cy, hm, _, hidx⟩ := drawToCell_frame (-1) 0 t.nw v buf i h1
          exact ⟨cx, cy, hm, hidx⟩
  · intro out hout i h
    rcases e with ⟨edge, topOpt, prev, g⟩
    match topOpt with
    | none =>
        simp only [drawDiffToViewportArray] at hout
        cases hout
        exact absurd rfl h
    | some ⟨0, n⟩ =>
        simp only [drawDiffToViewportArray] at hout
        cases hout
        have hi : i = v.index v.left v.top := by
          rw [hidx0]
          by_contra hne
          exact h (getD_set_ne buf 0 n.population i (by omega))
        exact ⟨v.left, v.top, hmem0, hi.symm⟩
    | some ⟨k + 1, t⟩ =>
        simp only [drawDiffToViewportArray] at hout
        match prev, hout with
        | none, hout =>
            cases hout
            exact absurd rfl h
        | some ⟨0, _⟩, hout =>
            cases hout
            exact absurd rfl h
        | some ⟨k' + 1, p⟩, hout =>
            obtain ⟨b1, hs1, hout⟩ := Option.bind_eq_some.mp hout
            obtain ⟨b2, hs2, hout⟩ := Option.bind_eq_some.mp hout
            obtain ⟨b3, hs3, hs4⟩ := Option.bind_eq_some.mp hout
            have attr1 : b1.getD i 0 ≠ buf.getD i 0 →
                ∃ cx cy, v.mem cx cy ∧ v.index cx cy = i := by
              intro hne
              by_cases he : nodeEq t.nw p.nw
              · rw [if_pos he] at hs1
                cases hs1
                exact absurd rfl hne
              · rw [if_neg he] at hs1
                obtain ⟨cx, cy, hm, _, hidx⟩ :=
                  drawDiffToCell_frame (-1) 0 t.nw p.nw v buf b1 i hs1 hne
                exact ⟨cx, cy, hm, hidx⟩
            have attr2 : b2.getD i 0 ≠ b1.getD i 0 →
                ∃ cx cy, v.mem cx cy ∧ v.index cx cy = i := by
              intro hne
              by_cases he : nodeEq t.ne p.ne
              · rw [if_pos he] at hs2
                cases hs2
                exact absurd rfl hne
              · rw [if_neg he] at hs2
                obtain ⟨cx, cy, hm, _, hidx⟩ :=
                  drawDiffToCell_frame 0 0 t.ne p.ne v b1 b2 i hs2 hne
                exact ⟨cx, cy, hm, hidx⟩
            have attr3 : b3.getD i 0 ≠ b2.getD i 0 →
                ∃ cx cy, v.mem cx cy ∧ v.index cx cy = i := by
              intro hne
              by_cases he : nodeEq t.sw p.sw
              · rw [if_pos he] at hs3
                cases hs3
                exact absurd rfl hne
              · rw [if_neg he] at hs3
                obtain ⟨cx, cy, hm, _, hidx⟩ :=
                  drawDiffToCell_frame (-1) (-1) t.sw p.sw v b2 b3 i hs3 hne
                exact ⟨cx, cy, hm, hidx⟩
            have attr4 : out.getD i 0 ≠ b3.getD i 0 →
                ∃ cx cy, v.mem cx cy ∧ v.index cx cy = i := by
              intro hne
              by_cases he : nodeEq t.se p.se
              · rw [if_pos he] at hs4
                cases hs4
                exact absurd rfl hne
              · rw [if_neg he] at hs4
                obtain ⟨cx, cy, hm, _, hidx⟩ :=
                  drawDiffToCell_frame 0 (-1) t.se p.se v b3 out i hs4 hne
                exact ⟨cx, cy, hm, hidx⟩
            by_cases h1 : b1.getD i 0 = buf.getD i 0
            · by_cases h2 : b2.getD i 0 = b1.getD i 0
              · by_cases h3 : b3.getD i 0 = b2.getD i 0
                · exact attr4 (by rw [h3, h2, h1]; exact h)
                · exact attr3 h3
              · exact attr2 h2
            · exact attr1 h1

theorem claim_C9_witness :
    (cexViewport.bottom ≤ cexViewport.top ∧ cexViewport.left ≤ cexViewport.right) ∧
      ((∀ i, (drawToViewportBuffer oneCellEngine [0] cexViewport).getD i 0
          ≠ [0].getD i 0 →
        ∃ cx cy, cexViewport.mem cx cy ∧ cexViewport.index cx cy = i) ∧
      (∀ out, drawDiffToViewportArray oneCellEngine [0] cexViewport = some out →
        ∀ i, out.getD i 0 ≠ [0].getD i 0 →
          ∃ cx cy, cexViewport.mem cx cy ∧ cexViewport.index cx cy = i)) :=
  ⟨⟨by decide, by decide⟩,
    claim_C9_renders_respect_viewport oneCellEngine [0] cexViewport
      (by decide) (by decide)⟩

/-- Setting an in-range buffer entry stores the value. -/
theorem getD_set_self (l : List Nat) (j a : Nat) (h : j < l.length) :
    (l.set j a).getD j 0 = a := by
  simp [List.getD, List.getElem?_set_self', h]

/-- Quotient-remainder decompositions with the same modulus agree. -/
theorem mul_add_inj (w q1 r1 q2 r2 : Nat) (h1 : r1 < w) (h2 : r2 < w)
    (he : w * q1 + r1 = w * q2 + r2) : q1 = q2 ∧ r1 = r2 := by
  rcases Nat.lt_trichotomy q1 q2 with h | h | h
  · exfalso
    have hm : w * (q1 + 1) ≤ w * q2 := Nat.mul_le_mul_left w h
    rw [Nat.mul_succ] at hm
    omega
  · subst h
    omega
  · exfalso
    have hm : w * (q2 + 1) ≤ w * q1 := Nat.mul_le_mul_left w h
    rw [Nat.mul_succ] at hm
    omega

/-- Within the viewport, `index` is injective. -/
theorem index_inj (v : BoundingBox) {x y x' y' : Int}
    (h : v.mem x y) (h' : v.mem x' y') (he : v.index x y = v.index x' y') :
    x = x' ∧ y = y' := by
  obtain ⟨m1, m2, m3, m4⟩ := h
  obtain ⟨n1, n2, n3, n4⟩ := h'
  simp only [BoundingBox.index] at he
  have hxa : (x - v.left).toNat < (v.right - v.left).toNat + 1 := by omega
  have hxa' : (x' - v.left).toNat < (v.right - v.left).toNat + 1 := by omega
  obtain ⟨hq, hr⟩ := mul_add_inj _ _ _ _ _ hxa hxa' he
  omega

/-- Viewport indices of viewport cells fit in a `width * height` buffer. -/
theorem index_lt (v : BoundingBox) {x y : Int} (h : v.mem x y) :
    v.index x y < v.width * v.height := by
  obtain ⟨m1, m2, m3, m4⟩ := h
  simp only [BoundingBox.index, BoundingBox.width, BoundingBox.height]
  rw [show (v.right - v.left + 1).toNat = (v.right - v.left).toNat + 1 by omega,
    show (v.top - v.bottom + 1).toNat = (v.top - v.bottom).toNat + 1 by omega,
    Nat.mul_succ]
  have hq : (v.top - v.bottom).toNat - (y - v.bottom).toNat ≤ (v.top - v.bottom).toNat := by
    omega
  have := Nat.mul_le_mul_left ((v.right - v.left).toNat + 1) hq
  omega

/-- The boxes of distinct same-level quadrant coordinates are disjoint. -/
theorem inNodeBox_disjoint {k : Nat} {x1 y1 x2 y2 cx cy : Int}
    (hne : ¬(x1 = x2 ∧ y1 = y2))
    (h1 : inNodeBox x1 y1 k cx cy) (h2 : inNodeBox x2 y2 k cx cy) : False := by
  have hp : (0 : Int) < 2 ^ k := by positivity
  obtain ⟨a1, a2, a3, a4⟩ := h1
  obtain ⟨b1, b2, b3, b4⟩ := h2
  have hx : x1 = x2 := by
    by_contra hx
    rcases lt_or_gt_of_ne hx with hlt | hlt
    · have := mul_le_mul_of_nonneg_right (show x1 + 1 ≤ x2 by omega) hp.le
      linarith
    · have := mul_le_mul_of_nonneg_right (show x2 + 1 ≤ x1 by omega) hp.le
      linarith
  have hy : y1 = y2 := by
    by_contra hy
    rcases lt_or_gt_of_ne hy with hlt | hlt
    · have := mul_le_mul_of_nonneg_right (show y1 + 1 ≤ y2 by omega) hp.le
      linarith
    · have := mul_le_mul_of_nonneg_right (show y2 + 1 ≤ y1 by omega) hp.le
      linarith
  exact hne ⟨hx, hy⟩

/-- The box of a node containing an in-viewport point collides with the
viewport. -/
theorem collides_of_mem {k : Nat} (v : BoundingBox) {x y cx cy : Int}
    (hm : v.mem cx cy) (hb : inNodeBox x y k cx cy) :
    (BoundingBox.new x y k).collides v = true := by
  obtain ⟨m1, m2, m3, m4⟩ := hm
  obtain ⟨b1, b2, b3, b4⟩ := hb
  rw [show (x + 1) * (2 : Int) ^ k = x * 2 ^ k + 2 ^ k by ring] at b2
  rw [show (y + 1) * (2 : Int) ^ k = y * 2 ^ k + 2 ^ k by ring] at b4
  simp only [BoundingBox.new, BoundingBox.collides, Bool.not_eq_true',
    Bool.or_eq_false_iff, decide_eq_false_iff_not, not_lt]
  omega

/-- `draw_to_cell` writes in place and preserves the buffer length. -/
theorem drawToCell_length : ∀ {k : Nat} (x y : Int) (n : Node k) (v : BoundingBox)
    (buf : List Nat), (drawToCell v x y n buf).length = buf.length
  | 0, x, y, .leaf a, v, buf => by
      simp only [drawToCell]
      split <;> simp
  | k + 1, x, y, .branch nw ne sw se, v, buf => by
      simp only [drawToCell]
      split
      · rw [drawToCell_length, drawToCell_length, drawToCell_length, drawToCell_length]
      · rfl

/-- Drawing a node whose box does not contain an in-viewport point leaves the
point's buffer entry unchanged. -/
theorem drawToCell_preserve {k : Nat} (x y : Int) (m : Node k) (v : BoundingBox)
    (buf : List Nat) {cx cy : Int} (hmem : v.mem cx cy)
    (hnot : ¬inNodeBox x y k cx cy) :
    (drawToCell v x y m buf).getD (v.index cx cy) 0 = buf.getD (v.index cx cy) 0 := by
  by_contra hne
  obtain ⟨cx', cy', hm', hb', hidx⟩ := drawToCell_frame x y m v buf _ hne
  obtain ⟨rfl, rfl⟩ := index_inj v hm' hmem hidx
  exact hnot hb'

/-- Value property of `draw_to_cell`: the buffer entry of an in-viewport point
inside the drawn node's box receives the node's cell value at the in-box
offset. -/
theorem drawToCell_value : ∀ {k : Nat} (x y : Int) (n : Node k) (v : BoundingBox)
    (buf : List Nat) (cx cy : Int),
    v.mem cx cy → inNodeBox x y k cx cy → buf.length = v.width * v.height →
    (drawToCell v x y n buf).getD (v.index cx cy) 0
      = (n.cell (cx - x * 2 ^ k).toNat (cy - y * 2 ^ k).toNat).toNat
  | 0, x, y, .leaf a, v, buf, cx, cy, hm, hb, hlen => by
      obtain ⟨b1, b2, b3, b4⟩ := hb
      have hx : cx = x := by simp only [pow_zero, mul_one] at b1 b2; omega
      have hy : cy = y := by simp only [pow_zero, mul_one] at b3 b4; omega
      subst hx
      subst hy
      simp only [drawToCell, if_pos (collides_of_mem v hm ⟨b1, b2, b3, b4⟩)]
      rw [getD_set_self buf _ _ (by rw [hlen]; exact index_lt v hm)]
      simp [Node.cell, sub_self]
  | k + 1, x, y, .branch nw ne sw se, v, buf, cx, cy, hm, hb, hlen => by
      have hp : (0 : Int) < 2 ^ k := by positivity
      have hcast : ((2 ^ k : Nat) : Int) = 2 ^ k := by push_cast; ring
      have hcol := collides_of_mem v hm hb
      obtain ⟨b1, b2, b3, b4⟩ := hb
      rw [show x * (2 : Int) ^ (k + 1) = 2 * x * 2 ^ k by ring] at b1
      rw [show (x + 1) * (2 : Int) ^ (k + 1) = (2 * x + 1 + 1) * 2 ^ k by ring] at b2
      rw [show y * (2 : Int) ^ (k + 1) = 2 * y * 2 ^ k by ring] at b3
      rw [show (y + 1) * (2 : Int) ^ (k + 1) = (2 * y + 1 + 1) * 2 ^ k by ring] at b4
      have hlen1 : (drawToCell v (2 * x) (2 * y + 1) nw buf).length = v.width * v.height := by
        rw [← hlen]
        apply drawToCell_length
      have hlen2 : (drawToCell v (2 * x + 1) (2 * y + 1) ne
          (drawToCell v (2 * x) (2 * y + 1) nw buf)).length = v.width * v.height := by
        rw [← hlen1]
        apply drawToCell_length
      have hlen3 : (drawToCell v (2 * x) (2 * y) sw (drawToCell v (2 * x + 1) (2 * y + 1) ne
          (drawToCell v (2 * x) (2 * y + 1) nw buf))).length = v.width * v.height := by
        rw [← hlen2]
        apply drawToCell_length
      simp only [drawToCell, if_pos hcol]
      rcases lt_or_ge cx ((2 * x + 1) * 2 ^ k) with hcx | hcx <;>
        rcases lt_or_ge cy ((2 * y + 1) * 2 ^ k) with hcy | hcy
      · -- point in the sw child
        have hbox : inNodeBox (2 * x) (2 * y) k cx cy := ⟨b1, hcx, b3, hcy⟩
        rw [drawToCell_preserve (2 * x + 1) (2 * y) se v _ hm
            (fun hb' => inNodeBox_disjoint (by omega) hbox hb'),
          drawToCell_value (2 * x) (2 * y) sw v _ cx cy hm hbox hlen2,
          show cx - x * 2 ^ (k + 1) = cx - 2 * x * 2 ^ k by ring_nf,
          show cy - y * 2 ^ (k + 1) = cy - 2 * y * 2 ^ k by ring_nf]
        have hi : (cx - 2 * x * 2 ^ k).toNat < 2 ^ k := by
          rw [show (2 * x + 1) * (2 : Int) ^ k = 2 * x * 2 ^ k + 2 ^ k by ring] at hcx
          omega
        have hj : (cy - 2 * y * 2 ^ k).toNat < 2 ^ k := by
          rw [show (2 * y + 1) * (2 : Int) ^ k = 2 * y * 2 ^ k + 2 ^ k by ring] at hcy
          omega
        rw [cell_eq_sw _ hi hj, branch_sw]
      · -- point in the nw child
        have hbox : inNodeBox (2 * x) (2 * y + 1) k cx cy := ⟨b1, hcx, hcy, b4⟩
        rw [drawToCell_preserve (2 * x + 1) (2 * y) se v _ hm
            (fun hb' => inNodeBox_disjoint (by omega) hbox hb'),
          drawToCell_preserve (2 * x) (2 * y) sw v _ hm
            (fun hb' => inNodeBox_disjoint (by omega) hbox hb'),
          drawToCell_preserve (2 * x + 1) (2 * y + 1) ne v _ hm
            (fun hb' => inNodeBox_disjoint (by omega) hbox hb'),
          drawToCell_value (2 * x) (2 * y + 1) nw v buf cx cy hm hbox hlen]
        have hj0 : 2 ^ k ≤ (cy - y * 2 ^ (k + 1)).toNat := by
          rw [show (2 * y + 1) * (2 : Int) ^ k = y * 2 ^ (k + 1) + 2 ^ k by ring] at hcy
          omega
        obtain ⟨j', hj'⟩ : ∃ t, (cy - y * 2 ^ (k + 1)).toNat = 2 ^ k + t :=
          ⟨(cy - y * 2 ^ (k + 1)).toNat - 2 ^ k, by omega⟩
        rw [hj', cell_eq_nw _ j' (by
            rw [show (2 * x + 1) * (2 : Int) ^ k = x * 2 ^ (k + 1) + 2 ^ k by ring] at hcx
            omega), branch_nw]
        rw [show (2 : Int) * x * 2 ^ k = x * 2 ^ (k + 1) by ring,
          show cy - (2 * y + 1) * 2 ^ k = cy - y * 2 ^ (k + 1) - 2 ^ k by ring,
          show (cy - y * 2 ^ (k + 1) - 2 ^ k).toNat = j' by omega]
      · -- point in the se child
        have hbox : inNodeBox (2 * x + 1) (2 * y) k cx cy := ⟨hcx, b2, b3, hcy⟩
        rw [drawToCell_value (2 * x + 1) (2 * y) se v _ cx cy hm hbox hlen3]
        have hi0 : 2 ^ k ≤ (cx - x * 2 ^ (k + 1)).toNat := by
          rw [show (2 * x + 1) * (2 : Int) ^ k = x * 2 ^ (k + 1) + 2 ^ k by ring] at hcx
          omega
        obtain ⟨i', hi'⟩ : ∃ t, (cx - x * 2 ^ (k + 1)).toNat = 2 ^ k + t :=
          ⟨(cx - x * 2 ^ (k + 1)).toNat - 2 ^ k, by omega⟩
        rw [hi', cell_eq_se _ i' (by
            rw [show (2 * y + 1) * (2 : Int) ^ k = y * 2 ^ (k + 1) + 2 ^ k by ring] at hcy
            omega), branch_se]
        rw [show cx - (2 * x + 1) * 2 ^ k = cx - x * 2 ^ (k + 1) - 2 ^ k by ring,
          show (cx - x * 2 ^ (k + 1) - 2 ^ k).toNat = i' by omega,
          show (2 : Int) * y * 2 ^ k = y * 2 ^ (k + 1) by ring]
      · -- point in the ne child
        have hbox : inNodeBox (2 * x + 1) (2 * y + 1) k cx cy := ⟨hcx, b2, hcy, b4⟩
        rw [drawToCell_preserve (2 * x + 1) (2 * y) se v _ hm
            (fun hb' => inNodeBox_disjoint (by omega) hbox hb'),
          drawToCell_preserve (2 * x) (2 * y) sw v _ hm
            (fun hb' => inNodeBox_disjoint (by omega) hbox hb'),
          drawToCell_value (2 * x + 1) (2 * y + 1) ne v _ cx cy hm hbox hlen1]
        have hi0 : 2 ^ k ≤ (cx - x * 2 ^ (k + 1)).toNat := by
          rw [show (2 * x + 1) * (2 : Int) ^ k = x * 2 ^ (k + 1) + 2 ^ k by ring] at hcx
          omega
        have hj0 : 2 ^ k ≤ (cy - y * 2 ^ (k + 1)).toNat := by
          rw [show (2 * y + 1) * (2 : Int) ^ k = y * 2 ^ (k + 1) + 2 ^ k by ring] at hcy
          omega
        obtain ⟨i', hi'⟩ : ∃ t, (cx - x * 2 ^ (k + 1)).toNat = 2 ^ k + t :=
          ⟨(cx - x * 2 ^ (k + 1)).toNat - 2 ^ k, by omega⟩
        obtain ⟨j', hj'⟩ : ∃ t, (cy - y * 2 ^ (k + 1)).toNat = 2 ^ k + t :=
          ⟨(cy - y * 2 ^ (k + 1)).toNat - 2 ^ k, by omega⟩
        rw [hi', hj', cell_eq_ne _ i' j', branch_ne]
        rw [show cx - (2 * x + 1) * 2 ^ k = cx - x * 2 ^ (k + 1) - 2 ^ k by ring,
          show (cx - x * 2 ^ (k + 1) - 2 ^ k).toNat = i' by omega,
          show cy - (2 * y + 1) * 2 ^ k = cy - y * 2 ^ (k + 1) - 2 ^ k by ring,
          show (cy - y * 2 ^ (k + 1) - 2 ^ k).toNat = j' by omega]

/-- Every cell of the canonical empty node is dead. -/
theorem empty_cell : ∀ (k : Nat) (i j : Nat), (empty k).cell i j = false
  | 0, _, _ => rfl
  | k + 1, i, j => by
      show (Node.branch (empty k) (empty k) (empty k) (empty k)).cell i j = false
      simp only [Node.cell]
      split <;> split <;> exact empty_cell k _ _

/-- Collision of a node box against a rectangle, spelled out as inequalities. -/
theorem collides_new_iff (x y : Int) (k : Nat) (b : BoundingBox) :
    (BoundingBox.new x y k).collides b = true ↔
      (x * 2 ^ k ≤ b.right ∧ b.left ≤ x * 2 ^ k + 2 ^ k - 1 ∧
        y * 2 ^ k ≤ b.top ∧ b.bottom ≤ y * 2 ^ k + 2 ^ k - 1) := by
  simp only [BoundingBox.new, BoundingBox.collides, Bool.not_eq_true',
    Bool.or_eq_false_iff, decide_eq_false_iff_not, not_lt, gt_iff_lt]
  omega

/-- The off-by-one-level box check of `construct` still hits: whenever the
input bound contains the origin and some point of the level-`(k+1)` node box,
the level-`k` check box placed at the same quadrant coordinates (the box the
source's recursive arm actually tests) collides with the bound. -/
theorem check_hit_of_mem {k : Nat} (b : BoundingBox) (x y cx cy : Int)
    (hL : b.left ≤ 0) (hR : 0 ≤ b.right) (hB : b.bottom ≤ 0) (hT : 0 ≤ b.top)
    (hm : b.mem cx cy) (hbox : inNodeBox x y (k + 1) cx cy) :
    (BoundingBox.new x y k).collides b = true := by
  have hp : (0 : Int) < 2 ^ k := by positivity
  obtain ⟨m1, m2, m3, m4⟩ := hm
  obtain ⟨b1, b2, b3, b4⟩ := hbox
  rw [show x * (2 : Int) ^ (k + 1) = 2 * (x * 2 ^ k) by ring] at b1
  rw [show (x + 1) * (2 : Int) ^ (k + 1) = 2 * (x * 2 ^ k) + 2 * 2 ^ k by ring] at b2
  rw [show y * (2 : Int) ^ (k + 1) = 2 * (y * 2 ^ k) by ring] at b3
  rw [show (y + 1) * (2 : Int) ^ (k + 1) = 2 * (y * 2 ^ k) + 2 * 2 ^ k by ring] at b4
  rw [collides_new_iff]
  refine ⟨?_, ?_, ?_, ?_⟩
  · rcases le_or_lt 0 x with hx | hx
    · have h0 : 0 ≤ x * 2 ^ k := mul_nonneg hx hp.le
      linarith
    · have h0 : x * 2 ^ k ≤ (-1) * 2 ^ k := mul_le_mul_of_nonneg_right (by omega) hp.le
      linarith
  · rcases le_or_lt 0 x with hx | hx
    · have h0 : 0 ≤ x * 2 ^ k := mul_nonneg hx hp.le
      linarith
    · have h0 : (x + 1) * 2 ^ k ≤ 0 * 2 ^ k := mul_le_mul_of_nonneg_right (by omega) hp.le
      have hxe : (x + 1) * (2 : Int) ^ k = x * 2 ^ k + 2 ^ k := by ring
      linarith
  · rcases le_or_lt 0 y with hy | hy
    · have h0 : 0 ≤ y * 2 ^ k := mul_nonneg hy hp.le
      linarith
    · have h0 : y * 2 ^ k ≤ (-1) * 2 ^ k := mul_le_mul_of_nonneg_right (by omega) hp.le
      linarith
  · rcases le_or_lt 0 y with hy | hy
    · have h0 : 0 ≤ y * 2 ^ k := mul_nonneg hy hp.le
      linarith
    · have h0 : (y + 1) * 2 ^ k ≤ 0 * 2 ^ k := mul_le_mul_of_nonneg_right (by omega) hp.le
      have hye : (y + 1) * (2 : Int) ^ k = y * 2 ^ k + 2 ^ k := by ring
      linarith

/-- Cell values of `construct`: inside the input bound the constructed node
reads the input vector at the row-major index the source computes; outside
the bound all cells are dead.  Only requires that the bound contains the
origin, which makes the source's one-level-down `assemble` box check
conservative enough to never drop an in-bound region. -/
theorem construct_cell : ∀ {k : Nat} (params : ConstructionParameters) (x y : Int)
    (i j : Nat), i < 2 ^ k → j < 2 ^ k →
    params.bound.left ≤ 0 → 0 ≤ params.bound.right →
    params.bound.bottom ≤ 0 → 0 ≤ params.bound.top →
    (construct params x y k).cell i j =
      if params.bound.mem (x * 2 ^ k + i) (y * 2 ^ k + j) then
        (Automata.fromNat (params.vector.getD
          (params.width * (params.height - 1 - (y * 2 ^ k + j - params.bound.bottom).toNat)
            + (x * 2 ^ k + i - params.bound.left).toNat) 0)).isAlive
      else false
  | 0, params, x, y, i, j, hi, hj, hL, hR, hB, hT => by
      obtain rfl : i = 0 := by simp only [pow_zero] at hi; omega
      obtain rfl : j = 0 := by simp only [pow_zero] at hj; omega
      simp only [pow_zero, mul_one, Nat.cast_zero, add_zero]
      cases hc : (BoundingBox.new x y 0).collides params.bound with
      | true =>
          have hun : construct params x y 0 = makeAutomata (Automata.fromNat
              (params.vector.getD
                (params.width * (params.height - 1 - (y - params.bound.bottom).toNat)
                  + (x - params.bound.left).toNat) 0)) := by
            simp [construct, hc]
          rw [hun, if_pos ((collides_point_iff params.bound x y).mp hc)]
          rfl
      | false =>
          have hun : construct params x y 0 = empty 0 := by
            simp [construct, hc]
          rw [hun, if_neg (fun hmem =>
            absurd ((collides_point_iff params.bound x y).mpr hmem) (by simp [hc]))]
          rfl
  | k + 1, params, x, y, i, j, hi, hj, hL, hR, hB, hT => by
      have hp : (0 : Int) < 2 ^ k := by positivity
      cases hc : (BoundingBox.new x y k).collides params.bound with
      | false =>
          have hnm : ¬ params.bound.mem (x * 2 ^ (k + 1) + i) (y * 2 ^ (k + 1) + j) := by
            intro hmem
            have hcast : ((2 ^ (k + 1) : Nat) : Int) = 2 ^ (k + 1) := by push_cast; ring
            have hbox : inNodeBox x y (k + 1) (x * 2 ^ (k + 1) + i) (y * 2 ^ (k + 1) + j) := by
              have hr1 : (x + 1) * (2 : Int) ^ (k + 1) = x * 2 ^ (k + 1) + 2 ^ (k + 1) := by
                ring
              have hr2 : (y + 1) * (2 : Int) ^ (k + 1) = y * 2 ^ (k + 1) + 2 ^ (k + 1) := by
                ring
              exact ⟨by omega, by rw [hr1]; omega, by omega, by rw [hr2]; omega⟩
            have hhit := check_hit_of_mem params.bound x y _ _ hL hR hB hT hmem hbox
            rw [hc] at hhit
            exact Bool.false_ne_true hhit
          rw [if_neg hnm]
          have hun : construct params x y (k + 1)
              = join (empty k) (empty k) (empty k) (empty k) := by
            simp [construct, hc]
          rw [hun, show join (empty k) (empty k) (empty k) (empty k) = empty (k + 1) from rfl,
            empty_cell]
      | true =>
          have hun : construct params x y (k + 1) =
              join (construct params (x * 2) (y * 2 + 1) k)
                (construct params (x * 2 + 1) (y * 2 + 1) k)
                (construct params (x * 2) (y * 2) k)
                (construct params (x * 2 + 1) (y * 2) k) := by
            simp [construct, hc]
          rw [hun]
          rcases Nat.lt_or_ge j (2 ^ k) with hj' | hj'
          · rcases Nat.lt_or_ge i (2 ^ k) with hi' | hi'
            · rw [cell_eq_sw _ hi' hj', join_sw,
                construct_cell params (x * 2) (y * 2) i j hi' hj' hL hR hB hT,
                show (x * 2 : Int) * 2 ^ k = x * 2 ^ (k + 1) by ring,
                show (y * 2 : Int) * 2 ^ k = y * 2 ^ (k + 1) by ring]
            · obtain ⟨i', rfl⟩ : ∃ i', i = 2 ^ k + i' := ⟨i - 2 ^ k, by omega⟩
              have hi'' : i' < 2 ^ k := by rw [pow_succ] at hi; omega
              rw [cell_eq_se _ i' hj', join_se,
                construct_cell params (x * 2 + 1) (y * 2) i' j hi'' hj' hL hR hB hT,
                show (x * 2 + 1 : Int) * 2 ^ k + (i' : Int)
                  = x * 2 ^ (k + 1) + ((2 ^ k + i' : Nat) : Int) by push_cast; ring,
                show (y * 2 : Int) * 2 ^ k = y * 2 ^ (k + 1) by ring]
          · obtain ⟨j', rfl⟩ : ∃ j', j = 2 ^ k + j' := ⟨j - 2 ^ k, by omega⟩
            have hj'' : j' < 2 ^ k := by rw [pow_succ] at hj; omega
            rcases Nat.lt_or_ge i (2 ^ k) with hi' | hi'
            · rw [cell_eq_nw _ j' hi', join_nw,
                construct_cell params (x * 2) (y * 2 + 1) i j' hi' hj'' hL hR hB hT,
                show (x * 2 : Int) * 2 ^ k = x * 2 ^ (k + 1) by ring,
                show (y * 2 + 1 : Int) * 2 ^ k + (j' : Int)
                  = y * 2 ^ (k + 1) + ((2 ^ k + j' : Nat) : Int) by push_cast; ring]
            · obtain ⟨i', rfl⟩ : ∃ i', i = 2 ^ k + i' := ⟨i - 2 ^ k, by omega⟩
              have hi'' : i' < 2 ^ k := by rw [pow_succ] at hi; omega
              rw [cell_eq_ne _ i' j', join_ne,
                construct_cell params (x * 2 + 1) (y * 2 + 1) i' j' hi'' hj'' hL hR hB hT,
                show (x * 2 + 1 : Int) * 2 ^ k + (i' : Int)
                  = x * 2 ^ (k + 1) + ((2 ^ k + i' : Nat) : Int) by push_cast; ring,
                show (y * 2 + 1 : Int) * 2 ^ k + (j' : Int)
                  = y * 2 ^ (k + 1) + ((2 ^ k + j' : Nat) : Int) by push_cast; ring]

/-- The fuel-driven ceiling logarithm gives an upper-bound exponent whenever
the fuel covers the argument. -/
theorem ceilLog2Aux_le : ∀ (fuel n : Nat), n ≤ fuel → n ≤ 2 ^ ceilLog2Aux fuel n
  | 0, 0, _ => by simp [ceilLog2Aux]
  | 0, _ + 1, h => by omega
  | _ + 1, 0, _ => by simp [ceilLog2Aux]
  | _ + 1, 1, _ => by simp [ceilLog2Aux]
  | fuel + 1, n + 2, h => by
      have ih := ceilLog2Aux_le fuel ((n + 2 + 1) / 2) (by omega)
      simp only [ceilLog2Aux, pow_succ]
      omega

/-- `n ≤ 2 ^ ceil(log2 n)`. -/
theorem ceilLog2_le (n : Nat) : n ≤ 2 ^ ceilLog2 n := ceilLog2Aux_le n n (le_refl n)

/-- `Automata::from` of a 0/1 value read back through `isAlive`. -/
theorem fromNat_isAlive_toNat (u : Nat) (hu : u ≤ 1) :
    (Automata.fromNat u).isAlive.toNat = u := by
  rcases Nat.le_one_iff_eq_zero_or_eq_one.mp hu with rfl | rfl <;> rfl

/-- `Automata::from` of a 0/1 value read back through `population`. -/
theorem fromNat_population (u : Nat) (hu : u ≤ 1) :
    (makeAutomata (Automata.fromNat u)).population = u := by
  rcases Nat.le_one_iff_eq_zero_or_eq_one.mp hu with rfl | rfl <;> rfl

/-- The full renderer preserves the buffer length. -/
theorem drawToViewportBuffer_length (e : Engine) (buf : List Nat) (v : BoundingBox) :
    (drawToViewportBuffer e buf v).length = buf.length := by
  rcases he : e.top with _ | ⟨k, t⟩
  · simp [drawToViewportBuffer, he]
  · rcases k with _ | k
    · simp [drawToViewportBuffer, he]
    · simp [drawToViewportBuffer, he, drawToCell_length]

/-- Row-major index into the origin-centered viewport, reduced to the input
buffer dimensions. -/
theorem centeredViewport_index (w h : Nat) (cx cy : Int) (hw : 1 ≤ w) (hh : 1 ≤ h) :
    (centeredViewport w h).index cx cy
      = w * (h - 1 - (cy - (centeredViewport w h).bottom).toNat)
        + (cx - (centeredViewport w h).left).toNat := by
  have hW : ((centeredViewport w h).right - (centeredViewport w h).left).toNat + 1 = w := by
    simp only [centeredViewport]
    omega
  have hH : ((centeredViewport w h).top - (centeredViewport w h).bottom).toNat = h - 1 := by
    simp only [centeredViewport]
    omega
  simp only [BoundingBox.index]
  rw [hW, hH]

/-- Round-trip value at one in-viewport point: the buffer rendered from
`from_array` holds exactly the input vector entry of that point. -/
theorem roundTrip_getD (b : List Nat) (w h : Nat) (hw : 1 ≤ w) (hh : 1 ≤ h)
    (hlenb : b.length = w * h) (hvals : ∀ u ∈ b, u ≤ 1)
    (cx cy : Int) (hm : (centeredViewport w h).mem cx cy) :
    (drawToViewportBuffer (fromArray b w h .truncate) (List.replicate (w * h) 0)
        (centeredViewport w h)).getD ((centeredViewport w h).index cx cy) 0
      = b.getD ((centeredViewport w h).index cx cy) 0 := by
  have hm2 := hm
  obtain ⟨m1, m2, m3, m4⟩ := hm2
  simp only [centeredViewport] at m1 m2 m3 m4
  rcases hs : ceilLog2 (max w h) with _ | s
  · have hmax : max w h ≤ 1 := by
      have hcl := ceilLog2_le (max w h)
      rw [hs, pow_zero] at hcl
      exact hcl
    obtain rfl : w = 1 := by omega
    obtain rfl : h = 1 := by omega
    obtain rfl : cx = 0 := by omega
    obtain rfl : cy = 0 := by omega
    have hb0 : b.getD 0 0 ∈ b := by
      rw [List.getD_eq_getElem b 0 (by omega)]
      exact List.getElem_mem _
    have hidx0 : (centeredViewport 1 1).index 0 0 = 0 := by decide
    simp only [fromArray, hs, drawToViewportBuffer, hidx0]
    rw [fromNat_population _ (hvals _ hb0), getD_set_self _ _ _ (by simp)]
  · have hmax : max w h ≤ 2 ^ (s + 1) := by
      have hcl := ceilLog2_le (max w h)
      rw [hs] at hcl
      exact hcl
    have hwle : w ≤ 2 ^ (s + 1) := le_trans (le_max_left _ _) hmax
    have hhle : h ≤ 2 ^ (s + 1) := le_trans (le_max_right _ _) hmax
    have h2s : (2 : Nat) ^ (s + 1) = 2 ^ s * 2 := pow_succ 2 s
    have hcs : ((2 ^ s : Nat) : Int) = 2 ^ s := by push_cast; ring
    have hxlo : -((2 : Int) ^ s) ≤ cx := by omega
    have hxhi : cx < 2 ^ s := by omega
    have hylo : -((2 : Int) ^ s) ≤ cy := by omega
    have hyhi : cy < 2 ^ s := by omega
    have hL : (centeredViewport w h).left ≤ 0 := by
      simp only [centeredViewport]
      omega
    have hR : 0 ≤ (centeredViewport w h).right := by
      simp only [centeredViewport]
      omega
    have hB : (centeredViewport w h).bottom ≤ 0 := by
      simp only [centeredViewport]
      omega
    have hT : 0 ≤ (centeredViewport w h).top := by
      simp only [centeredViewport]
      omega
    have hW2 : (centeredViewport w h).width = w := by
      simp only [centeredViewport, BoundingBox.width]
      omega
    have hH2 : (centeredViewport w h).height = h := by
      simp only [centeredViewport, BoundingBox.height]
      omega
    have hlen0 : (List.replicate (w * h) 0).length
        = (centeredViewport w h).width * (centeredViewport w h).height := by
      rw [hW2, hH2, List.length_replicate]
    have hlen1 : ∀ (n1 : Node s) (x1 y1 : Int),
        (drawToCell (centeredViewport w h) x1 y1 n1 (List.replicate (w * h) 0)).length
          = (centeredViewport w h).width * (centeredViewport w h).height := by
      intro n1 x1 y1
      rw [drawToCell_length]
      exact hlen0
    have hlen2 : ∀ (n1 n2 : Node s) (x1 y1 x2 y2 : Int),
        (drawToCell (centeredViewport w h) x2 y2 n2
          (drawToCell (centeredViewport w h) x1 y1 n1 (List.replicate (w * h) 0))).length
          = (centeredViewport w h).width * (centeredViewport w h).height := by
      intro n1 n2 x1 y1 x2 y2
      rw [drawToCell_length]
      exact hlen1 n1 x1 y1
    have hlen3 : ∀ (n1 n2 n3 : Node s) (x1 y1 x2 y2 x3 y3 : Int),
        (drawToCell (centeredViewport w h) x3 y3 n3
          (drawToCell (centeredViewport w h) x2 y2 n2
            (drawToCell (centeredViewport w h) x1 y1 n1 (List.replicate (w * h) 0)))).length
          = (centeredViewport w h).width * (centeredViewport w h).height := by
      intro n1 n2 n3 x1 y1 x2 y2 x3 y3
      rw [drawToCell_length]
      exact hlen2 n1 n2 x1 y1 x2 y2
    have tail : (if (centeredViewport w h).mem cx cy then
        (Automata.fromNat (b.getD
          (w * (h - 1 - (cy - (centeredViewport w h).bottom).toNat)
            + (cx - (centeredViewport w h).left).toNat) 0)).isAlive
        else false).toNat = b.getD ((centeredViewport w h).index cx cy) 0 := by
      rw [if_pos hm, centeredViewport_index w h cx cy hw hh]
      have hxa : (cx - (centeredViewport w h).left).toNat < w := by
        simp only [centeredViewport]
        omega
      have hya : h - 1 - (cy - (centeredViewport w h).bottom).toNat ≤ h - 1 := by omega
      have hmul := Nat.mul_le_mul_left w hya
      have hwh : w * (h - 1) + w = w * h := by
        rw [← Nat.mul_succ]
        congr 1
        omega
      have hidxlt : w * (h - 1 - (cy - (centeredViewport w h).bottom).toNat)
          + (cx - (centeredViewport w h).left).toNat < b.length := by omega
      have hble : b.getD (w * (h - 1 - (cy - (centeredViewport w h).bottom).toNat)
          + (cx - (centeredViewport w h).left).toNat) 0 ≤ 1 := by
        rw [List.getD_eq_getElem b 0 hidxlt]
        exact hvals _ (List.getElem_mem _)
      exact fromNat_isAlive_toNat _ hble
    simp only [fromArray, hs, drawToViewportBuffer, join_nw, join_ne, join_sw, join_se]
    set P : ConstructionParameters :=
      ConstructionParameters.mk (s + 1) b w h (centeredViewport w h) with hP
    have hPb : P.bound = centeredViewport w h := rfl
    have hPv : P.vector = b := rfl
    have hPw : P.width = w := rfl
    have hPh : P.height = h := rfl
    have hL' : P.bound.left ≤ 0 := hL
    have hR' : 0 ≤ P.bound.right := hR
    have hB' : P.bound.bottom ≤ 0 := hB
    have hT' : 0 ≤ P.bound.top := hT
    have e1 : ((-1 : Int)) * 2 ^ s = -(2 ^ s) := by ring
    have e2 : ((-1 : Int) + 1) * 2 ^ s = 0 := by ring
    have e3 : ((0 : Int) + 1) * 2 ^ s = 2 ^ s := by ring
    rcases lt_or_ge cx 0 with hx | hx <;> rcases lt_or_ge cy 0 with hy | hy
    · -- point in the sw child box
      have hbox : inNodeBox (-1) (-1) s cx cy :=
        ⟨by rw [e1]; omega, by rw [e2]; omega, by rw [e1]; omega, by rw [e2]; omega⟩
      have hnse : ¬ inNodeBox 0 (-1) s cx cy := by
        rintro ⟨q1, -, -, -⟩
        rw [zero_mul] at q1
        omega
      rw [drawToCell_preserve 0 (-1) _ _ _ hm hnse,
        drawToCell_value (-1) (-1) _ _ _ cx cy hm hbox (hlen2 _ _ _ _ _ _)]
      have hi' : (cx - (-1) * 2 ^ s).toNat < 2 ^ s := by rw [e1]; omega
      have hj' : (cy - (-1) * 2 ^ s).toNat < 2 ^ s := by rw [e1]; omega
      have hxe : ((-1 : Int)) * 2 ^ s + ((cx - (-1) * 2 ^ s).toNat : Int) = cx := by
        rw [e1]
        omega
      have hye : ((-1 : Int)) * 2 ^ s + ((cy - (-1) * 2 ^ s).toNat : Int) = cy := by
        rw [e1]
        omega
      rw [construct_cell P (-1) (-1) _ _ hi' hj' hL' hR' hB' hT', hxe, hye, hPb, hPv,
        hPw, hPh]
      exact tail
    · -- point in the nw child box
      have hbox : inNodeBox (-1) 0 s cx cy :=
        ⟨by rw [e1]; omega, by rw [e2]; omega, by rw [zero_mul]; omega, by rw [e3]; omega⟩
      have hnse : ¬ inNodeBox 0 (-1) s cx cy := by
        rintro ⟨q1, -, -, -⟩
        rw [zero_mul] at q1
        omega
      have hnsw : ¬ inNodeBox (-1) (-1) s cx cy := by
        rintro ⟨-, -, -, q4⟩
        rw [e2] at q4
        omega
      have hnne : ¬ inNodeBox 0 0 s cx cy := by
        rintro ⟨q1, -, -, -⟩
        rw [zero_mul] at q1
        omega
      rw [drawToCell_preserve 0 (-1) _ _ _ hm hnse,
        drawToCell_preserve (-1) (-1) _ _ _ hm hnsw,
        drawToCell_preserve 0 0 _ _ _ hm hnne,
        drawToCell_value (-1) 0 _ _ _ cx cy hm hbox hlen0]
      have hi' : (cx - (-1) * 2 ^ s).toNat < 2 ^ s := by rw [e1]; omega
      have hj' : (cy - 0 * 2 ^ s).toNat < 2 ^ s := by rw [zero_mul]; omega
      have hxe : ((-1 : Int)) * 2 ^ s + ((cx - (-1) * 2 ^ s).toNat : Int) = cx := by
        rw [e1]
        omega
      have hye : ((0 : Int)) * 2 ^ s + ((cy - 0 * 2 ^ s).toNat : Int) = cy := by
        rw [zero_mul]
        omega
      rw [construct_cell P (-1) 0 _ _ hi' hj' hL' hR' hB' hT', hxe, hye, hPb, hPv,
        hPw, hPh]
      exact tail
    · -- point in the se child box
      have hbox : inNodeBox 0 (-1) s cx cy :=
        ⟨by rw [zero_mul]; omega, by rw [e3]; omega, by rw [e1]; omega, by rw [e2]; omega⟩
      rw [drawToCell_value 0 (-1) _ _ _ cx cy hm hbox (hlen3 _ _ _ _ _ _ _ _ _)]
      have hi' : (cx - 0 * 2 ^ s).toNat < 2 ^ s := by rw [zero_mul]; omega
      have hj' : (cy - (-1) * 2 ^ s).toNat < 2 ^ s := by rw [e1]; omega
      have hxe : ((0 : Int)) * 2 ^ s + ((cx - 0 * 2 ^ s).toNat : Int) = cx := by
        rw [zero_mul]
        omega
      have hye : ((-1 : Int)) * 2 ^ s + ((cy - (-1) * 2 ^ s).toNat : Int) = cy := by
        rw [e1]
        omega
      rw [construct_cell P 0 (-1) _ _ hi' hj' hL' hR' hB' hT', hxe, hye, hPb, hPv,
        hPw, hPh]
      exact tail
    · -- point in the ne child box
      have hbox : inNodeBox 0 0 s cx cy :=
        ⟨by rw [zero_mul]; omega, by rw [e3]; omega, by rw [zero_mul]; omega,
          by rw [e3]; omega⟩
      have hnse : ¬ inNodeBox 0 (-1) s cx cy := by
        rintro ⟨-, -, -, q4⟩
        rw [e2] at q4
        omega
      have hnsw : ¬ inNodeBox (-1) (-1) s cx cy := by
        rintro ⟨-, -, -, q4⟩
        rw [e2] at q4
        omega
      rw [drawToCell_preserve 0 (-1) _ _ _ hm hnse,
        drawToCell_preserve (-1) (-1) _ _ _ hm hnsw,
        drawToCell_value 0 0 _ _ _ cx cy hm hbox (hlen1 _ _ _)]
      have hi' : (cx - 0 * 2 ^ s).toNat < 2 ^ s := by rw [zero_mul]; omega
      have hj' : (cy - 0 * 2 ^ s).toNat < 2 ^ s := by rw [zero_mul]; omega
      have hxe : ((0 : Int)) * 2 ^ s + ((cx - 0 * 2 ^ s).toNat : Int) = cx := by
        rw [zero_mul]
        omega
      have hye : ((0 : Int)) * 2 ^ s + ((cy - 0 * 2 ^ s).toNat : Int) = cy := by
        rw [zero_mul]
        omega
      rw [construct_cell P 0 0 _ _ hi' hj' hL' hR' hB' hT', hxe, hye, hPb, hPv, hPw, hPh]
      exact tail

/-- C2: for every byte buffer of size `w * h` with values in `{0, 1}` and
`w, h ≥ 1`, building an engine with `from_array(b, w, h, Truncate)` and
rendering it through `draw_to_viewport_buffer` into a freshly zeroed `w * h`
buffer with the origin-centered viewport writes back exactly the input
buffer. -/
theorem claim_C2_round_trip (b : List Nat) (w h : Nat) (hw : 1 ≤ w) (hh : 1 ≤ h)
    (hlenb : b.length = w * h) (hvals : ∀ u ∈ b, u ≤ 1) :
    drawToViewportBuffer (fromArray b w h .truncate) (List.replicate (w * h) 0)
      (centeredViewport w h) = b := by
  have hfl : (drawToViewportBuffer (fromArray b w h .truncate) (List.replicate (w * h) 0)
      (centeredViewport w h)).length = w * h := by
    rw [drawToViewportBuffer_length, List.length_replicate]
  apply List.ext_getElem (by rw [hfl, hlenb])
  intro n h1 h2
  have h1' : n < w * h := by rw [← hfl]; exact h1
  obtain ⟨q, r, hq2, hr2, hnqr⟩ : ∃ q r, q < h ∧ r < w ∧ w * q + r = n :=
    ⟨n / w, n % w, Nat.div_lt_of_lt_mul h1', Nat.mod_lt _ (by omega), Nat.div_add_mod n w⟩
  have hm : (centeredViewport w h).mem
      ((centeredViewport w h).left + (r : Int))
      ((centeredViewport w h).bottom + ((h - 1 - q : Nat) : Int)) := by
    simp only [BoundingBox.mem, centeredViewport]
    refine ⟨by omega, by omega, by omega, by omega⟩
  have hidx2 : (centeredViewport w h).index
      ((centeredViewport w h).left + (r : Int))
      ((centeredViewport w h).bottom + ((h - 1 - q : Nat) : Int)) = n := by
    rw [centeredViewport_index w h _ _ hw hh]
    have e1 : ((centeredViewport w h).bottom + ((h - 1 - q : Nat) : Int)
        - (centeredViewport w h).bottom).toNat = h - 1 - q := by omega
    have e2 : ((centeredViewport w h).left + (r : Int)
        - (centeredViewport w h).left).toNat = r := by omega
    rw [e1, e2, show h - 1 - (h - 1 - q) = q by omega]
    exact hnqr
  have hgd := roundTrip_getD b w h hw hh hlenb hvals _ _ hm
  rw [hidx2] at hgd
  rw [← List.getD_eq_getElem _ 0 h1, ← List.getD_eq_getElem _ 0 h2]
  exact hgd

theorem claim_C2_witness :
    (1 ≤ 2 ∧ ([1, 0, 0, 1] : List Nat).length = 2 * 2 ∧
      ∀ u ∈ ([1, 0, 0, 1] : List Nat), u ≤ 1) ∧
    drawToViewportBuffer (fromArray [1, 0, 0, 1] 2 2 .truncate)
      (List.replicate (2 * 2) 0) (centeredViewport 2 2) = [1, 0, 0, 1] :=
  ⟨⟨by decide, by decide, by decide⟩,
    claim_C2_round_trip [1, 0, 0, 1] 2 2 (by decide) (by decide) (by decide) (by decide)⟩

/-- `PartialEq for Node` is reflexive. -/
theorem nodeEq_refl : ∀ {k : Nat} (n : Node k), nodeEq n n = true
  | _, .leaf a => by simp [nodeEq]
  | _, .branch n1 n2 n3 n4 => by
      simp [nodeEq, nodeEq_refl n1, nodeEq_refl n2, nodeEq_refl n3, nodeEq_refl n4]

/-- At equal levels, `PartialEq for Node` (under the interning cache's
no-collision reading) is sound: equal comparison means equal trees. -/
theorem nodeEq_eq : ∀ {k : Nat} (n p : Node k), nodeEq n p = true → n = p
  | 0, .leaf a, .leaf b, h => by
      exact congrArg Node.leaf (by simpa [nodeEq] using h)
  | k + 1, .branch n1 n2 n3 n4, .branch p1 p2 p3 p4, h => by
      simp only [nodeEq, Bool.and_eq_true] at h
      obtain ⟨⟨⟨h1, h2⟩, h3⟩, h4⟩ := h
      rw [nodeEq_eq n1 p1 h1, nodeEq_eq n2 p2 h2, nodeEq_eq n3 p3 h3, nodeEq_eq n4 p4 h4]

theorem parent_cell_sw {k : Nat} (q : Node (k + 1)) {x y cx cy : Int}
    (hb : inNodeBox (2 * x) (2 * y) k cx cy) :
    q.cell (cx - x * 2 ^ (k + 1)).toNat (cy - y * 2 ^ (k + 1)).toNat
      = q.sw.cell (cx - 2 * x * 2 ^ k).toNat (cy - 2 * y * 2 ^ k).toNat := by
  have hp : (0 : Int) < 2 ^ k := by positivity
  have hcast : ((2 ^ k : Nat) : Int) = 2 ^ k := by push_cast; ring
  obtain ⟨b1, b2, b3, b4⟩ := hb
  rw [show (2 * x + 1) * (2 : Int) ^ k = x * 2 ^ (k + 1) + 2 ^ k by ring] at b2
  rw [show (2 * y + 1) * (2 : Int) ^ k = y * 2 ^ (k + 1) + 2 ^ k by ring] at b4
  rw [show (2 : Int) * x * 2 ^ k = x * 2 ^ (k + 1) by ring] at b1 ⊢
  rw [show (2 : Int) * y * 2 ^ k = y * 2 ^ (k + 1) by ring] at b3 ⊢
  exact cell_eq_sw q (by omega) (by omega)

theorem parent_cell_se {k : Nat} (q : Node (k + 1)) {x y cx cy : Int}
    (hb : inNodeBox (2 * x + 1) (2 * y) k cx cy) :
    q.cell (cx - x * 2 ^ (k + 1)).toNat (cy - y * 2 ^ (k + 1)).toNat
      = q.se.cell (cx - (2 * x + 1) * 2 ^ k).toNat (cy - 2 * y * 2 ^ k).toNat := by
  have hp : (0 : Int) < 2 ^ k := by positivity
  have hcast : ((2 ^ k : Nat) : Int) = 2 ^ k := by push_cast; ring
  obtain ⟨b1, b2, b3, b4⟩ := hb
  rw [show (2 * x + 1) * (2 : Int) ^ k = x * 2 ^ (k + 1) + 2 ^ k by ring] at b1
  rw [show (2 * x + 1 + 1) * (2 : Int) ^ k = x * 2 ^ (k + 1) + 2 ^ k + 2 ^ k by ring] at b2
  rw [show (2 * y + 1) * (2 : Int) ^ k = y * 2 ^ (k + 1) + 2 ^ k by ring] at b4
  obtain ⟨i', hi'⟩ : ∃ t, (cx - x * 2 ^ (k + 1)).toNat = 2 ^ k + t :=
    ⟨(cx - x * 2 ^ (k + 1)).toNat - 2 ^ k, by omega⟩
  rw [hi', cell_eq_se _ i' (by omega)]
  rw [show cx - (2 * x + 1) * 2 ^ k = cx - x * 2 ^ (k + 1) - 2 ^ k by ring,
    show (cx - x * 2 ^ (k + 1) - 2 ^ k).toNat = i' by omega,
    show (2 : Int) * y * 2 ^ k = y * 2 ^ (k + 1) by ring]

theorem parent_cell_nw {k : Nat} (q : Node (k + 1)) {x y cx cy : Int}
    (hb : inNodeBox (2 * x) (2 * y + 1) k cx cy) :
    q.cell (cx - x * 2 ^ (k + 1)).toNat (cy - y * 2 ^ (k + 1)).toNat
      = q.nw.cell (cx - 2 * x * 2 ^ k).toNat (cy - (2 * y + 1) * 2 ^ k).toNat := by
  have hp : (0 : Int) < 2 ^ k := by positivity
  have hcast : ((2 ^ k : Nat) : Int) = 2 ^ k := by push_cast; ring
  obtain ⟨b1, b2, b3, b4⟩ := hb
  rw [show (2 * x + 1) * (2 : Int) ^ k = x * 2 ^ (k + 1) + 2 ^ k by ring] at b2
  rw [show (2 * y + 1) * (2 : Int) ^ k = y * 2 ^ (k + 1) + 2 ^ k by ring] at b3
  obtain ⟨j', hj'⟩ : ∃ t, (cy - y * 2 ^ (k + 1)).toNat = 2 ^ k + t :=
    ⟨(cy - y * 2 ^ (k + 1)).toNat - 2 ^ k, by omega⟩
  rw [hj', cell_eq_nw _ j' (by omega)]
  rw [show (2 : Int) * x * 2 ^ k = x * 2 ^ (k + 1) by ring,
    show cy - (2 * y + 1) * 2 ^ k = cy - y * 2 ^ (k + 1) - 2 ^ k by ring,
    show (cy - y * 2 ^ (k + 1) - 2 ^ k).toNat = j' by omega]

theorem parent_cell_ne {k : Nat} (q : Node (k + 1)) {x y cx cy : Int}
    (hb : inNodeBox (2 * x + 1) (2 * y + 1) k cx cy) :
    q.cell (cx - x * 2 ^ (k + 1)).toNat (cy - y * 2 ^ (k + 1)).toNat
      = q.ne.cell (cx - (2 * x + 1) * 2 ^ k).toNat (cy - (2 * y + 1) * 2 ^ k).toNat := by
  have hp : (0 : Int) < 2 ^ k := by positivity
  have hcast : ((2 ^ k : Nat) : Int) = 2 ^ k := by push_cast; ring
  obtain ⟨b1, b2, b3, b4⟩ := hb
  rw [show (2 * x + 1) * (2 : Int) ^ k = x * 2 ^ (k + 1) + 2 ^ k by ring] at b1
  rw [show (2 * y + 1) * (2 : Int) ^ k = y * 2 ^ (k + 1) + 2 ^ k by ring] at b3
  obtain ⟨i', hi'⟩ : ∃ t, (cx - x * 2 ^ (k + 1)).toNat = 2 ^ k + t :=
    ⟨(cx - x * 2 ^ (k + 1)).toNat - 2 ^ k, by omega⟩
  obtain ⟨j', hj'⟩ : ∃ t, (cy - y * 2 ^ (k + 1)).toNat = 2 ^ k + t :=
    ⟨(cy - y * 2 ^ (k + 1)).toNat - 2 ^ k, by omega⟩
  rw [hi', hj', cell_eq_ne _ i' j']
  rw [show cx - (2 * x + 1) * 2 ^ k = cx - x * 2 ^ (k + 1) - 2 ^ k by ring,
    show (cx - x * 2 ^ (k + 1) - 2 ^ k).toNat = i' by omega,
    show cy - (2 * y + 1) * 2 ^ k = cy - y * 2 ^ (k + 1) - 2 ^ k by ring,
    show (cy - y * 2 ^ (k + 1) - 2 ^ k).toNat = j' by omega]

/-- A point of a parent node box lies in exactly one of the four child boxes
(here: in at least one; disjointness is `inNodeBox_disjoint`). -/
theorem inNodeBox_split {k : Nat} {x y cx cy : Int} (hb : inNodeBox x y (k + 1) cx cy) :
    inNodeBox (2 * x) (2 * y + 1) k cx cy ∨ inNodeBox (2 * x + 1) (2 * y + 1) k cx cy ∨
      inNodeBox (2 * x) (2 * y) k cx cy ∨ inNodeBox (2 * x + 1) (2 * y) k cx cy := by
  obtain ⟨b1, b2, b3, b4⟩ := hb
  rw [show x * (2 : Int) ^ (k + 1) = 2 * x * 2 ^ k by ring] at b1
  rw [show (x + 1) * (2 : Int) ^ (k + 1) = (2 * x + 1 + 1) * 2 ^ k by ring] at b2
  rw [show y * (2 : Int) ^ (k + 1) = 2 * y * 2 ^ k by ring] at b3
  rw [show (y + 1) * (2 : Int) ^ (k + 1) = (2 * y + 1 + 1) * 2 ^ k by ring] at b4
  rcases lt_or_ge cx ((2 * x + 1) * 2 ^ k) with hcx | hcx <;>
    rcases lt_or_ge cy ((2 * y + 1) * 2 ^ k) with hcy | hcy
  · exact Or.inr (Or.inr (Or.inl ⟨b1, hcx, b3, hcy⟩))
  · exact Or.inl ⟨b1, hcx, hcy, b4⟩
  · exact Or.inr (Or.inr (Or.inr ⟨hcx, b2, b3, hcy⟩))
  · exact Or.inr (Or.inl ⟨hcx, b2, hcy, b4⟩)

/-- Frame property of `draw_to_cell` at a raw buffer index. -/
theorem drawToCell_frame_getD {k : Nat} (x y : Int) (n : Node k) (v : BoundingBox)
    (buf : List Nat) (i : Nat)
    (hni : ∀ cx cy, v.mem cx cy → inNodeBox x y k cx cy → v.index cx cy ≠ i) :
    (drawToCell v x y n buf).getD i 0 = buf.getD i 0 := by
  by_contra hne
  obtain ⟨cx, cy, hm, hb, hidx⟩ := drawToCell_frame x y n v buf i hne
  exact hni cx cy hm hb hidx

/-- Frame property of `draw_diff_to_cell` at a raw buffer index. -/
theorem drawDiffToCell_frame_getD {k : Nat} (x y : Int) (n : Node k) {k' : Nat}
    (p : Node k') (v : BoundingBox) (buf out : List Nat) (i : Nat)
    (hout : drawDiffToCell v x y n p buf = some out)
    (hni : ∀ cx cy, v.mem cx cy → inNodeBox x y k cx cy → v.index cx cy ≠ i) :
    out.getD i 0 = buf.getD i 0 := by
  by_contra hne
  obtain ⟨cx, cy, hm, hb, hidx⟩ := drawDiffToCell_frame x y n p v buf out i hout hne
  exact hni cx cy hm hb hidx

/-- Value property of `draw_diff_to_cell` at equal levels: descending a node
and a previous node of the same level over a buffer that holds the previous
node's rendered values inside the node box never panics, and produces a
buffer holding the new node's values there (entries elsewhere are governed by
`drawDiffToCell_frame`). -/
theorem drawDiffToCell_value : ∀ {k : Nat} (x y : Int) (n p : Node k) (v : BoundingBox)
    (buf : List Nat), buf.length = v.width * v.height →
    (∀ cx cy, v.mem cx cy → inNodeBox x y k cx cy →
      buf.getD (v.index cx cy) 0
        = (p.cell (cx - x * 2 ^ k).toNat (cy - y * 2 ^ k).toNat).toNat) →
    ∃ out, drawDiffToCell v x y n p buf = some out ∧
      out.length = buf.length ∧
      (∀ cx cy, v.mem cx cy → inNodeBox x y k cx cy →
        out.getD (v.index cx cy) 0
          = (n.cell (cx - x * 2 ^ k).toNat (cy - y * 2 ^ k).toNat).toNat)
  | 0, x, y, .leaf a, .leaf b, v, buf, hlen, hseed => by
      simp only [drawDiffToCell]
      by_cases hc : (BoundingBox.new x y 0).collides v = true
      · rw [if_pos hc]
        refine ⟨_, rfl, by simp, ?_⟩
        intro cx cy hm hb
        obtain ⟨b1, b2, b3, b4⟩ := hb
        have hx : cx = x := by simp only [pow_zero, mul_one] at b1 b2; omega
        have hy : cy = y := by simp only [pow_zero, mul_one] at b3 b4; omega
        subst hx
        subst hy
        rw [getD_set_self _ _ _ (by rw [hlen]; exact index_lt v hm)]
        simp [Node.cell, sub_self]
      · rw [if_neg hc]
        refine ⟨buf, rfl, rfl, ?_⟩
        intro cx cy hm hb
        exact absurd (collides_of_mem v hm hb) hc
  | k + 1, x, y, .branch n1 n2 n3 n4, .branch p1 p2 p3 p4, v, buf, hlen, hseed => by
      by_cases hc : (BoundingBox.new x y (k + 1)).collides v = true
      case neg =>
        refine ⟨buf, ?_, rfl, ?_⟩
        · simp only [drawDiffToCell]
          rw [if_neg hc]
        · intro cx cy hm hb
          exact absurd (collides_of_mem v hm hb) hc
      case pos =>
        have hsub1 : ∀ {cx cy : Int}, inNodeBox (2 * x) (2 * y + 1) k cx cy →
            inNodeBox x y (k + 1) cx cy :=
          fun hb => inNodeBox_child hb (by omega) (by omega) (by omega) (by omega)
        have hsub2 : ∀ {cx cy : Int}, inNodeBox (2 * x + 1) (2 * y + 1) k cx cy →
            inNodeBox x y (k + 1) cx cy :=
          fun hb => inNodeBox_child hb (by omega) (by omega) (by omega) (by omega)
        have hsub3 : ∀ {cx cy : Int}, inNodeBox (2 * x) (2 * y) k cx cy →
            inNodeBox x y (k + 1) cx cy :=
          fun hb => inNodeBox_child hb (by omega) (by omega) (by omega) (by omega)
        have hsub4 : ∀ {cx cy : Int}, inNodeBox (2 * x + 1) (2 * y) k cx cy →
            inNodeBox x y (k + 1) cx cy :=
          fun hb => inNodeBox_child hb (by omega) (by omega) (by omega) (by omega)
        obtain ⟨c1, hc1, hl1, hv1, hfr1⟩ :
            ∃ c1, (if nodeEq n1 p1 then some buf
                else drawDiffToCell v (2 * x) (2 * y + 1) n1 p1 buf) = some c1 ∧
              c1.length = buf.length ∧
              (∀ cx cy, v.mem cx cy → inNodeBox (2 * x) (2 * y + 1) k cx cy →
                c1.getD (v.index cx cy) 0
                  = (n1.cell (cx - 2 * x * 2 ^ k).toNat
                      (cy - (2 * y + 1) * 2 ^ k).toNat).toNat) ∧
              (∀ i, (∀ cx cy, v.mem cx cy → inNodeBox (2 * x) (2 * y + 1) k cx cy →
                v.index cx cy ≠ i) → c1.getD i 0 = buf.getD i 0) := by
          have hseed1 : ∀ cx cy, v.mem cx cy → inNodeBox (2 * x) (2 * y + 1) k cx cy →
              buf.getD (v.index cx cy) 0
                = (p1.cell (cx - 2 * x * 2 ^ k).toNat
                    (cy - (2 * y + 1) * 2 ^ k).toNat).toNat := by
            intro cx cy hm hb
            rw [hseed cx cy hm (hsub1 hb), parent_cell_nw _ hb, branch_nw]
          by_cases he : nodeEq n1 p1 = true
          · obtain rfl : n1 = p1 := nodeEq_eq n1 p1 he
            rw [if_pos he]
            exact ⟨buf, rfl, rfl, hseed1, fun i _ => rfl⟩
          · rw [if_neg he]
            obtain ⟨c1, hc1, hl1, hv1⟩ :=
              drawDiffToCell_value (2 * x) (2 * y + 1) n1 p1 v buf hlen hseed1
            exact ⟨c1, hc1, hl1, hv1, fun i hni =>
              drawDiffToCell_frame_getD (2 * x) (2 * y + 1) n1 p1 v buf c1 i hc1 hni⟩
        have hlen1' : c1.length = v.width * v.height := by rw [hl1]; exact hlen
        have hkeep1 : ∀ cx cy, v.mem cx cy → ¬ inNodeBox (2 * x) (2 * y + 1) k cx cy →
            c1.getD (v.index cx cy) 0 = buf.getD (v.index cx cy) 0 := by
          intro cx cy hm hnb
          refine hfr1 _ (fun cx' cy' hm' hb' hne => ?_)
          obtain ⟨rfl, rfl⟩ := index_inj v hm' hm hne
          exact hnb hb'
        obtain ⟨c2, hc2, hl2, hv2, hfr2⟩ :
            ∃ c2, (if nodeEq n2 p2 then some c1
                else drawDiffToCell v (2 * x + 1) (2 * y + 1) n2 p2 c1) = some c2 ∧
              c2.length = c1.length ∧
              (∀ cx cy, v.mem cx cy → inNodeBox (2 * x + 1) (2 * y + 1) k cx cy →
                c2.getD (v.index cx cy) 0
                  = (n2.cell (cx - (2 * x + 1) * 2 ^ k).toNat
                      (cy - (2 * y + 1) * 2 ^ k).toNat).toNat) ∧
              (∀ i, (∀ cx cy, v.mem cx cy → inNodeBox (2 * x + 1) (2 * y + 1) k cx cy →
                v.index cx cy ≠ i) → c2.getD i 0 = c1.getD i 0) := by
          have hseed2 : ∀ cx cy, v.mem cx cy → inNodeBox (2 * x + 1) (2 * y + 1) k cx cy →
              c1.getD (v.index cx cy) 0
                = (p2.cell (cx - (2 * x + 1) * 2 ^ k).toNat
                    (cy - (2 * y + 1) * 2 ^ k).toNat).toNat := by
            intro cx cy hm hb
            rw [hkeep1 cx cy hm (fun hbx => inNodeBox_disjoint (by omega) hb hbx),
              hseed cx cy hm (hsub2 hb), parent_cell_ne _ hb, branch_ne]
          by_cases he : nodeEq n2 p2 = true
          · obtain rfl : n2 = p2 := nodeEq_eq n2 p2 he
            rw [if_pos he]
            exact ⟨c1, rfl, rfl, hseed2, fun i _ => rfl⟩
          · rw [if_neg he]
            obtain ⟨c2, hc2, hl2, hv2⟩ :=
              drawDiffToCell_value (2 * x + 1) (2 * y + 1) n2 p2 v c1 hlen1' hseed2
            exact ⟨c2, hc2, hl2, hv2, fun i hni =>
              drawDiffToCell_frame_getD (2 * x + 1) (2 * y + 1) n2 p2 v c1 c2 i hc2 hni⟩
        have hlen2' : c2.length = v.width * v.height := by rw [hl2]; exact hlen1'
        have hkeep2 : ∀ cx cy, v.mem cx cy → ¬ inNodeBox (2 * x + 1) (2 * y + 1) k cx cy →
            c2.getD (v.index cx cy) 0 = c1.getD (v.index cx cy) 0 := by
          intro cx cy hm hnb
          refine hfr2 _ (fun cx' cy' hm' hb' hne => ?_)
          obtain ⟨rfl, rfl⟩ := index_inj v hm' hm hne
          exact hnb hb'
        obtain ⟨c3, hc3, hl3, hv3, hfr3⟩ :
            ∃ c3, (if nodeEq n3 p3 then some c2
                else drawDiffToCell v (2 * x) (2 * y) n3 p3 c2) = some c3 ∧
              c3.length = c2.length ∧
              (∀ cx cy, v.mem cx cy → inNodeBox (2 * x) (2 * y) k cx cy →
                c3.getD (v.index cx cy) 0
                  = (n3.cell (cx - 2 * x * 2 ^ k).toNat
                      (cy - 2 * y * 2 ^ k).toNat).toNat) ∧
              (∀ i, (∀ cx cy, v.mem cx cy → inNodeBox (2 * x) (2 * y) k cx cy →
                v.index cx cy ≠ i) → c3.getD i 0 = c2.getD i 0) := by
          have hseed3 : ∀ cx cy, v.mem cx cy → inNodeBox (2 * x) (2 * y) k cx cy →
              c2.getD (v.index cx cy) 0
                = (p3.cell (cx - 2 * x * 2 ^ k).toNat
                    (cy - 2 * y * 2 ^ k).toNat).toNat := by
            intro cx cy hm hb
            rw [hkeep2 cx cy hm (fun hbx => inNodeBox_disjoint (by omega) hb hbx),
              hkeep1 cx cy hm (fun hbx => inNodeBox_disjoint (by omega) hb hbx),
              hseed cx cy hm (hsub3 hb), parent_cell_sw _ hb, branch_sw]
          by_cases he : nodeEq n3 p3 = true
          · obtain rfl : n3 = p3 := nodeEq_eq n3 p3 he
            rw [if_pos he]
            exact ⟨c2, rfl, rfl, hseed3, fun i _ => rfl⟩
          · rw [if_neg he]
            obtain ⟨c3, hc3, hl3, hv3⟩ :=
              drawDiffToCell_value (2 * x) (2 * y) n3 p3 v c2 hlen2' hseed3
            exact ⟨c3, hc3, hl3, hv3, fun i hni =>
              drawDiffToCell_frame_getD (2 * x) (2 * y) n3 p3 v c2 c3 i hc3 hni⟩
        have hlen3' : c3.length = v.width * v.height := by rw [hl3]; exact hlen2'
        have hkeep3 : ∀ cx cy, v.mem cx cy → ¬ inNodeBox (2 * x) (2 * y) k cx cy →
            c3.getD (v.index cx cy) 0 = c2.getD (v.index cx cy) 0 := by
          intro cx cy hm hnb
          refine hfr3 _ (fun cx' cy' hm' hb' hne => ?_)
          obtain ⟨rfl, rfl⟩ := index_inj v hm' hm hne
          exact hnb hb'
        obtain ⟨c4, hc4, hl4, hv4, hfr4⟩ :
            ∃ c4, (if nodeEq n4 p4 then some c3
                else drawDiffToCell v (2 * x + 1) (2 * y) n4 p4 c3) = some c4 ∧
              c4.length = c3.length ∧
              (∀ cx cy, v.mem cx cy → inNodeBox (2 * x + 1) (2 * y) k cx cy →
                c4.getD (v.index cx cy) 0
                  = (n4.cell (cx - (2 * x + 1) * 2 ^ k).toNat
                      (cy - 2 * y * 2 ^ k).toNat).toNat) ∧
              (∀ i, (∀ cx cy, v.mem cx cy → inNodeBox (2 * x + 1) (2 * y) k cx cy →
                v.index cx cy ≠ i) → c4.getD i 0 = c3.getD i 0) := by
          have hseed4 : ∀ cx cy, v.mem cx cy → inNodeBox (2 * x + 1) (2 * y) k cx cy →
              c3.getD (v.index cx cy) 0
                = (p4.cell (cx - (2 * x + 1) * 2 ^ k).toNat
                    (cy - 2 * y * 2 ^ k).toNat).toNat := by
            intro cx cy hm hb
            rw [hkeep3 cx cy hm (fun hbx => inNodeBox_disjoint (by omega) hb hbx),
              hkeep2 cx cy hm (fun hbx => inNodeBox_disjoint (by omega) hb hbx),
              hkeep1 cx cy hm (fun hbx => inNodeBox_disjoint (by omega) hb hbx),
              hseed cx cy hm (hsub4 hb), parent_cell_se _ hb, branch_se]
          by_cases he : nodeEq n4 p4 = true
          · obtain rfl : n4 = p4 := nodeEq_eq n4 p4 he
            rw [if_pos he]
            exact ⟨c3, rfl, rfl, hseed4, fun i _ => rfl⟩
          · rw [if_neg he]
            obtain ⟨c4, hc4, hl4, hv4⟩ :=
              drawDiffToCell_value (2 * x + 1) (2 * y) n4 p4 v c3 hlen3' hseed4
            exact ⟨c4, hc4, hl4, hv4, fun i hni =>
              drawDiffToCell_frame_getD (2 * x + 1) (2 * y) n4 p4 v c3 c4 i hc4 hni⟩
        refine ⟨c4, ?_, ?_, ?_⟩
        · simp only [drawDiffToCell]
          rw [if_pos hc, hc1]
          simp only [Option.bind]
          rw [hc2]
          simp only [Option.bind]
          rw [hc3]
          simp only [Option.bind]
          exact hc4
        · rw [hl4, hl3, hl2, hl1]
        · intro cx cy hm hb
          rcases inNodeBox_split hb with hb1 | hb2 | hb3 | hb4
          · rw [hfr4 _ (fun cx' cy' hm' hb' hne => by
                obtain ⟨rfl, rfl⟩ := index_inj v hm' hm hne
                exact inNodeBox_disjoint (by omega) hb' hb1),
              hfr3 _ (fun cx' cy' hm' hb' hne => by
                obtain ⟨rfl, rfl⟩ := index_inj v hm' hm hne
                exact inNodeBox_disjoint (by omega) hb' hb1),
              hfr2 _ (fun cx' cy' hm' hb' hne => by
                obtain ⟨rfl, rfl⟩ := index_inj v hm' hm hne
                exact inNodeBox_disjoint (by omega) hb' hb1),
              hv1 cx cy hm hb1, parent_cell_nw _ hb1, branch_nw]
          · rw [hfr4 _ (fun cx' cy' hm' hb' hne => by
                obtain ⟨rfl, rfl⟩ := index_inj v hm' hm hne
                exact inNodeBox_disjoint (by omega) hb' hb2),
              hfr3 _ (fun cx' cy' hm' hb' hne => by
                obtain ⟨rfl, rfl⟩ := index_inj v hm' hm hne
                exact inNodeBox_disjoint (by omega) hb' hb2),
              hv2 cx cy hm hb2, parent_cell_ne _ hb2, branch_ne]
          · rw [hfr4 _ (fun cx' cy' hm' hb' hne => by
                obtain ⟨rfl, rfl⟩ := index_inj v hm' hm hne
                exact inNodeBox_disjoint (by omega) hb' hb3),
              hv3 cx cy hm hb3, parent_cell_sw _ hb3, branch_sw]
          · rw [hv4 cx cy hm hb4, parent_cell_se _ hb4, branch_se]

theorem topChain_val_nw {s : Nat} (v : BoundingBox) (a b c d : Node s) (buf0 : List Nat)
    (hlen : buf0.length = v.width * v.height) {cx cy : Int} (hm : v.mem cx cy)
    (hb : inNodeBox (-1) 0 s cx cy) :
    (drawToCell v 0 (-1) d (drawToCell v (-1) (-1) c (drawToCell v 0 0 b
        (drawToCell v (-1) 0 a buf0)))).getD (v.index cx cy) 0
      = (a.cell (cx - (-1) * 2 ^ s).toNat (cy - 0 * 2 ^ s).toNat).toNat := by
  rw [drawToCell_preserve 0 (-1) d v _ hm
      (fun hb' => inNodeBox_disjoint (by omega) hb hb'),
    drawToCell_preserve (-1) (-1) c v _ hm
      (fun hb' => inNodeBox_disjoint (by omega) hb hb'),
    drawToCell_preserve 0 0 b v _ hm
      (fun hb' => inNodeBox_disjoint (by omega) hb hb'),
    drawToCell_value (-1) 0 a v buf0 cx cy hm hb hlen]

theorem topChain_val_ne {s : Nat} (v : BoundingBox) (a b c d : Node s) (buf0 : List Nat)
    (hlen : buf0.length = v.width * v.height) {cx cy : Int} (hm : v.mem cx cy)
    (hb : inNodeBox 0 0 s cx cy) :
    (drawToCell v 0 (-1) d (drawToCell v (-1) (-1) c (drawToCell v 0 0 b
        (drawToCell v (-1) 0 a buf0)))).getD (v.index cx cy) 0
      = (b.cell (cx - 0 * 2 ^ s).toNat (cy - 0 * 2 ^ s).toNat).toNat := by
  rw [drawToCell_preserve 0 (-1) d v _ hm
      (fun hb' => inNodeBox_disjoint (by omega) hb hb'),
    drawToCell_preserve (-1) (-1) c v _ hm
      (fun hb' => inNodeBox_disjoint (by omega) hb hb'),
    drawToCell_value 0 0 b v _ cx cy hm hb (by rw [drawToCell_length]; exact hlen)]

theorem topChain_val_sw {s : Nat} (v : BoundingBox) (a b c d : Node s) (buf0 : List Nat)
    (hlen : buf0.length = v.width * v.height) {cx cy : Int} (hm : v.mem cx cy)
    (hb : inNodeBox (-1) (-1) s cx cy) :
    (drawToCell v 0 (-1) d (drawToCell v (-1) (-1) c (drawToCell v 0 0 b
        (drawToCell v (-1) 0 a buf0)))).getD (v.index cx cy) 0
      = (c.cell (cx - (-1) * 2 ^ s).toNat (cy - (-1) * 2 ^ s).toNat).toNat := by
  rw [drawToCell_preserve 0 (-1) d v _ hm
      (fun hb' => inNodeBox_disjoint (by omega) hb hb'),
    drawToCell_value (-1) (-1) c v _ cx cy hm hb
      (by rw [drawToCell_length, drawToCell_length]; exact hlen)]

theorem topChain_val_se {s : Nat} (v : BoundingBox) (a b c d : Node s) (buf0 : List Nat)
    (hlen : buf0.length = v.width * v.height) {cx cy : Int} (hm : v.mem cx cy)
    (hb : inNodeBox 0 (-1) s cx cy) :
    (drawToCell v 0 (-1) d (drawToCell v (-1) (-1) c (drawToCell v 0 0 b
        (drawToCell v (-1) 0 a buf0)))).getD (v.index cx cy) 0
      = (d.cell (cx - 0 * 2 ^ s).toNat (cy - (-1) * 2 ^ s).toNat).toNat := by
  rw [drawToCell_value 0 (-1) d v _ cx cy hm hb
      (by rw [drawToCell_length, drawToCell_length, drawToCell_length]; exact hlen)]

theorem topChain_frame {s : Nat} (v : BoundingBox) (a b c d : Node s) (buf0 : List Nat)
    (i : Nat)
    (hni : ∀ cx cy, v.mem cx cy →
      (inNodeBox (-1) 0 s cx cy ∨ inNodeBox 0 0 s cx cy ∨
        inNodeBox (-1) (-1) s cx cy ∨ inNodeBox 0 (-1) s cx cy) → v.index cx cy ≠ i) :
    (drawToCell v 0 (-1) d (drawToCell v (-1) (-1) c (drawToCell v 0 0 b
        (drawToCell v (-1) 0 a buf0)))).getD i 0 = buf0.getD i 0 := by
  rw [drawToCell_frame_getD 0 (-1) d v _ i
      (fun cx cy hm hb => hni cx cy hm (Or.inr (Or.inr (Or.inr hb)))),
    drawToCell_frame_getD (-1) (-1) c v _ i
      (fun cx cy hm hb => hni cx cy hm (Or.inr (Or.inr (Or.inl hb)))),
    drawToCell_frame_getD 0 0 b v _ i
      (fun cx cy hm hb => hni cx cy hm (Or.inr (Or.inl hb))),
    drawToCell_frame_getD (-1) 0 a v _ i
      (fun cx cy hm hb => hni cx cy hm (Or.inl hb))]

/-- C6 (amended): when the current root and the previous root sit at the same
level `m + 1`, the differential renderer never panics and, applied to a
buffer seeded with the previous generation's full render, produces exactly
the current generation's full render on that viewport.  (When the levels
differ — as after an `Infinite` expansion — it can panic instead; see the
counterexample.) -/
theorem claim_C6_amended_diff_render (m : Nat) (t p : Node (m + 1)) (ed : Edge)
    (g g' : Nat) (pr : Option ((k : Nat) × Node k)) (v : BoundingBox) (buf0 : List Nat)
    (hlen : buf0.length = v.width * v.height) :
    drawDiffToViewportArray (Engine.mk ed (some ⟨m + 1, t⟩) (some ⟨m + 1, p⟩) g)
        (drawToViewportBuffer (Engine.mk ed (some ⟨m + 1, p⟩) pr g') buf0 v) v
      = some (drawToViewportBuffer (Engine.mk ed (some ⟨m + 1, t⟩) pr g') buf0 v) := by
  cases t with
  | branch t1 t2 t3 t4 =>
  cases p with
  | branch q1 q2 q3 q4 =>
  simp only [drawDiffToViewportArray, drawToViewportBuffer, branch_nw, branch_ne,
    branch_sw, branch_se]
  set S : List Nat := drawToCell v 0 (-1) q4 (drawToCell v (-1) (-1) q3
    (drawToCell v 0 0 q2 (drawToCell v (-1) 0 q1 buf0))) with hS
  have hSlen0 : S.length = buf0.length := by
    rw [hS, drawToCell_length, drawToCell_length, drawToCell_length, drawToCell_length]
  have hslen : S.length = v.width * v.height := by rw [hSlen0]; exact hlen
  have hsv1 : ∀ cx cy, v.mem cx cy → inNodeBox (-1) 0 m cx cy →
      S.getD (v.index cx cy) 0
        = (q1.cell (cx - (-1) * 2 ^ m).toNat (cy - 0 * 2 ^ m).toNat).toNat := by
    intro cx cy hm hb
    rw [hS]
    exact topChain_val_nw v q1 q2 q3 q4 buf0 hlen hm hb
  have hsv2 : ∀ cx cy, v.mem cx cy → inNodeBox 0 0 m cx cy →
      S.getD (v.index cx cy) 0
        = (q2.cell (cx - 0 * 2 ^ m).toNat (cy - 0 * 2 ^ m).toNat).toNat := by
    intro cx cy hm hb
    rw [hS]
    exact topChain_val_ne v q1 q2 q3 q4 buf0 hlen hm hb
  have hsv3 : ∀ cx cy, v.mem cx cy → inNodeBox (-1) (-1) m cx cy →
      S.getD (v.index cx cy) 0
        = (q3.cell (cx - (-1) * 2 ^ m).toNat (cy - (-1) * 2 ^ m).toNat).toNat := by
    intro cx cy hm hb
    rw [hS]
    exact topChain_val_sw v q1 q2 q3 q4 buf0 hlen hm hb
  have hsv4 : ∀ cx cy, v.mem cx cy → inNodeBox 0 (-1) m cx cy →
      S.getD (v.index cx cy) 0
        = (q4.cell (cx - 0 * 2 ^ m).toNat (cy - (-1) * 2 ^ m).toNat).toNat := by
    intro cx cy hm hb
    rw [hS]
    exact topChain_val_se v q1 q2 q3 q4 buf0 hlen hm hb
  have hsfr : ∀ i, (∀ cx cy, v.mem cx cy →
      (inNodeBox (-1) 0 m cx cy ∨ inNodeBox 0 0 m cx cy ∨
        inNodeBox (-1) (-1) m cx cy ∨ inNodeBox 0 (-1) m cx cy) → v.index cx cy ≠ i) →
      S.getD i 0 = buf0.getD i 0 := by
    intro i hni
    rw [hS]
    exact topChain_frame v q1 q2 q3 q4 buf0 i hni
  obtain ⟨d1, hd1, hl1, hv1, hfr1⟩ :
      ∃ d1, (if nodeEq t1 q1 then some S else drawDiffToCell v (-1) 0 t1 q1 S) = some d1 ∧
        d1.length = S.length ∧
        (∀ cx cy, v.mem cx cy → inNodeBox (-1) 0 m cx cy →
          d1.getD (v.index cx cy) 0
            = (t1.cell (cx - (-1) * 2 ^ m).toNat (cy - 0 * 2 ^ m).toNat).toNat) ∧
        (∀ i, (∀ cx cy, v.mem cx cy → inNodeBox (-1) 0 m cx cy → v.index cx cy ≠ i) →
          d1.getD i 0 = S.getD i 0) := by
    by_cases he : nodeEq t1 q1 = true
    · obtain rfl : t1 = q1 := nodeEq_eq t1 q1 he
      rw [if_pos he]
      exact ⟨S, rfl, rfl, hsv1, fun i _ => rfl⟩
    · rw [if_neg he]
      obtain ⟨d1, hd1, hl1, hv1⟩ := drawDiffToCell_value (-1) 0 t1 q1 v S hslen hsv1
      exact ⟨d1, hd1, hl1, hv1, fun i hni =>
        drawDiffToCell_frame_getD (-1) 0 t1 q1 v S d1 i hd1 hni⟩
  have hlen1' : d1.length = v.width * v.height := by rw [hl1]; exact hslen
  have hkeep1 : ∀ cx cy, v.mem cx cy → ¬ inNodeBox (-1) 0 m cx cy →
      d1.getD (v.index cx cy) 0 = S.getD (v.index cx cy) 0 := by
    intro cx cy hm hnb
    refine hfr1 _ (fun cx' cy' hm' hb' hne => ?_)
    obtain ⟨rfl, rfl⟩ := index_inj v hm' hm hne
    exact hnb hb'
  obtain ⟨d2, hd2, hl2, hv2, hfr2⟩ :
      ∃ d2, (if nodeEq t2 q2 then some d1 else drawDiffToCell v 0 0 t2 q2 d1) = some d2 ∧
        d2.length = d1.length ∧
        (∀ cx cy, v.mem cx cy → inNodeBox 0 0 m cx cy →
          d2.getD (v.index cx cy) 0
            = (t2.cell (cx - 0 * 2 ^ m).toNat (cy - 0 * 2 ^ m).toNat).toNat) ∧
        (∀ i, (∀ cx cy, v.mem cx cy → inNodeBox 0 0 m cx cy → v.index cx cy ≠ i) →
          d2.getD i 0 = d1.getD i 0) := by
    have hseed2 : ∀ cx cy, v.mem cx cy → inNodeBox 0 0 m cx cy →
        d1.getD (v.index cx cy) 0
          = (q2.cell (cx - 0 * 2 ^ m).toNat (cy - 0 * 2 ^ m).toNat).toNat := by
      intro cx cy hm hb
      rw [hkeep1 cx cy hm (fun hbx => inNodeBox_disjoint (by omega) hb hbx),
        hsv2 cx cy hm hb]
    by_cases he : nodeEq t2 q2 = true
    · obtain rfl : t2 = q2 := nodeEq_eq t2 q2 he
      rw [if_pos he]
      exact ⟨d1, rfl, rfl, hseed2, fun i _ => rfl⟩
    · rw [if_neg he]
      obtain ⟨d2, hd2, hl2, hv2⟩ := drawDiffToCell_value 0 0 t2 q2 v d1 hlen1' hseed2
      exact ⟨d2, hd2, hl2, hv2, fun i hni =>
        drawDiffToCell_frame_getD 0 0 t2 q2 v d1 d2 i hd2 hni⟩
  have hlen2' : d2.length = v.width * v.height := by rw [hl2]; exact hlen1'
  have hkeep2 : ∀ cx cy, v.mem cx cy → ¬ inNodeBox 0 0 m cx cy →
      d2.getD (v.index cx cy) 0 = d1.getD (v.index cx cy) 0 := by
    intro cx cy hm hnb
    refine hfr2 _ (fun cx' cy' hm' hb' hne => ?_)
    obtain ⟨rfl, rfl⟩ := index_inj v hm' hm hne
    exact hnb hb'
  obtain ⟨d3, hd3, hl3, hv3, hfr3⟩ :
      ∃ d3, (if nodeEq t3 q3 then some d2
          else drawDiffToCell v (-1) (-1) t3 q3 d2) = some d3 ∧
        d3.length = d2.length ∧
        (∀ cx cy, v.mem cx cy → inNodeBox (-1) (-1) m cx cy →
          d3.getD (v.index cx cy) 0
            = (t3.cell (cx - (-1) * 2 ^ m).toNat (cy - (-1) * 2 ^ m).toNat).toNat) ∧
        (∀ i, (∀ cx cy, v.mem cx cy → inNodeBox (-1) (-1) m cx cy → v.index cx cy ≠ i) →
          d3.getD i 0 = d2.getD i 0) := by
    have hseed3 : ∀ cx cy, v.mem cx cy → inNodeBox (-1) (-1) m cx cy →
        d2.getD (v.index cx cy) 0
          = (q3.cell (cx - (-1) * 2 ^ m).toNat (cy - (-1) * 2 ^ m).toNat).toNat := by
      intro cx cy hm hb
      rw [hkeep2 cx cy hm (fun hbx => inNodeBox_disjoint (by omega) hb hbx),
        hkeep1 cx cy hm (fun hbx => inNodeBox_disjoint (by omega) hb hbx),
        hsv3 cx cy hm hb]
    by_cases he : nodeEq t3 q3 = true
    · obtain rfl : t3 = q3 := nodeEq_eq t3 q3 he
      rw [if_pos he]
      exact ⟨d2, rfl, rfl, hseed3, fun i _ => rfl⟩
    · rw [if_neg he]
      obtain ⟨d3, hd3, hl3, hv3⟩ :=
        drawDiffToCell_value (-1) (-1) t3 q3 v d2 hlen2' hseed3
      exact ⟨d3, hd3, hl3, hv3, fun i hni =>
        drawDiffToCell_frame_getD (-1) (-1) t3 q3 v d2 d3 i hd3 hni⟩
  have hlen3' : d3.length = v.width * v.height := by rw [hl3]; exact hlen2'
  have hkeep3 : ∀ cx cy, v.mem cx cy → ¬ inNodeBox (-1) (-1) m cx cy →
      d3.getD (v.index cx cy) 0 = d2.getD (v.index cx cy) 0 := by
    intro cx cy hm hnb
    refine hfr3 _ (fun cx' cy' hm' hb' hne => ?_)
    obtain ⟨rfl, rfl⟩ := index_inj v hm' hm hne
    exact hnb hb'
  obtain ⟨d4, hd4, hl4, hv4, hfr4⟩ :
      ∃ d4, (if nodeEq t4 q4 then some d3
          else drawDiffToCell v 0 (-1) t4 q4 d3) = some d4 ∧
        d4.length = d3.length ∧
        (∀ cx cy, v.mem cx cy → inNodeBox 0 (-1) m cx cy →
          d4.getD (v.index cx cy) 0
            = (t4.cell (cx - 0 * 2 ^ m).toNat (cy - (-1) * 2 ^ m).toNat).toNat) ∧
        (∀ i, (∀ cx cy, v.mem cx cy → inNodeBox 0 (-1) m cx cy → v.index cx cy ≠ i) →
          d4.getD i 0 = d3.getD i 0) := by
    have hseed4 : ∀ cx cy, v.mem cx cy → inNodeBox 0 (-1) m cx cy →
        d3.getD (v.index cx cy) 0
          = (q4.cell (cx - 0 * 2 ^ m).toNat (cy - (-1) * 2 ^ m).toNat).toNat := by
      intro cx cy hm hb
      rw [hkeep3 cx cy hm (fun hbx => inNodeBox_disjoint (by omega) hb hbx),
        hkeep2 cx cy hm (fun hbx => inNodeBox_disjoint (by omega) hb hbx),
        hkeep1 cx cy hm (fun hbx => inNodeBox_disjoint (by omega) hb hbx),
        hsv4 cx cy hm hb]
    by_cases he : nodeEq t4 q4 = true
    · obtain rfl : t4 = q4 := nodeEq_eq t4 q4 he
      rw [if_pos he]
      exact ⟨d3, rfl, rfl, hseed4, fun i _ => rfl⟩
    · rw [if_neg he]
      obtain ⟨d4, hd4, hl4, hv4⟩ := drawDiffToCell_value 0 (-1) t4 q4 v d3 hlen3' hseed4
      exact ⟨d4, hd4, hl4, hv4, fun i hni =>
        drawDiffToCell_frame_getD 0 (-1) t4 q4 v d3 d4 i hd4 hni⟩
  rw [hd1]
  simp only [Option.bind]
  rw [hd2]
  simp only [Option.bind]
  rw [hd3]
  simp only [Option.bind]
  rw [hd4]
  have hfull : d4 = drawToCell v 0 (-1) t4 (drawToCell v (-1) (-1) t3
      (drawToCell v 0 0 t2 (drawToCell v (-1) 0 t1 buf0))) := by
    have hflen : (drawToCell v 0 (-1) t4 (drawToCell v (-1) (-1) t3
        (drawToCell v 0 0 t2 (drawToCell v (-1) 0 t1 buf0)))).length = buf0.length := by
      rw [drawToCell_length, drawToCell_length, drawToCell_length, drawToCell_length]
    have hdlen : d4.length = buf0.length := by rw [hl4, hl3, hl2, hl1, hSlen0]
    apply List.ext_getElem (by rw [hdlen, hflen])
    intro i hi1 hi2
    rw [← List.getD_eq_getElem _ 0 hi1, ← List.getD_eq_getElem _ 0 hi2]
    by_cases hex : ∃ cx cy, v.mem cx cy ∧ v.index cx cy = i ∧
        (inNodeBox (-1) 0 m cx cy ∨ inNodeBox 0 0 m cx cy ∨
          inNodeBox (-1) (-1) m cx cy ∨ inNodeBox 0 (-1) m cx cy)
    · obtain ⟨cx, cy, hm, hidx, hbox⟩ := hex
      subst hidx
      rcases hbox with hb | hb | hb | hb
      · rw [hfr4 _ (fun cx' cy' hm' hb' hne => by
            obtain ⟨rfl, rfl⟩ := index_inj v hm' hm hne
            exact inNodeBox_disjoint (by omega) hb' hb),
          hfr3 _ (fun cx' cy' hm' hb' hne => by
            obtain ⟨rfl, rfl⟩ := index_inj v hm' hm hne
            exact inNodeBox_disjoint (by omega) hb' hb),
          hfr2 _ (fun cx' cy' hm' hb' hne => by
            obtain ⟨rfl, rfl⟩ := index_inj v hm' hm hne
            exact inNodeBox_disjoint (by omega) hb' hb),
          hv1 cx cy hm hb, topChain_val_nw v t1 t2 t3 t4 buf0 hlen hm hb]
      · rw [hfr4 _ (fun cx' cy' hm' hb' hne => by
            obtain ⟨rfl, rfl⟩ := index_inj v hm' hm hne
            exact inNodeBox_disjoint (by omega) hb' hb),
          hfr3 _ (fun cx' cy' hm' hb' hne => by
            obtain ⟨rfl, rfl⟩ := index_inj v hm' hm hne
            exact inNodeBox_disjoint (by omega) hb' hb),
          hv2 cx cy hm hb, topChain_val_ne v t1 t2 t3 t4 buf0 hlen hm hb]
      · rw [hfr4 _ (fun cx' cy' hm' hb' hne => by
            obtain ⟨rfl, rfl⟩ := index_inj v hm' hm hne
            exact inNodeBox_disjoint (by omega) hb' hb),
          hv3 cx cy hm hb, topChain_val_sw v t1 t2 t3 t4 buf0 hlen hm hb]
      · rw [hv4 cx cy hm hb, topChain_val_se v t1 t2 t3 t4 buf0 hlen hm hb]
    · have hni : ∀ cx cy, v.mem cx cy →
          (inNodeBox (-1) 0 m cx cy ∨ inNodeBox 0 0 m cx cy ∨
            inNodeBox (-1) (-1) m cx cy ∨ inNodeBox 0 (-1) m cx cy) →
          v.index cx cy ≠ i :=
        fun cx cy hm hbx hidx => hex ⟨cx, cy, hm, hidx, hbx⟩
      rw [topChain_frame v t1 t2 t3 t4 buf0 i hni,
        hfr4 _ (fun cx cy hm hbx => hni cx cy hm (Or.inr (Or.inr (Or.inr hbx)))),
        hfr3 _ (fun cx cy hm hbx => hni cx cy hm (Or.inr (Or.inr (Or.inl hbx)))),
        hfr2 _ (fun cx cy hm hbx => hni cx cy hm (Or.inr (Or.inl hbx))),
        hfr1 _ (fun cx cy hm hbx => hni cx cy hm (Or.inl hbx)),
        hsfr i hni]
  exact congrArg some hfull

/-- C6 counterexample: after one `Infinite` generation of `spillEngine` the
root grows to level 3 while `previous` keeps the level-2 root; the
differential renderer panics on this state (it descends a branch whose
`previous` counterpart is a leaf), so it does not reproduce the full render
for every state with a previous generation. -/
theorem claim_C6_cex_diff_render_panics :
    spillDiff = none ∧ (nextGeneration spillEngine).isSome = true :=
  ⟨rfl, rfl⟩

theorem claim_C6_witness :
    ((List.replicate 16 0 : List Nat).length
        = cexViewport.width * cexViewport.height) ∧
    drawDiffToViewportArray (Engine.mk .truncate (some ⟨1, torusWitnessNode⟩)
        (some ⟨1, empty 1⟩) 1)
      (drawToViewportBuffer (Engine.mk .truncate (some ⟨1, empty 1⟩) none 0)
        (List.replicate 16 0) cexViewport) cexViewport
      = some (drawToViewportBuffer (Engine.mk .truncate (some ⟨1, torusWitnessNode⟩)
        none 0) (List.replicate 16 0) cexViewport) :=
  ⟨by decide, claim_C6_amended_diff_render 0 torusWitnessNode (empty 1) .truncate 1 0 none
    cexViewport (List.replicate 16 0) (by decide)⟩

end Hashlife
